import Mathlib

/-!
Verification development for the `comparing_tool` repository
(`src/compare_utils.py`, `src/file_utils.py`).

The Python code is shallowly embedded: strings are lists of characters,
Python `float` values are modeled exactly as IEEE-754 binary64 numbers
(sign, dyadic magnitude, infinities, nan), and all embedded definitions
are structurally recursive so that they evaluate inside the kernel.
I/O steps (file reading, `os.path.getsize`) are abstracted: functions
receive the already-read content (`Option` models a failed read, matching
`read_file` returning `None`), and `file_size_bytes` is fixed to the
failure fallback 0, which no verified property depends on.
-/

set_option maxRecDepth 8000

set_option maxHeartbeats 1000000

set_option exponentiation.threshold 1200

/-- Embedded Python strings: a list of characters. -/
abbrev Str := List Char

/-- Characters stripped by Python `str.strip()` (ASCII whitespace; the
claims never exercise non-ASCII whitespace). -/
def isPySpace (c : Char) : Bool :=
  c = ' ' || c = '\t' || c = '\n' || c = '\r' || c = '\x0b' || c = '\x0c'

/-- Python `str.strip()`. -/
def pyStrip (s : Str) : Str :=
  ((s.dropWhile isPySpace).reverse.dropWhile isPySpace).reverse

/-- Python `str.split(sep)` for a single-character separator:
splits at every occurrence, keeping empty pieces. -/
def pySplit (sep : Char) : Str → List Str
  | [] => [[]]
  | c :: rest =>
    if c = sep then [] :: pySplit sep rest
    else
      match pySplit sep rest with
      | [] => [[c]]
      | piece :: pieces => (c :: piece) :: pieces

/-- Python `','.join(parts)` (generalized to one separator character). -/
def pyJoin (sep : Char) : List Str → Str
  | [] => []
  | [p] => p
  | p :: ps => p ++ sep :: pyJoin sep ps

/-- Python `str.lower()` (ASCII case folding; paths and tokens in the
claims are ASCII). -/
def lowerStr (s : Str) : Str := s.map Char.toLower

/-- Python `str.endswith(suffix)`. -/
def strEndsWith (suffix s : Str) : Bool :=
  List.isPrefixOf suffix.reverse s.reverse

/-- Decimal digit test, i.e. the `\d` class restricted to ASCII as used
by the tool's regexes on stripped ASCII tokens. -/
def isDig (c : Char) : Bool := '0' ≤ c ∧ c ≤ '9'

/-- Numeric value of a list of decimal digit characters. -/
def digitsToNat (s : Str) : ℕ :=
  s.foldl (fun acc c => 10 * acc + (c.toNat - 48)) 0

/-- Fuel-driven decimal rendering of a natural number (structural
recursion so the kernel can evaluate it). -/
def natDigitsAux : ℕ → ℕ → Str
  | 0, _ => []
  | fuel + 1, n =>
    if n < 10 then [Char.ofNat (48 + n)]
    else natDigitsAux fuel (n / 10) ++ [Char.ofNat (48 + n % 10)]

/-- Decimal rendering of a natural number, most significant digit first. -/
def natDigits (n : ℕ) : Str := natDigitsAux (n + 1) n

example : natDigits 0 = ['0'] := by decide
example : natDigits 105 = ['1', '0', '5'] := by decide
example : digitsToNat ['1', '0', '5'] = 105 := by decide
example : pyStrip " a b ".toList = "a b".toList := by decide
example : pySplit ',' "a,,b".toList = ["a".toList, [], "b".toList] := by decide
example : pyJoin ',' ["a".toList, [], "b".toList] = "a,,b".toList := by decide
example : strEndsWith ".csv".toList "x.csv".toList = true := by decide
example : lowerStr "A.CsV".toList = "a.csv".toList := by decide

/-!
### Exact model of Python `float` (IEEE-754 binary64)

`float(string)` parses a decimal literal and rounds it to the nearest
binary64 value (ties to even), overflowing to an infinity; formatting
with `f"{x:.pf}"` renders the exact binary value rounded to `p` decimal
digits (ties to even).  Both operations are modeled exactly over ℕ/ℤ:
a finite float magnitude is a dyadic rational `m * 2 ^ k`.
-/

/-- Round `a / b` (with `b > 0`) to the nearest natural number,
ties to even. -/
def rheDiv (a b : ℕ) : ℕ :=
  let t := a / b
  let r := a % b
  if 2 * r < b then t
  else if b < 2 * r then t + 1
  else if t % 2 = 0 then t else t + 1

/-- Fuel-driven base-2 logarithm (structural recursion; with fuel at
least `n` it agrees with the mathematical floor of log2). -/
def nlog2Aux : ℕ → ℕ → ℕ
  | 0, _ => 0
  | fuel + 1, n => if n < 2 then 0 else nlog2Aux fuel (n / 2) + 1

/-- Floor of the base-2 logarithm of a natural number. -/
def nlog2 (n : ℕ) : ℕ := nlog2Aux n n

/-- Does the fraction `n / d` reach `2 ^ e` (for `n, d > 0`)? -/
def fracGePow2 (n d : ℕ) (e : ℤ) : Bool :=
  if 0 ≤ e then d * 2 ^ e.toNat ≤ n else d ≤ n * 2 ^ (-e).toNat

/-- Floor of the base-2 logarithm of the fraction `n / d`
(for `n, d > 0`). -/
def flog2Frac (n d : ℕ) : ℤ :=
  let e0 : ℤ := (nlog2 n : ℤ) - (nlog2 d : ℤ)
  if fracGePow2 n d e0 then e0 else e0 - 1

/-- A nonnegative dyadic rational `m * 2 ^ k`: the exact magnitude of a
finite binary64 value. -/
structure Dyad where
  m : ℕ
  k : ℤ
  deriving DecidableEq, Repr

/-- Round the nonnegative fraction `n / d` (with `d > 0`) to the nearest
binary64 magnitude, ties to even: the significand is chosen on the grid
`2 ^ (e - 52)` for `n / d` in binade `e` (clamped to the subnormal grid
`2 ^ (-1074)`), and values rounding to `2 ^ 1024` or beyond overflow to
`none` (an infinity). -/
def b64ofFrac (n d : ℕ) : Option Dyad :=
  if n = 0 then some ⟨0, 0⟩
  else
    let e : ℤ := flog2Frac n d
    let k : ℤ := max (e - 52) (-1074)
    let m : ℕ :=
      if 0 ≤ k then rheDiv n (d * 2 ^ k.toNat)
      else rheDiv (n * 2 ^ (-k).toNat) d
    let overflow : Bool :=
      if 0 ≤ k then 2 ^ 1024 ≤ m * 2 ^ k.toNat
      else 2 ^ (1024 + (-k).toNat) ≤ m
    if overflow then none else some ⟨m, k⟩

/-- The integer obtained by rounding `x * 10 ^ p` to the nearest integer
(ties to even) for a dyadic magnitude `x`; this is the digit string that
`f"{x:.pf}"` prints (before the decimal point is inserted). -/
def dyadScaled (x : Dyad) (p : ℕ) : ℕ :=
  if 0 ≤ x.k then x.m * 2 ^ x.k.toNat * 10 ^ p
  else rheDiv (x.m * 10 ^ p) (2 ^ (-x.k).toNat)

/-- Decimal digits of `n` left-padded with zeros to width `w`. -/
def padDigits (w : ℕ) (n : ℕ) : Str :=
  let ds := natDigits n
  List.replicate (w - ds.length) '0' ++ ds

/-- Python `f"{x:.pf}"` for a finite float with sign `neg` and exact
magnitude `x`: round to `p` decimal digits (ties to even), print the
integer part, and for `p > 0` a point followed by exactly `p` digits.
The sign of the float (including negative zero) is always printed. -/
def formatFixed (neg : Bool) (x : Dyad) (p : ℕ) : Str :=
  let nval := dyadScaled x p
  let core :=
    if p = 0 then natDigits nval
    else natDigits (nval / 10 ^ p) ++ '.' :: padDigits p (nval % 10 ^ p)
  if neg then '-' :: core else neg.rec core core

/-- A Python `float` value: finite (sign and exact dyadic magnitude),
infinite, or nan. -/
inductive PyFloat where
  | finite (neg : Bool) (mag : Dyad)
  | inf (neg : Bool)
  | nan
  deriving DecidableEq, Repr

/-- Python `f"{x:.pf}"` on a full float value. -/
def formatPyFloat (x : PyFloat) (p : ℕ) : Str :=
  match x with
  | .finite neg mag => formatFixed neg mag p
  | .inf neg => if neg then "-inf".toList else "inf".toList
  | .nan => "nan".toList

example : rheDiv 25 10 = 2 := by decide
example : rheDiv 35 10 = 4 := by decide
example : rheDiv 34 10 = 3 := by decide
example : nlog2 1 = 0 := by decide
example : nlog2 12 = 3 := by decide
example : flog2Frac 12 10 = 0 := by decide
example : flog2Frac 1 10 = -4 := by decide
example : b64ofFrac 1 2 = some ⟨2 ^ 52, -53⟩ := by decide
example : formatFixed false ⟨2 ^ 52, -52⟩ 3 = "1.000".toList := by decide

/-!
### Normalizer (`normalizeNumber`, `normalizeCSVLine`, `preprocessContent`)
-/

/-- Does a string match the regex `-?\d+\.\d+` used by `normalizeNumber`
(optional minus, one or more digits, a point, one or more digits)? -/
def numPattern (s : Str) : Bool :=
  let t := if s.head? = some '-' then s.tail else s
  let ip := t.takeWhile isDig
  let rest := t.dropWhile isDig
  decide (ip ≠ []) &&
    match rest with
    | '.' :: fp => decide (fp ≠ []) && fp.all isDig
    | _ => false

/-- Integer part (digits before the point) of a token matching
`numPattern`, sign removed. -/
def tokenIntPart (s : Str) : Str :=
  (if s.head? = some '-' then s.tail else s).takeWhile isDig

/-- Fractional part (digits after the point) of a token matching
`numPattern`. -/
def tokenFracPart (s : Str) : Str :=
  ((if s.head? = some '-' then s.tail else s).dropWhile isDig).tail

/-- Python `float(value)` for a token matching `numPattern`: the decimal
value `(I.F) = digits(I ++ F) / 10 ^ |F|` rounded to binary64 (ties to
even, overflow to an infinity).  For such tokens `float` never raises
`ValueError`, so the `except` branch of `normalizeNumber` is dead. -/
def floatOfToken (s : Str) : PyFloat :=
  let neg := s.head? = some '-'
  match b64ofFrac (digitsToNat (tokenIntPart s ++ tokenFracPart s))
      (10 ^ (tokenFracPart s).length) with
  | some mag => .finite neg mag
  | none => .inf neg

/-- `compare_utils.normalizeNumber`: a token matching `-?\d+\.\d+` is
parsed with `float` and reformatted with `f"{v:.pf}"`; every other token
is returned unchanged. -/
def normalizeNumber (value : Str) (decimal_precision : ℕ) : Str :=
  if numPattern value then
    formatPyFloat (floatOfToken value) decimal_precision
  else value

/-- `compare_utils.normalizeCSVLine`: an empty line is returned as is;
otherwise the line is split on commas, each part stripped and
number-normalized, and the parts joined with commas. -/
def normalizeCSVLine (line : Str) (decimal_precision : ℕ) : Str :=
  if line = [] then line
  else
    pyJoin ','
      ((pySplit ',' line).map fun part =>
        normalizeNumber (pyStrip part) decimal_precision)

/-- `compare_utils.preprocessContent`: when the first line contains a
comma the content is treated as CSV and every line is normalized;
otherwise the lines pass through unmodified. -/
def preprocessContent (content : List Str) (decimal_precision : ℕ) : List Str :=
  if content = [] then content
  else
    let is_csv := match content with
      | [] => false
      | l0 :: _ => ',' ∈ l0
    if is_csv then content.map fun line => normalizeCSVLine line decimal_precision
    else content.map fun line => line

example : normalizeNumber "1.2".toList 3 = "1.200".toList := by decide
example : normalizeNumber "1.23456".toList 3 = "1.235".toList := by decide
example : normalizeNumber "2.675".toList 2 = "2.67".toList := by decide
example : normalizeNumber "0.0625".toList 3 = "0.062".toList := by decide
example : normalizeNumber "-0.0004".toList 3 = "-0.000".toList := by decide
example : normalizeNumber "42".toList 3 = "42".toList := by decide
example : normalizeNumber "1e10".toList 3 = "1e10".toList := by decide
example : normalizeNumber "abc".toList 3 = "abc".toList := by decide
example : normalizeNumber "1.5".toList 0 = "2".toList := by decide
example :
    normalizeCSVLine " a , 1.20 ,9".toList 3 = "a,1.200,9".toList := by decide

/-!
### TypeInferrer (`inferDataType`)

Python `int(s)` / `float(s)` accept surrounding whitespace, an optional
sign, and single underscores between digits; `float` additionally
accepts a decimal point, an exponent, and the case-insensitive words
inf / infinity / nan.  The recognizers below model that grammar (ASCII
digits; the tool only feeds it ASCII tokens).
-/

/-- Continuation of a digit group directly after a digit: further digits
with single underscores allowed only between digits. -/
def usDigitsAux : Str → Bool
  | [] => true
  | '_' :: rest =>
    match rest with
    | [] => false
    | c :: rest2 => isDig c && usDigitsAux rest2
  | c :: rest => isDig c && usDigitsAux rest

/-- A nonempty digit group with single underscores between digits
(Python numeric-literal digit groups). -/
def usDigits : Str → Bool
  | [] => false
  | c :: rest => isDig c && usDigitsAux rest

/-- Numeric value of a digit group (underscores removed). -/
def usVal (s : Str) : ℕ := digitsToNat (s.filter fun c => c ≠ '_')

/-- Strip one leading sign; returns (is-negative, rest). -/
def splitSign : Str → Bool × Str
  | '+' :: rest => (false, rest)
  | '-' :: rest => (true, rest)
  | s => (false, s)

/-- Python `int(s)` succeeds: optional surrounding whitespace, optional
sign, then a digit group. -/
def pyIntLit (s : Str) : Bool :=
  usDigits (splitSign (pyStrip s)).2

/-- Split a float literal at the first `e`/`E`:
(mantissa, exponent text when present). -/
def splitAtExp : Str → Str × Option Str
  | [] => ([], none)
  | c :: rest =>
    if c = 'e' || c = 'E' then ([], some rest)
    else
      let (m, ex) := splitAtExp rest
      (c :: m, ex)

/-- Split a mantissa at the first `.`:
(integer digits, fraction digits when a point is present). -/
def splitAtDot : Str → Str × Option Str
  | [] => ([], none)
  | c :: rest =>
    if c = '.' then ([], some rest)
    else
      let (ip, fp) := splitAtDot rest
      (c :: ip, fp)

/-- Is this mantissa text (sign already removed) a valid Python float
mantissa: digits, digits-point, digits-point-digits, or point-digits? -/
def validMantissa (m : Str) : Bool :=
  let (ip, fp) := splitAtDot m
  match fp with
  | none => usDigits ip
  | some f =>
    (usDigits ip && (decide (f = []) || usDigits f)) ||
      (decide (ip = []) && usDigits f)

/-- Is this exponent text a valid Python float exponent:
optional sign then a digit group? -/
def validExp (t : Str) : Bool := usDigits (splitSign t).2

/-- Exact value of Python `float(s)`, `none` when `s` does not parse.
The decimal literal `n * 10 ^ E` is rounded to binary64 by `b64ofFrac`;
two guards keep the power of ten that feeds `b64ofFrac` small without
changing the result: a positive decimal with `E > 400` is at least
`10 ^ 401 > 2 ^ 1024` and overflows to an infinity, and one whose
magnitude is below `10 ^ (-340) < 2 ^ (-1075)` (half the smallest
subnormal) rounds to zero. -/
def pyFloatValue (s : Str) : Option PyFloat :=
  let t := pyStrip s
  let (neg, u) := splitSign t
  if lowerStr u = "inf".toList || lowerStr u = "infinity".toList then
    some (.inf neg)
  else if lowerStr u = "nan".toList then some .nan
  else
    let (mant, expPart) := splitAtExp u
    let expOk := match expPart with
      | none => true
      | some t2 => validExp t2
    if validMantissa mant && expOk then
      let (ip, fp) := splitAtDot mant
      let fdigits := (fp.getD []).filter fun c => c ≠ '_'
      let n := usVal (ip ++ fp.getD [])
      let expVal : ℤ := match expPart with
        | none => 0
        | some t2 =>
          let (eneg, ed) := splitSign t2
          if eneg then -(usVal ed : ℤ) else (usVal ed : ℤ)
      let e : ℤ := expVal - fdigits.length
      let dc := (natDigits n).length
      if n = 0 then some (.finite neg ⟨0, 0⟩)
      else if 400 < e then some (.inf neg)
      else if e + dc < -340 then some (.finite neg ⟨0, 0⟩)
      else if 0 ≤ e then
        match b64ofFrac (n * 10 ^ e.toNat) 1 with
        | some mag => some (.finite neg mag)
        | none => some (.inf neg)
      else
        match b64ofFrac n (10 ^ (-e).toNat) with
        | some mag => some (.finite neg mag)
        | none => some (.inf neg)
    else none

/-- Python `float(s)` succeeds. -/
def pyFloatLit (s : Str) : Bool := (pyFloatValue s).isSome

/-- One segment of a date pattern: between `lo` and `hi` digits. -/
def dateSeg (s : Str) (lo hi : ℕ) : Bool :=
  decide (lo ≤ s.length) && decide (s.length ≤ hi) && s.all isDig

/-- Regex `^\d{4}/\d{1,2}/\d{1,2}$` (and its `-` variant via `sep`). -/
def dateYMD (sep : Char) (s : Str) : Bool :=
  match pySplit sep s with
  | [y, m, d] => dateSeg y 4 4 && dateSeg m 1 2 && dateSeg d 1 2
  | _ => false

/-- Regex `^\d{1,2}/\d{1,2}/\d{4}$`. -/
def dateMDY (s : Str) : Bool :=
  match pySplit '/' s with
  | [m, d, y] => dateSeg m 1 2 && dateSeg d 1 2 && dateSeg y 4 4
  | _ => false

/-- The fixed boolean token list of `inferDataType`. -/
def boolLits : List Str :=
  ["true", "false", "yes", "no", "y", "n", "1", "0", "t", "f"].map
    String.toList

/-- `compare_utils.inferDataType`: empty/whitespace-only is null, then
integer, float, date (three patterns, first match wins), boolean
(case-insensitive membership in the fixed list), default string. -/
def inferDataType (value : Str) : Str :=
  if pyStrip value = [] then "null".toList
  else
    let clean_value := pyStrip value
    if pyIntLit clean_value then "integer".toList
    else if pyFloatLit clean_value then "float".toList
    else if dateYMD '/' clean_value || dateMDY clean_value ||
        dateYMD '-' clean_value then "date".toList
    else if (lowerStr clean_value) ∈ boolLits then "boolean".toList
    else "string".toList

example : inferDataType "1".toList = "integer".toList := by decide
example : inferDataType "".toList = "null".toList := by decide
example : inferDataType "   ".toList = "null".toList := by decide
example : inferDataType "2024-01-15".toList = "date".toList := by decide
example : inferDataType "2024-13-45".toList = "date".toList := by decide
example : inferDataType "yes".toList = "boolean".toList := by decide
example : inferDataType "3.14".toList = "float".toList := by decide
example : inferDataType "hello".toList = "string".toList := by decide
example : inferDataType "1_0".toList = "integer".toList := by decide
example : inferDataType "inf".toList = "float".toList := by decide
example : inferDataType "1e10".toList = "float".toList := by decide
example : inferDataType "TRUE".toList = "boolean".toList := by decide
example : pyFloatValue "1.5".toList = some (.finite false ⟨3 * 2 ^ 51, -52⟩) := by decide
example : pyFloatValue "2e3".toList = some (.finite false ⟨2000 * 2 ^ 42, -42⟩) := by decide

/-!
### CatalogBuilder (`ColumnInfo`, `DataCatalog`, `createDataCatalog`)

Python dicts are embedded as insertion-ordered association lists where
assignment to an existing key replaces the value in place, and Python
sets as insertion-ordered duplicate-free lists; only membership and
cardinality of the set are ever observed.
-/

/-- `compare_utils.ColumnInfo` (the stored dataclass fields). -/
structure ColumnInfo where
  name : Str
  data_type : Str
  sample_values : List Str := []
  min_value : Option PyFloat := none
  max_value : Option PyFloat := none
  unique_values : List Str := []
  null_count : ℕ := 0
  row_count : ℕ := 0
  deriving DecidableEq, Repr

/-- `compare_utils.DataCatalog` (the stored dataclass fields). -/
structure DataCatalog where
  file_path : Str
  row_count : ℕ := 0
  column_count : ℕ := 0
  headers : List Str := []
  columns : List (Str × ColumnInfo) := []
  file_size_bytes : ℕ := 0
  has_header : Bool := true
  delimiter : Char := ','
  encoding : Str := "utf-8".toList
  deriving DecidableEq, Repr

/-- Python dict assignment `d[k] = v`: replace in place or append. -/
def dictSet (k : Str) (v : ColumnInfo) :
    List (Str × ColumnInfo) → List (Str × ColumnInfo)
  | [] => [(k, v)]
  | (k2, v2) :: rest =>
    if k2 = k then (k2, v) :: rest else (k2, v2) :: dictSet k v rest

/-- Python dict lookup `d[k]` / `d.get(k)`. -/
def dictGet (k : Str) : List (Str × ColumnInfo) → Option ColumnInfo
  | [] => none
  | (k2, v2) :: rest => if k2 = k then some v2 else dictGet k rest

/-- Python set insertion `s.add(x)`. -/
def setAdd (x : Str) (s : List Str) : List Str :=
  if x ∈ s then s else s ++ [x]

/-- Count of occurrences of `x` in `l`. -/
def countOcc (x : Str) (l : List Str) : ℕ :=
  l.countP fun y => decide (y = x)

/-- First occurrences of each element, in order (the key order of a
Python `Counter` built from `l`). -/
def dedupFirstAux (seen : List Str) : List Str → List Str
  | [] => []
  | x :: rest =>
    if x ∈ seen then dedupFirstAux seen rest
    else x :: dedupFirstAux (x :: seen) rest

/-- `Counter(l).most_common(1)[0][0]`: the element of `l` with the
highest count; Python's sort is stable, so ties go to the value first
inserted into the counter. -/
def mostCommonFirst (l : List Str) : Str :=
  match dedupFirstAux [] l with
  | [] => []
  | h :: t =>
    t.foldl (fun best x => if countOcc best l < countOcc x l then x else best) h

/-- Strict `<` on finite float magnitudes. -/
def dyadLtB (x y : Dyad) : Bool :=
  if x.k ≤ y.k then x.m < y.m * 2 ^ (y.k - x.k).toNat
  else x.m * 2 ^ (x.k - y.k).toNat < y.m

/-- Python float strict comparison `x < y` (nan compares false). -/
def pyFloatLtB : PyFloat → PyFloat → Bool
  | .nan, _ => false
  | _, .nan => false
  | .inf n1, .inf n2 => n1 && !n2
  | .inf n1, .finite _ _ => n1
  | .finite _ _, .inf n2 => !n2
  | .finite n1 m1, .finite n2 m2 =>
    if n1 then
      if n2 then dyadLtB m2 m1
      else !(decide (m1.m = 0) && decide (m2.m = 0))
    else if n2 then false
    else dyadLtB m1 m2

/-- A fresh `ColumnInfo(name=h, data_type=dt)`. -/
def mkCI (h : Str) (dt : Str) : ColumnInfo := { name := h, data_type := dt }

/-- One iteration of the row loop of the multi-row column scan
(`createDataCatalog` lines 345-365): count nulls, collect uniques, and
track min/max when the column's current `data_type` is numeric —
during this scan it is still the placeholder, so that branch never
fires unless a duplicated header name reuses an already-typed entry. -/
def scanCell (ci : ColumnInfo) (value : Str) : ColumnInfo :=
  if value = [] then { ci with null_count := ci.null_count + 1 }
  else
    let ci2 := { ci with unique_values := setAdd value ci.unique_values }
    if ci2.data_type = "integer".toList || ci2.data_type = "float".toList then
      match pyFloatValue value with
      | some v =>
        let mn := match ci2.min_value with
          | none => some v
          | some mv => if pyFloatLtB v mv then some v else some mv
        let mx := match ci2.max_value with
          | none => some v
          | some mv => if pyFloatLtB mv v then some v else some mv
        { ci2 with min_value := mn, max_value := mx }
      | none => ci2
    else ci2

/-- The per-column analysis of the multi-row path of
`createDataCatalog` (lines 339-375). -/
def analyzeColumn (data_rows : List (List Str)) (col_idx : ℕ)
    (ci0 : ColumnInfo) : ColumnInfo :=
  let values := data_rows.filterMap fun row => (row.get? col_idx).map pyStrip
  let ci1 := values.foldl scanCell { ci0 with row_count := data_rows.length }
  let ci2 := { ci1 with sample_values := values.take 100 }
  let non_empty_values := values.filter fun v => decide (v ≠ [])
  if non_empty_values = [] then ci2
  else
    { ci2 with
      data_type :=
        mostCommonFirst ((non_empty_values.take 20).map inferDataType) }

/-- The single-row special case of `createDataCatalog`
(lines 314-335): analyze the lone row under synthesized headers. -/
def singleRowScan (generic_headers data_row : List Str)
    (columns0 : List (Str × ColumnInfo)) : List (Str × ColumnInfo) :=
  generic_headers.enum.foldl
    (fun d pair =>
      let col_idx := pair.1
      let header := pair.2
      match data_row.get? col_idx with
      | none => d
      | some raw =>
        let value := pyStrip raw
        let ci0 := (dictGet header d).getD (mkCI header "unknown".toList)
        let ci1 := { ci0 with sample_values := [value], row_count := 1 }
        let ci2 :=
          if value = [] then { ci1 with null_count := ci1.null_count + 1 }
          else
            let ci := { ci1 with
              unique_values := setAdd value ci1.unique_values,
              data_type := inferDataType value }
            if ci.data_type = "integer".toList ||
                ci.data_type = "float".toList then
              match pyFloatValue value with
              | some v => { ci with min_value := some v, max_value := some v }
              | none => ci
            else ci
        dictSet header ci2 d)
    columns0

/-- Delimiter auto-detection: the first of `,` `;` tab `|` present in
the first line, defaulting to `,`. -/
def detectDelim (line : Str) : Char :=
  if ',' ∈ line then ','
  else if ';' ∈ line then ';'
  else if '\t' ∈ line then '\t'
  else if '|' ∈ line then '|'
  else ','

/-- `compare_utils.createDataCatalog` on already-read content.
`os.path.getsize` is an I/O lookup modeled by its documented failure
fallback 0 (`file_size_bytes` is profiled metadata no claim depends
on). -/
def createDataCatalog (file_path : Str) (content : List Str) : DataCatalog :=
  if content = [] then { file_path := file_path }
  else
    let delimiter := detectDelim (content.headD [])
    let rows :=
      (content.filter fun line => decide (pyStrip line ≠ [])).map
        (pySplit delimiter)
    if rows = [] then
      { file_path := file_path, file_size_bytes := 0, delimiter := delimiter }
    else
      let headers := (rows.headD []).map pyStrip
      let data_rows := rows.tail
      let columns0 :=
        headers.foldl (fun d h => dictSet h (mkCI h "unknown".toList) d) []
      let base : DataCatalog :=
        { file_path := file_path, file_size_bytes := 0,
          delimiter := delimiter, headers := headers,
          column_count := headers.length, row_count := data_rows.length,
          columns := columns0 }
      if data_rows = [] then
        if rows.length = 1 then
          let generic_headers :=
            (List.range headers.length).map fun i =>
              "Column".toList ++ natDigits (i + 1)
          let columns1 :=
            generic_headers.foldl
              (fun d h => dictSet h (mkCI h "unknown".toList) d) []
          { base with
            headers := generic_headers,
            columns := singleRowScan generic_headers headers columns1,
            row_count := 1 }
        else base
      else
        { base with
          columns :=
            headers.enum.foldl
              (fun d pair =>
                let ci :=
                  (dictGet pair.2 d).getD (mkCI pair.2 "unknown".toList)
                dictSet pair.2 (analyzeColumn data_rows pair.1 ci) d)
              columns0 }

example :
    (createDataCatalog "t.csv".toList
        ["a,b".toList, "1,2".toList, "3,4".toList]).headers =
      ["a".toList, "b".toList] := by decide
example :
    dictGet "a".toList
        (createDataCatalog "t.csv".toList
          ["a,b".toList, "1,2".toList, "3,4".toList]).columns =
      some { name := "a".toList, data_type := "integer".toList,
             sample_values := ["1".toList, "3".toList],
             min_value := none, max_value := none,
             unique_values := ["1".toList, "3".toList],
             null_count := 0, row_count := 2 } := by decide

/-!
### LineDiffer: model of Python `difflib.unified_diff`

The source calls the standard library's `difflib.unified_diff`.  The
model below follows that algorithm's published structure: the longest
matching block is found (maximal length, then earliest in `a`, then
earliest in `b` — the choice `SequenceMatcher.find_longest_match` makes
in the absence of junk; the junk/popularity heuristics only influence
which equal blocks are reported, never whether unequal content produces
output), blocks are collected recursively on both sides of it, adjacent
blocks are merged, opcodes are derived, grouped with 3 context lines,
and rendered in unified format with `---` / `+++` headers emitted
before the first group.
-/

/-- Length of the longest common prefix of two line sequences. -/
def matchLen : List Str → List Str → ℕ
  | x :: xs, y :: ys => if x = y then matchLen xs ys + 1 else 0
  | _, _ => 0

/-- Longest matching block `(i, j, k)`: `a[i : i+k] = b[j : j+k]` with
`k` maximal, ties broken by smallest `i`, then smallest `j`. -/
def longestMatch (a b : List Str) : ℕ × ℕ × ℕ :=
  (List.range a.length).foldl
    (fun best i =>
      (List.range b.length).foldl
        (fun best j =>
          let k := matchLen (a.drop i) (b.drop j)
          if best.2.2 < k then (i, j, k) else best)
        best)
    (0, 0, 0)

/-- Recursive collection of matching blocks (in order), driven by fuel
(one unit per level; the `a`-side shrinks strictly at each level, so
`a.length` units suffice). -/
def matchBlocksAux : ℕ → List Str → List Str → List (ℕ × ℕ × ℕ)
  | 0, _, _ => []
  | fuel + 1, a, b =>
    let lm := longestMatch a b
    let i := lm.1
    let j := lm.2.1
    let k := lm.2.2
    if k = 0 then []
    else
      matchBlocksAux fuel (a.take i) (b.take j) ++
        (i, j, k) ::
          (matchBlocksAux fuel (a.drop (i + k)) (b.drop (j + k))).map
            fun blk => (blk.1 + (i + k), blk.2.1 + (j + k), blk.2.2)

/-- Merge adjacent matching blocks, as
`SequenceMatcher.get_matching_blocks` does before appending the
terminating zero-length block. -/
def mergeAdjAux (cur : ℕ × ℕ × ℕ) : List (ℕ × ℕ × ℕ) → List (ℕ × ℕ × ℕ)
  | [] => if cur.2.2 ≠ 0 then [cur] else []
  | blk :: rest =>
    if cur.1 + cur.2.2 = blk.1 && cur.2.1 + cur.2.2 = blk.2.1 then
      mergeAdjAux (cur.1, cur.2.1, cur.2.2 + blk.2.2) rest
    else if cur.2.2 ≠ 0 then cur :: mergeAdjAux blk rest
    else mergeAdjAux blk rest

/-- `SequenceMatcher.get_matching_blocks`: merged blocks plus the
terminating `(len a, len b, 0)`. -/
def matchingBlocks (a b : List Str) : List (ℕ × ℕ × ℕ) :=
  mergeAdjAux (0, 0, 0) (matchBlocksAux a.length a b) ++
    [(a.length, b.length, 0)]

/-- Opcode tags of `SequenceMatcher.get_opcodes`. -/
inductive OpTag where
  | replace
  | delete
  | insert
  | equal
  deriving DecidableEq, Repr, Inhabited

/-- One opcode `(tag, i1, i2, j1, j2)`. -/
structure Opcode where
  tag : OpTag
  i1 : ℕ
  i2 : ℕ
  j1 : ℕ
  j2 : ℕ
  deriving DecidableEq, Repr, Inhabited

/-- The opcode-emitting fold of `SequenceMatcher.get_opcodes`. -/
def opcodesFromBlocks : List (ℕ × ℕ × ℕ) → ℕ → ℕ → List Opcode
  | [], _, _ => []
  | (ai, bj, size) :: rest, i, j =>
    (if i < ai ∧ j < bj then [⟨.replace, i, ai, j, bj⟩]
     else if i < ai then [⟨.delete, i, ai, j, bj⟩]
     else if j < bj then [⟨.insert, i, ai, j, bj⟩]
     else []) ++
      (if size ≠ 0 then [⟨.equal, ai, ai + size, bj, bj + size⟩] else []) ++
      opcodesFromBlocks rest (ai + size) (bj + size)

/-- `SequenceMatcher.get_opcodes`. -/
def getOpcodes (a b : List Str) : List Opcode :=
  opcodesFromBlocks (matchingBlocks a b) 0 0

/-- Trim a leading equal opcode to at most 3 context lines. -/
def fixFirst : List Opcode → List Opcode
  | [] => []
  | c :: rest =>
    if c.tag = .equal then
      { c with i1 := max c.i1 (c.i2 - 3), j1 := max c.j1 (c.j2 - 3) } :: rest
    else c :: rest

/-- Trim a trailing equal opcode to at most 3 context lines. -/
def fixLast (codes : List Opcode) : List Opcode :=
  match codes.reverse with
  | [] => []
  | c :: rest =>
    if c.tag = .equal then
      ({ c with i2 := min c.i2 (c.i1 + 3), j2 := min c.j2 (c.j1 + 3) } ::
        rest).reverse
    else (c :: rest).reverse

/-- The group-splitting loop of `get_grouped_opcodes` (context `n = 3`,
split threshold `nn = 6`): a long equal opcode ends the current group
and starts the next; the final group is dropped when it is a single
equal opcode. -/
def groupSplit (group : List Opcode) : List Opcode → List (List Opcode)
  | [] =>
    if group ≠ [] ∧ ¬(group.length = 1 ∧ (group.headD default).tag = .equal)
    then [group] else []
  | c :: rest =>
    if c.tag = .equal ∧ 6 < c.i2 - c.i1 then
      (group ++
          [{ c with i2 := min c.i2 (c.i1 + 3), j2 := min c.j2 (c.j1 + 3) }]) ::
        groupSplit
          [{ c with i1 := max c.i1 (c.i2 - 3), j1 := max c.j1 (c.j2 - 3) }]
          rest
    else groupSplit (group ++ [c]) rest

/-- `SequenceMatcher.get_grouped_opcodes` with the default context of
3 lines. -/
def getGroupedOpcodes (a b : List Str) : List (List Opcode) :=
  let codes0 := getOpcodes a b
  let codes1 := if codes0 = [] then [⟨.equal, 0, 1, 0, 1⟩] else codes0
  groupSplit [] (fixLast (fixFirst codes1))

/-- `difflib._format_range_unified`. -/
def formatRangeUnified (start stop : ℕ) : Str :=
  let beginning := start + 1
  let len := stop - start
  if len = 1 then natDigits beginning
  else natDigits (if len = 0 then start else beginning) ++ ',' :: natDigits len

/-- The tagged lines one opcode contributes to a hunk. -/
def opLines (a b : List Str) (op : Opcode) : List Str :=
  match op.tag with
  | .equal => ((a.drop op.i1).take (op.i2 - op.i1)).map fun l => ' ' :: l
  | .delete => ((a.drop op.i1).take (op.i2 - op.i1)).map fun l => '-' :: l
  | .insert => ((b.drop op.j1).take (op.j2 - op.j1)).map fun l => '+' :: l
  | .replace =>
    ((a.drop op.i1).take (op.i2 - op.i1)).map (fun l => '-' :: l) ++
      ((b.drop op.j1).take (op.j2 - op.j1)).map fun l => '+' :: l

/-- `difflib.unified_diff(a, b, fromfile, tofile, lineterm='')` as a
list of lines: file headers before the first group, then per group a
`@@` hunk header and the tagged lines. -/
def unifiedDiff (a b : List Str) (fromfile tofile : Str) : List Str :=
  match getGroupedOpcodes a b with
  | [] => []
  | groups =>
    ("--- ".toList ++ fromfile) :: ("+++ ".toList ++ tofile) ::
      (groups.map fun group =>
        let first := group.headD default
        let last := group.getLastD default
        ("@@ -".toList ++ formatRangeUnified first.i1 last.i2 ++
            " +".toList ++ formatRangeUnified first.j1 last.j2 ++
            " @@".toList) ::
          (group.map (opLines a b)).flatten).flatten

example :
    unifiedDiff ["a".toList] ["a".toList] "f1".toList "f2".toList = [] := by
  decide
example :
    unifiedDiff ["a".toList, "b".toList] ["a".toList, "c".toList]
        "f1".toList "f2".toList =
      ["--- f1".toList, "+++ f2".toList, "@@ -1,2 +1,2 @@".toList,
        " a".toList, "-b".toList, "+c".toList] := by decide

/-!
### ComparisonEngine (`DiffResult`, `compareFiles`, the matched-pair
branch of `compareDirectories`) and `file_utils.read_file`

Reading is I/O: the engine functions take the already-read content,
with `none` standing for `read_file` returning `None` (unreadable or
undecodable input).
-/

/-- `compare_utils.DiffResult`. -/
structure DiffResult where
  source_path : Str
  target_path : Str
  is_identical : Bool := true
  diff_lines : List Str := []
  source_only : Bool := false
  target_only : Bool := false
  source_catalog : Option DataCatalog := none
  target_catalog : Option DataCatalog := none
  source_content : Option (List Str) := none
  target_content : Option (List Str) := none
  deriving DecidableEq, Repr

/-- `',' in content[0] if content else False`: the content-sniffing half
of the per-side CSV test of `compareFiles`. -/
def firstLineHasComma (content : List Str) : Bool :=
  match content with
  | [] => false
  | l0 :: _ => decide (',' ∈ l0)

/-- `compare_utils.compareFiles` on already-read contents. -/
def compareFiles (source_path target_path : Str)
    (source_content target_content : Option (List Str))
    (decimal_precision : ℕ) (generate_catalog : Bool) : DiffResult :=
  if source_content = none ∨ target_content = none then
    { source_path := source_path, target_path := target_path,
      is_identical := false,
      diff_lines := ["Error: Unable to read one or both files".toList],
      source_content := source_content, target_content := target_content }
  else
    let sc := source_content.getD []
    let tc := target_content.getD []
    let source_is_csv :=
      strEndsWith ".csv".toList (lowerStr source_path) || firstLineHasComma sc
    let target_is_csv :=
      strEndsWith ".csv".toList (lowerStr target_path) || firstLineHasComma tc
    let source_catalog :=
      if generate_catalog && source_is_csv then
        some (createDataCatalog source_path sc)
      else none
    let target_catalog :=
      if generate_catalog && target_is_csv then
        some (createDataCatalog target_path tc)
      else none
    let normalized_source := preprocessContent sc decimal_precision
    let normalized_target := preprocessContent tc decimal_precision
    let diff := unifiedDiff normalized_source normalized_target
      source_path target_path
    { source_path := source_path, target_path := target_path,
      is_identical := decide (diff = []), diff_lines := diff,
      source_catalog := source_catalog, target_catalog := target_catalog,
      source_content := some sc, target_content := some tc }

/-- The matched-pair branch of `compare_utils.compareDirectories`
(lines 509-560): both files exist; contents are read, the diff is
computed on normalized content with relative-path labels, and catalogs
are generated only when both full paths end in `.csv` (case-sensitive,
unlike `compareFiles`). -/
def compareDirPairStep (source_path target_path : Str)
    (source_rel_path target_rel_path : Str)
    (source_content target_content : Option (List Str))
    (decimal_precision : ℕ) (generate_catalog : Bool) : DiffResult :=
  if source_content = none ∨ target_content = none then
    { source_path := source_rel_path, target_path := target_rel_path,
      is_identical := false,
      diff_lines := ["Error reading one of the files.".toList],
      source_content := some (source_content.getD []),
      target_content := some (target_content.getD []) }
  else
    let sc := source_content.getD []
    let tc := target_content.getD []
    let normalized_source := preprocessContent sc decimal_precision
    let normalized_target := preprocessContent tc decimal_precision
    let diff := unifiedDiff normalized_source normalized_target
      source_rel_path target_rel_path
    let csvPair :=
      generate_catalog && strEndsWith ".csv".toList source_path &&
        strEndsWith ".csv".toList target_path
    { source_path := source_rel_path, target_path := target_rel_path,
      is_identical := decide (diff = []), diff_lines := diff,
      source_catalog :=
        if csvPair then some (createDataCatalog source_path sc) else none,
      target_catalog :=
        if csvPair then some (createDataCatalog target_path tc) else none,
      source_content := some sc, target_content := some tc }

/-- The line-boundary characters of Python `str.splitlines` (with
`\r\n` treated as a single break by the scanner itself). -/
def isLineBreak (c : Char) : Bool :=
  c = '\n' || c = '\r' || c = '\x0b' || c = '\x0c' ||
    c = '\x1c' || c = '\x1d' || c = '\x1e' || c = '\x85' ||
    c = '\u2028' || c = '\u2029'

/-- Scanner for `str.splitlines`: `acc` holds the current line
reversed. -/
def splitlinesAux : List Char → List Char → List Str
  | [], acc => if acc = [] then [] else [acc.reverse]
  | '\r' :: '\n' :: rest, acc => acc.reverse :: splitlinesAux rest []
  | '\r' :: rest, acc => acc.reverse :: splitlinesAux rest []
  | c :: rest, acc =>
    if isLineBreak c then acc.reverse :: splitlinesAux rest []
    else splitlinesAux rest (c :: acc)

/-- `file_utils.read_file` on successfully decoded character content:
`file.read().splitlines()` — universal-newline decoding followed by
`splitlines` is equivalent to `splitlines` on the raw characters, since
both treat `\r\n`, `\r` and `\n` as one break.  Terminators are
discarded and a trailing terminator adds no final empty line. -/
def readFileLines (chars : List Char) : List Str :=
  splitlinesAux chars []

example :
    readFileLines "a\rb\r\nc\n\nd".toList =
      ["a".toList, "b".toList, "c".toList, [], "d".toList] := by decide
example : readFileLines "a\n".toList = ["a".toList] := by decide
example : readFileLines "".toList = [] := by decide
example :
    (compareFiles "x".toList "y".toList none (some []) 3 true).diff_lines =
      ["Error: Unable to read one or both files".toList] := by decide

/-!
### Claims C7, C8, C1, C9
-/

/-- Claim C7: `inferDataType` implements the fixed check order
null, integer, float, date, boolean, string as a pure function:
"1" maps to integer (never boolean), "" and "   " map to null,
"2024-01-15" maps to date, "yes" maps to boolean, "3.14" maps to
float, and "hello" maps to string. -/
theorem claim_C7_inferDataType_check_order :
    inferDataType "1".toList = "integer".toList ∧
    inferDataType "1".toList ≠ "boolean".toList ∧
    inferDataType "".toList = "null".toList ∧
    inferDataType "   ".toList = "null".toList ∧
    inferDataType "2024-01-15".toList = "date".toList ∧
    inferDataType "yes".toList = "boolean".toList ∧
    inferDataType "3.14".toList = "float".toList ∧
    inferDataType "hello".toList = "string".toList := by
  decide

/-- Claim C8: when either side's content is unreadable (`read_file`
returned None), `compareFiles` returns a DiffResult with
`is_identical = false` whose edit script is exactly the single
diagnostic line, rather than raising a fault. -/
theorem claim_C8_unreadable_single_diagnostic :
    (∀ sp tp tc p g,
      (compareFiles sp tp none tc p g).is_identical = false ∧
        (compareFiles sp tp none tc p g).diff_lines =
          ["Error: Unable to read one or both files".toList]) ∧
    (∀ sp tp sc p g,
      (compareFiles sp tp sc none p g).is_identical = false ∧
        (compareFiles sp tp sc none p g).diff_lines =
          ["Error: Unable to read one or both files".toList]) := by
  constructor <;> intro sp tp c p g <;> simp [compareFiles]

/-- Claim C1 is contradicted by the code: on the two-data-row CSV
"a,b / 1,2 / 3,4" the column `a` is inferred `integer` and contains the
numeric values 1 and 3, yet `min_value` and `max_value` remain `None`,
because `createDataCatalog` tests `col_info.data_type` against the
numeric types while scanning but only assigns the inferred type after
the scan, so the min/max branch can never fire in the multi-row path
(the dataclass fields, the report template showing min/max, and the
comment "Track min/max for numeric values" all expect them set). -/
theorem claim_C1_minmax_bug :
    (dictGet "a".toList
        (createDataCatalog "t.csv".toList
          ["a,b".toList, "1,2".toList, "3,4".toList]).columns).map
        (fun ci => (ci.data_type, ci.min_value, ci.max_value)) =
      some ("integer".toList, none, none) := by
  decide

/-- Claim C9: in the directory pairing step, catalogs for a matched
file pair are generated exactly when the flag is set, both contents are
readable, and both full paths are literally suffixed ".csv"; in
`compareFiles`, each side's catalog is generated exactly when the flag
is set and that side's path has a (case-insensitive) .csv extension or
its first content line contains a comma. -/
theorem claim_C9_catalog_generation_conditions :
    (∀ sp tp srp trp sc tc p g,
      ((compareDirPairStep sp tp srp trp (some sc) (some tc) p
            g).source_catalog.isSome =
          (g && strEndsWith ".csv".toList sp &&
            strEndsWith ".csv".toList tp)) ∧
        ((compareDirPairStep sp tp srp trp (some sc) (some tc) p
            g).target_catalog.isSome =
          (g && strEndsWith ".csv".toList sp &&
            strEndsWith ".csv".toList tp))) ∧
    (∀ sp tp srp trp tc p g,
      (compareDirPairStep sp tp srp trp none tc p g).source_catalog =
          none ∧
        (compareDirPairStep sp tp srp trp none tc p g).target_catalog =
          none) ∧
    (∀ sp tp srp trp sc p g,
      (compareDirPairStep sp tp srp trp sc none p g).source_catalog =
          none ∧
        (compareDirPairStep sp tp srp trp sc none p g).target_catalog =
          none) ∧
    (∀ sp tp sc tc p g,
      ((compareFiles sp tp (some sc) (some tc) p g).source_catalog.isSome =
          (g && (strEndsWith ".csv".toList (lowerStr sp) ||
            firstLineHasComma sc))) ∧
        ((compareFiles sp tp (some sc) (some tc) p g).target_catalog.isSome =
          (g && (strEndsWith ".csv".toList (lowerStr tp) ||
            firstLineHasComma tc)))) := by
  refine ⟨?_, ?_, ?_, ?_⟩ <;> intros <;>
    constructor <;>
      simp [compareDirPairStep, compareFiles] <;>
        split <;> simp_all

/-!
### Claim C2: header/column-count invariant
-/

/-- The key list of an embedded Python dict. -/
def dictKeys (d : List (Str × ColumnInfo)) : List Str := d.map Prod.fst

theorem dictKeys_dictSet (k : Str) (v : ColumnInfo)
    (d : List (Str × ColumnInfo)) :
    dictKeys (dictSet k v d) =
      if k ∈ dictKeys d then dictKeys d else dictKeys d ++ [k] := by
  induction d with
  | nil => simp [dictSet, dictKeys]
  | cons hd tl ih =>
    obtain ⟨k2, v2⟩ := hd
    by_cases hk : k2 = k
    · subst hk
      have hmem : k2 ∈ dictKeys ((k2, v2) :: tl) :=
        List.mem_cons_self _ _
      have hset : dictSet k2 v ((k2, v2) :: tl) = (k2, v) :: tl := by
        simp [dictSet]
      rw [hset, if_pos hmem]
      rfl
    · have hne : k ≠ k2 := fun h => hk h.symm
      simp only [dictSet, if_neg hk, dictKeys, List.map_cons] at ih ⊢
      rw [ih]
      by_cases hmem : k ∈ List.map Prod.fst tl
      · simp [hmem, hne, List.mem_cons]
      · simp [hmem, hne, List.mem_cons]

theorem dictKeys_dictSet_mem (k : Str) (v : ColumnInfo)
    (d : List (Str × ColumnInfo)) (h : k ∈ dictKeys d) :
    dictKeys (dictSet k v d) = dictKeys d := by
  rw [dictKeys_dictSet, if_pos h]

theorem length_eq_length_dictKeys (d : List (Str × ColumnInfo)) :
    d.length = (dictKeys d).length := by
  simp [dictKeys]

/-- Any fold whose step leaves the key list unchanged whenever the
touched key is already present preserves the key list, provided every
touched key is present initially. -/
theorem dictKeys_foldl_step {α : Type}
    (step : List (Str × ColumnInfo) → α → List (Str × ColumnInfo))
    (key : α → Str)
    (hstep : ∀ d pair, key pair ∈ dictKeys d →
      dictKeys (step d pair) = dictKeys d)
    (l : List α) (d0 : List (Str × ColumnInfo))
    (h : ∀ pair ∈ l, key pair ∈ dictKeys d0) :
    dictKeys (l.foldl step d0) = dictKeys d0 := by
  induction l generalizing d0 with
  | nil => simp
  | cons hd tl ih =>
    have hmem : key hd ∈ dictKeys d0 := h hd (by simp)
    have hkeep := hstep d0 hd hmem
    simp only [List.foldl_cons]
    rw [ih (step d0 hd) (fun pair hp => by
      rw [hkeep]; exact h pair (by simp [hp]))]
    exact hkeep

/-- Inserting a list of fresh, pairwise-distinct keys appends them to
the key list. -/
theorem dictKeys_foldl_insert (dt : Str) (hs : List Str)
    (d0 : List (Str × ColumnInfo)) (hnd : hs.Nodup)
    (hdisj : ∀ x ∈ hs, x ∉ dictKeys d0) :
    dictKeys (hs.foldl (fun d h => dictSet h (mkCI h dt) d) d0) =
      dictKeys d0 ++ hs := by
  induction hs generalizing d0 with
  | nil => simp
  | cons hd tl ih =>
    have hnew : hd ∉ dictKeys d0 := hdisj hd (by simp)
    have hkeys : dictKeys (dictSet hd (mkCI hd dt) d0) =
        dictKeys d0 ++ [hd] := by
      rw [dictKeys_dictSet, if_neg hnew]
    have hnd2 := List.nodup_cons.mp hnd
    simp only [List.foldl_cons]
    rw [ih (dictSet hd (mkCI hd dt) d0) hnd2.2
      (fun x hx => by
        rw [hkeys]
        simp only [List.mem_append, List.mem_singleton]
        rintro (hin | rfl)
        · exact hdisj x (by simp [hx]) hin
        · exact hnd2.1 hx), hkeys]
    simp

/-- Claim C2 is contradicted by the code on a repeated header name:
for content "a,a / 1,2" the header list has length 2 (equal to
column_count) but the columns mapping has a single entry, so the
three-way equality of the claim fails. -/
theorem claim_C2_counterexample :
    ¬ ((createDataCatalog "d.csv".toList
          ["a,a".toList, "1,2".toList]).columns.length =
        (createDataCatalog "d.csv".toList
          ["a,a".toList, "1,2".toList]).column_count) := by
  decide

theorem snd_mem_of_enum {α : Type} {x : ℕ × α} {l : List α}
    (h : x ∈ l.enum) : x.2 ∈ l := by
  rw [List.mem_enum_iff_getElem?] at h
  exact List.getElem?_mem h

/-- The column-analysis fold of the multi-row path touches only keys
already present, so it preserves the key list. -/
theorem dictKeys_analyze_fold (data_rows : List (List Str))
    (headers : List Str) (d0 : List (Str × ColumnInfo))
    (h : ∀ x ∈ headers, x ∈ dictKeys d0) :
    dictKeys
      (headers.enum.foldl
        (fun d pair =>
          let ci := (dictGet pair.2 d).getD (mkCI pair.2 "unknown".toList)
          dictSet pair.2 (analyzeColumn data_rows pair.1 ci) d)
        d0) = dictKeys d0 := by
  refine dictKeys_foldl_step _ (fun pair => pair.2) ?_ _ _ ?_
  · intro d pair hp
    exact dictKeys_dictSet_mem _ _ _ hp
  · intro pair hp
    exact h pair.2 (snd_mem_of_enum hp)

/-- `singleRowScan` touches only keys already present, so it preserves
the key list. -/
theorem dictKeys_singleRowScan (gh dr : List Str)
    (d0 : List (Str × ColumnInfo)) (h : ∀ x ∈ gh, x ∈ dictKeys d0) :
    dictKeys (singleRowScan gh dr d0) = dictKeys d0 := by
  unfold singleRowScan
  refine dictKeys_foldl_step _ (fun pair => pair.2) ?_ _ _ ?_
  · intro d pair hp
    dsimp only
    cases hget : dr.get? pair.1 with
    | none => rfl
    | some raw => exact dictKeys_dictSet_mem _ _ _ hp
  · intro pair hp
    exact h pair.2 (snd_mem_of_enum hp)

/-- Claim C2 as amended: the header list length always equals
`column_count`; and when the catalog's header names are pairwise
distinct (the claim fails only for a repeated header name, see the
counterexample) the columns mapping has exactly `column_count`
entries. -/
theorem claim_C2_amended (path : Str) (content : List Str) :
    (createDataCatalog path content).headers.length =
        (createDataCatalog path content).column_count ∧
      ((createDataCatalog path content).headers.Nodup →
        (createDataCatalog path content).columns.length =
          (createDataCatalog path content).column_count) := by
  by_cases hc : content = []
  · subst hc
    exact ⟨rfl, fun _ => rfl⟩
  · simp only [createDataCatalog, if_neg hc]
    split_ifs with h1 h2 h3
    · exact ⟨rfl, fun _ => rfl⟩
    · constructor
      · simp
      · intro hnd
        simp only [List.length_map, List.length_range] at hnd ⊢
        have hkeys1 : ∀ gh : List Str, gh.Nodup →
            dictKeys (gh.foldl (fun d h => dictSet h (mkCI h "unknown".toList) d) []) = gh := by
          intro gh hgh
          have := dictKeys_foldl_insert "unknown".toList gh [] hgh
            (by intro x hx; simp [dictKeys])
          simpa [dictKeys] using this
        rw [length_eq_length_dictKeys, dictKeys_singleRowScan _ _ _
          (by intro x hx; rw [hkeys1 _ hnd]; exact hx), hkeys1 _ hnd]
        simp
    · constructor
      · rfl
      · intro hnd
        simp only [] at hnd
        have := dictKeys_foldl_insert "unknown".toList
          ((List.headD
            ((content.filter fun line => decide (pyStrip line ≠ [])).map
              (pySplit (detectDelim (content.headD [])))) []).map pyStrip) []
          hnd (by intro x hx; simp [dictKeys])
        rw [length_eq_length_dictKeys]
        simp only [dictKeys] at this ⊢
        rw [this]
        simp
    · constructor
      · rfl
      · intro hnd
        simp only [] at hnd
        have hk0 := dictKeys_foldl_insert "unknown".toList
          ((List.headD
            ((content.filter fun line => decide (pyStrip line ≠ [])).map
              (pySplit (detectDelim (content.headD [])))) []).map pyStrip) []
          hnd (by intro x hx; simp [dictKeys])
        simp only [dictKeys] at hk0
        rw [length_eq_length_dictKeys, dictKeys_analyze_fold _ _ _
          (by intro x hx; simp only [dictKeys]; rw [hk0]; simpa using hx)]
        simp only [dictKeys]
        rw [hk0]
        simp

theorem claim_C2_amended_witness :
    (createDataCatalog "t.csv".toList
        ["a,b".toList, "1,2".toList]).columns.length =
      (createDataCatalog "t.csv".toList
        ["a,b".toList, "1,2".toList]).column_count :=
  (claim_C2_amended "t.csv".toList ["a,b".toList, "1,2".toList]).2
    (by decide)

/-!
### Claim C3: the data_type enumeration
-/

theorem dropWhile_idem (p : Char → Bool) (l : Str) :
    (l.dropWhile p).dropWhile p = l.dropWhile p := by
  induction l with
  | nil => rfl
  | cons c rest ih =>
    by_cases hp : p c
    · simp [List.dropWhile_cons, hp, ih]
    · simp [List.dropWhile_cons, hp]

theorem dropWhile_eq_self_of_prefix (p : Char → Bool) (l t : Str)
    (hl : l.dropWhile p = l) (ht : t <+: l) : t.dropWhile p = t := by
  cases t with
  | nil => rfl
  | cons c rest =>
    obtain ⟨s, hs⟩ := ht
    subst hs
    rw [List.dropWhile_eq_self_iff] at hl
    rw [List.dropWhile_eq_self_iff]
    intro h0
    have hc := hl (by simp)
    simpa using hc

theorem pyStrip_idem (s : Str) : pyStrip (pyStrip s) = pyStrip s := by
  unfold pyStrip
  set u := s.dropWhile isPySpace with hu
  set t := (u.reverse.dropWhile isPySpace).reverse with ht
  have hturn : t.reverse = u.reverse.dropWhile isPySpace := by
    rw [ht, List.reverse_reverse]
  have hu_self : u.dropWhile isPySpace = u := by
    rw [hu]; exact dropWhile_idem _ _
  have htpre : t <+: u := by
    rw [ht]
    conv_rhs => rw [← List.reverse_reverse u]
    exact List.reverse_prefix.mpr (List.dropWhile_suffix _)
  have ht_self : t.dropWhile isPySpace = t :=
    dropWhile_eq_self_of_prefix _ _ _ hu_self htpre
  rw [ht_self, hturn, dropWhile_idem, ← hturn, List.reverse_reverse]

theorem dedupFirstAux_sub (seen : List Str) (l : List Str) :
    ∀ x ∈ dedupFirstAux seen l, x ∈ l := by
  induction l generalizing seen with
  | nil => intro x hx; simp [dedupFirstAux] at hx
  | cons hd tl ih =>
    intro x hx
    unfold dedupFirstAux at hx
    by_cases hmem : hd ∈ seen
    · rw [if_pos hmem] at hx
      exact List.mem_cons_of_mem hd (ih seen x hx)
    · rw [if_neg hmem] at hx
      rcases List.mem_cons.mp hx with rfl | hx2
      · exact List.mem_cons_self _ _
      · exact List.mem_cons_of_mem hd (ih _ x hx2)

theorem foldl_pick_mem (l : List Str) (t : List Str) (best : Str) :
    t.foldl
        (fun b x => if countOcc b l < countOcc x l then x else b) best ∈
      best :: t := by
  induction t generalizing best with
  | nil => simp
  | cons hd tl ih =>
    simp only [List.foldl_cons]
    by_cases hlt : countOcc best l < countOcc hd l
    · rw [if_pos hlt]
      have := ih hd
      rcases List.mem_cons.mp this with h | h
      · rw [h]; simp
      · simp [h]
    · rw [if_neg hlt]
      have := ih best
      rcases List.mem_cons.mp this with h | h
      · rw [h]; simp
      · simp [h]

theorem mostCommonFirst_mem (l : List Str) (hl : l ≠ []) :
    mostCommonFirst l ∈ l := by
  unfold mostCommonFirst
  cases hdl : dedupFirstAux [] l with
  | nil =>
    exfalso
    cases l with
    | nil => exact hl rfl
    | cons hd tl =>
      unfold dedupFirstAux at hdl
      simp at hdl
  | cons h t =>
    have hsub := dedupFirstAux_sub [] l
    rw [hdl] at hsub
    show t.foldl
        (fun best x => if countOcc best l < countOcc x l then x else best)
        h ∈ l
    have := foldl_pick_mem l t h
    rcases List.mem_cons.mp this with heq | hmem
    · rw [heq]; exact hsub h (List.mem_cons_self _ _)
    · exact hsub _ (List.mem_cons_of_mem h hmem)

/-- The data_type values a built catalog can hold: the five inferred
types plus the placeholder. -/
def columnTypeEnum : List Str :=
  ["integer".toList, "float".toList, "date".toList, "boolean".toList,
    "string".toList, "unknown".toList]

theorem inferDataType_mem_five (v : Str) (h : pyStrip v ≠ []) :
    inferDataType v ∈
      ["integer".toList, "float".toList, "date".toList, "boolean".toList,
        "string".toList] := by
  unfold inferDataType
  rw [if_neg h]
  dsimp only
  split_ifs <;> decide

theorem dictGet_prop (P : ColumnInfo → Prop) (d : List (Str × ColumnInfo))
    (hd : ∀ pair ∈ d, P pair.2) (k : Str) (ci : ColumnInfo)
    (h : dictGet k d = some ci) : P ci := by
  induction d with
  | nil => simp [dictGet] at h
  | cons hd2 tl ih =>
    obtain ⟨k2, v2⟩ := hd2
    unfold dictGet at h
    by_cases hk : k2 = k
    · rw [if_pos hk] at h
      obtain rfl := Option.some.inj h
      exact hd (k2, v2) (List.mem_cons_self _ _)
    · rw [if_neg hk] at h
      exact ih (fun pair hp => hd pair (List.mem_cons_of_mem _ hp)) h

theorem dictSet_prop (P : ColumnInfo → Prop) (d : List (Str × ColumnInfo))
    (hd : ∀ pair ∈ d, P pair.2) (k : Str) (v : ColumnInfo) (hv : P v) :
    ∀ pair ∈ dictSet k v d, P pair.2 := by
  induction d with
  | nil =>
    intro pair hp
    simp only [dictSet, List.mem_singleton] at hp
    subst hp
    exact hv
  | cons hd2 tl ih =>
    obtain ⟨k2, v2⟩ := hd2
    intro pair hp
    unfold dictSet at hp
    by_cases hk : k2 = k
    · rw [if_pos hk] at hp
      rcases List.mem_cons.mp hp with rfl | hp2
      · exact hv
      · exact hd pair (List.mem_cons_of_mem _ hp2)
    · rw [if_neg hk] at hp
      rcases List.mem_cons.mp hp with rfl | hp2
      · exact hd (k2, v2) (List.mem_cons_self _ _)
      · exact ih (fun q hq => hd q (List.mem_cons_of_mem _ hq)) pair hp2

theorem foldl_prop {α : Type} (P : ColumnInfo → Prop)
    (step : List (Str × ColumnInfo) → α → List (Str × ColumnInfo))
    (hstep : ∀ d x, (∀ pair ∈ d, P pair.2) → ∀ pair ∈ step d x, P pair.2)
    (l : List α) (d0 : List (Str × ColumnInfo))
    (h0 : ∀ pair ∈ d0, P pair.2) :
    ∀ pair ∈ l.foldl step d0, P pair.2 := by
  induction l generalizing d0 with
  | nil => exact h0
  | cons hd tl ih =>
    simp only [List.foldl_cons]
    exact ih (step d0 hd) (hstep d0 hd h0)

theorem scanCell_data_type (ci : ColumnInfo) (v : Str) :
    (scanCell ci v).data_type = ci.data_type := by
  unfold scanCell
  by_cases hv : v = []
  · rw [if_pos hv]
  · rw [if_neg hv]
    dsimp only
    by_cases hdt : (decide (ci.data_type = "integer".toList) ||
        decide (ci.data_type = "float".toList)) = true
    · rw [if_pos hdt]
      cases hpv : pyFloatValue v <;> rfl
    · rw [if_neg hdt]

theorem foldl_scanCell_data_type (values : List Str) (ci : ColumnInfo) :
    (values.foldl scanCell ci).data_type = ci.data_type := by
  induction values generalizing ci with
  | nil => rfl
  | cons v rest ih =>
    simp only [List.foldl_cons]
    rw [ih, scanCell_data_type]

theorem mem_values_strip (data_rows : List (List Str)) (col_idx : ℕ)
    (v : Str)
    (hv : v ∈ data_rows.filterMap
      fun row => (row.get? col_idx).map pyStrip) :
    pyStrip v = v := by
  rw [List.mem_filterMap] at hv
  obtain ⟨row, _, hrow⟩ := hv
  rw [Option.map_eq_some'] at hrow
  obtain ⟨raw, _, hraw⟩ := hrow
  rw [← hraw]
  exact pyStrip_idem raw

theorem analyzeColumn_data_type_mem (data_rows : List (List Str))
    (col_idx : ℕ) (ci0 : ColumnInfo)
    (h0 : ci0.data_type ∈ columnTypeEnum) :
    (analyzeColumn data_rows col_idx ci0).data_type ∈ columnTypeEnum := by
  unfold analyzeColumn
  dsimp only
  split
  · simpa [foldl_scanCell_data_type] using h0
  · rename_i hne
    have hne2 : ((data_rows.filterMap
          fun row => (row.get? col_idx).map pyStrip).filter
            fun v => decide (v ≠ [])) ≠ [] := hne
    have htake : (((data_rows.filterMap
          fun row => (row.get? col_idx).map pyStrip).filter
            fun v => decide (v ≠ [])).take 20) ≠ [] := by
      cases hcons : ((data_rows.filterMap
          fun row => (row.get? col_idx).map pyStrip).filter
            fun v => decide (v ≠ [])) with
      | nil => exact absurd hcons hne2
      | cons a b => simp [hcons]
    have hmap : ((((data_rows.filterMap
          fun row => (row.get? col_idx).map pyStrip).filter
            fun v => decide (v ≠ [])).take 20).map inferDataType) ≠ [] := by
      simpa using htake
    have hmem := mostCommonFirst_mem _ hmap
    rw [List.mem_map] at hmem
    obtain ⟨v, hv, hdt⟩ := hmem
    have hvne : v ≠ [] := by
      have := List.mem_of_mem_take hv
      have := List.of_mem_filter this
      simpa using this
    have hvstrip : pyStrip v = v := by
      have := List.mem_of_mem_take hv
      have hvvals := List.mem_of_mem_filter this
      exact mem_values_strip data_rows col_idx v hvvals
    have hfive := inferDataType_mem_five v (by rw [hvstrip]; exact hvne)
    rw [hdt] at hfive
    dsimp only
    simp only [columnTypeEnum]
    simp only [List.mem_cons, List.not_mem_nil, or_false] at hfive ⊢
    tauto

theorem singleRowScan_prop (gh dr : List Str)
    (d0 : List (Str × ColumnInfo))
    (h0 : ∀ pair ∈ d0, pair.2.data_type ∈ columnTypeEnum) :
    ∀ pair ∈ singleRowScan gh dr d0, pair.2.data_type ∈ columnTypeEnum := by
  unfold singleRowScan
  refine foldl_prop (fun ci => ci.data_type ∈ columnTypeEnum) _ ?_ _ _ h0
  intro d pair hinv
  dsimp only
  cases hget : dr.get? pair.1 with
  | none => exact hinv
  | some raw =>
    refine dictSet_prop (fun ci => ci.data_type ∈ columnTypeEnum) _ hinv
      _ _ ?_
    have hci0 : ((dictGet pair.2 d).getD
        (mkCI pair.2 "unknown".toList)).data_type ∈ columnTypeEnum := by
      cases hg : dictGet pair.2 d with
      | none => simp [hg, mkCI, columnTypeEnum]
      | some ci =>
        simp only [hg, Option.getD_some]
        exact dictGet_prop (fun ci => ci.data_type ∈ columnTypeEnum) _ hinv _ _ hg
    by_cases hval : pyStrip raw = []
    · rw [if_pos hval]
      exact hci0
    · rw [if_neg hval]
      have hfive := inferDataType_mem_five (pyStrip raw)
        (by rw [pyStrip_idem]; exact hval)
      have hmem : inferDataType (pyStrip raw) ∈ columnTypeEnum := by
        simp only [columnTypeEnum]
        simp only [List.mem_cons, List.not_mem_nil, or_false] at hfive ⊢
        tauto
      dsimp only
      split
      · cases hpv : pyFloatValue (pyStrip raw) with
        | some v => exact hmem
        | none => exact hmem
      · exact hmem

/-- Claim C3 is contradicted by the code: on "a,b / 1," the column `b`
has no non-empty data values, so its data_type keeps the placeholder
"unknown", which is not one of the six enum values of the claim. -/
theorem claim_C3_counterexample :
    (dictGet "b".toList
        (createDataCatalog "t.csv".toList
          ["a,b".toList, "1,".toList]).columns).map
        ColumnInfo.data_type = some "unknown".toList ∧
      "unknown".toList ∉
        ["integer".toList, "float".toList, "date".toList,
          "boolean".toList, "string".toList, "null".toList] := by
  decide

/-- Claim C3 as amended: every column's data_type is one of
integer, float, date, boolean, string, or the placeholder "unknown"
kept by columns all of whose data values are empty/whitespace-only
("null" itself never occurs, since types are only inferred from
non-empty stripped values). -/
theorem claim_C3_amended (path : Str) (content : List Str)
    (nv : Str × ColumnInfo)
    (hmem : nv ∈ (createDataCatalog path content).columns) :
    nv.2.data_type ∈ columnTypeEnum := by
  by_cases hc : content = []
  · subst hc
    simp [createDataCatalog] at hmem
  · simp only [createDataCatalog, if_neg hc] at hmem
    have hinit : ∀ gh : List Str, ∀ pair ∈ (gh.foldl
        (fun d h => dictSet h (mkCI h "unknown".toList) d) []),
        pair.2.data_type ∈ columnTypeEnum := by
      intro gh
      refine foldl_prop (fun ci => ci.data_type ∈ columnTypeEnum) _ ?_ _ _
        (by intro pair hp; exact absurd hp (List.not_mem_nil pair))
      intro d x hinv
      exact dictSet_prop (fun ci => ci.data_type ∈ columnTypeEnum) _ hinv
        _ _ (by simp [mkCI, columnTypeEnum])
    split at hmem
    · simp at hmem
    · split at hmem
      · split at hmem
        · exact singleRowScan_prop _ _ _ (hinit _) nv hmem
        · exact hinit _ nv hmem
      · refine foldl_prop (fun ci => ci.data_type ∈ columnTypeEnum) _ ?_ _ _
          (hinit _) nv hmem
        intro d pair hinv
        refine dictSet_prop (fun ci => ci.data_type ∈ columnTypeEnum) _ hinv
          _ _ ?_
        refine analyzeColumn_data_type_mem _ _ _ ?_
        cases hg : dictGet pair.2 d with
        | none => simp [mkCI, columnTypeEnum]
        | some ci =>
          simp only [Option.getD_some]
          exact dictGet_prop (fun ci => ci.data_type ∈ columnTypeEnum) _ hinv _ _ hg

theorem claim_C3_amended_witness :
    (("b".toList,
        { name := "b".toList, data_type := "unknown".toList,
          sample_values := [[]], min_value := none, max_value := none,
          unique_values := [], null_count := 1, row_count := 1 }) :
          Str × ColumnInfo).2.data_type ∈ columnTypeEnum :=
  claim_C3_amended "t.csv".toList ["a,b".toList, "1,".toList] _ (by decide)

/-!
### Claim C4: emptiness of the unified diff characterizes equality
-/

theorem matchLen_le_left (a b : List Str) : matchLen a b ≤ a.length := by
  induction a generalizing b with
  | nil => cases b <;> simp [matchLen]
  | cons x xs ih =>
    cases b with
    | nil => simp [matchLen]
    | cons y ys =>
      unfold matchLen
      by_cases hxy : x = y
      · rw [if_pos hxy]
        simpa using ih ys
      · rw [if_neg hxy]
        simp

theorem matchLen_take_eq (a b : List Str) :
    a.take (matchLen a b) = b.take (matchLen a b) := by
  induction a generalizing b with
  | nil => cases b <;> simp [matchLen]
  | cons x xs ih =>
    cases b with
    | nil => simp [matchLen]
    | cons y ys =>
      unfold matchLen
      by_cases hxy : x = y
      · rw [if_pos hxy]
        simp [List.take_succ_cons, hxy, ih ys]
      · rw [if_neg hxy]
        simp

theorem matchLen_self (a : List Str) : matchLen a a = a.length := by
  induction a with
  | nil => rfl
  | cons x xs ih => simpa [matchLen] using ih

/-- Soundness of a matching block relative to two sequences: it stays
in range and its two slices are equal. -/
def blockSound (a b : List Str) (blk : ℕ × ℕ × ℕ) : Prop :=
  blk.1 + blk.2.2 ≤ a.length ∧ blk.2.1 + blk.2.2 ≤ b.length ∧
    (a.drop blk.1).take blk.2.2 = (b.drop blk.2.1).take blk.2.2

theorem blockSound_zero (a b : List Str) (i j : ℕ) (hi : i ≤ a.length)
    (hj : j ≤ b.length) : blockSound a b (i, j, 0) := by
  refine ⟨by simpa using hi, by simpa using hj, by simp⟩

theorem matchLen_le_right (a b : List Str) : matchLen a b ≤ b.length := by
  induction a generalizing b with
  | nil => cases b <;> simp [matchLen]
  | cons x xs ih =>
    cases b with
    | nil => simp [matchLen]
    | cons y ys =>
      unfold matchLen
      by_cases hxy : x = y
      · rw [if_pos hxy]
        simpa using ih ys
      · rw [if_neg hxy]
        simp

theorem blockSound_matchLen (a b : List Str) (i j : ℕ)
    (hi : i ≤ a.length) (hj : j ≤ b.length) :
    blockSound a b (i, j, matchLen (a.drop i) (b.drop j)) := by
  refine ⟨?_, ?_, matchLen_take_eq _ _⟩
  · have h := matchLen_le_left (a.drop i) (b.drop j)
    simp only [List.length_drop] at h
    show i + matchLen (a.drop i) (b.drop j) ≤ a.length
    omega
  · have h := matchLen_le_right (a.drop i) (b.drop j)
    simp only [List.length_drop] at h
    show j + matchLen (a.drop i) (b.drop j) ≤ b.length
    omega

theorem longestMatch_sound (a b : List Str) :
    blockSound a b (longestMatch a b) := by
  unfold longestMatch
  have inner : ∀ (i : ℕ), i ≤ a.length → ∀ (js : List ℕ),
      (∀ j ∈ js, j ≤ b.length) → ∀ (best : ℕ × ℕ × ℕ),
      blockSound a b best →
      blockSound a b (js.foldl
        (fun best j =>
          let k := matchLen (a.drop i) (b.drop j)
          if best.2.2 < k then (i, j, k) else best) best) := by
    intro i hi js
    induction js with
    | nil => intro _ best h; exact h
    | cons j js2 ih =>
      intro hjs best h
      simp only [List.foldl_cons]
      have hj : j ≤ b.length := hjs j (by simp)
      have hjs2 : ∀ x ∈ js2, x ≤ b.length := fun x hx => hjs x (by simp [hx])
      by_cases hlt : best.2.2 < matchLen (a.drop i) (b.drop j)
      · exact ih hjs2 _ (by simpa [hlt] using blockSound_matchLen a b i j hi hj)
      · exact ih hjs2 _ (by simpa [hlt] using h)
  have outer : ∀ (is2 : List ℕ), (∀ i ∈ is2, i ≤ a.length) →
      ∀ (best : ℕ × ℕ × ℕ),
      blockSound a b best →
      blockSound a b (is2.foldl
        (fun best i =>
          (List.range b.length).foldl
            (fun best j =>
              let k := matchLen (a.drop i) (b.drop j)
              if best.2.2 < k then (i, j, k) else best) best) best) := by
    intro is2
    induction is2 with
    | nil => intro _ best h; exact h
    | cons i is3 ih =>
      intro his best h
      simp only [List.foldl_cons]
      refine ih (fun x hx => his x (by simp [hx])) _
        (inner i (his i (by simp)) _ (fun j hj => le_of_lt (List.mem_range.mp hj)) best h)
  refine outer _ (fun i hi => le_of_lt (List.mem_range.mp hi)) _
    (blockSound_zero a b 0 0 (by omega) (by omega))

theorem matchBlocksAux_sound (fuel : ℕ) (a b : List Str) :
    ∀ blk ∈ matchBlocksAux fuel a b, blockSound a b blk := by
  induction fuel generalizing a b with
  | zero => intro blk hblk; simp [matchBlocksAux] at hblk
  | succ fuel ih =>
    intro blk hblk
    unfold matchBlocksAux at hblk
    set lm := longestMatch a b with hlm
    by_cases hk : lm.2.2 = 0
    · rw [if_pos hk] at hblk
      simp at hblk
    · rw [if_neg hk] at hblk
      have hsound := longestMatch_sound a b
      rw [← hlm] at hsound
      obtain ⟨hia, hjb, hslice⟩ := hsound
      rcases List.mem_append.mp hblk with hleft | hrest
      · have hs := ih (a.take lm.1) (b.take lm.2.1) blk hleft
        obtain ⟨h1, h2, h3⟩ := hs
        simp only [List.length_take] at h1 h2
        refine ⟨by omega, by omega, ?_⟩
        have e1 : ((a.take lm.1).drop blk.1).take blk.2.2 =
            (a.drop blk.1).take blk.2.2 := by
          rw [List.drop_take]
          rw [List.take_take]
          congr 1
          omega
        have e2 : ((b.take lm.2.1).drop blk.2.1).take blk.2.2 =
            (b.drop blk.2.1).take blk.2.2 := by
          rw [List.drop_take, List.take_take]
          congr 1
          omega
        rw [← e1, ← e2]
        exact h3
      · rcases List.mem_cons.mp hrest with rfl | hmap
        · exact ⟨hia, hjb, hslice⟩
        · rw [List.mem_map] at hmap
          obtain ⟨blk0, hblk0, rfl⟩ := hmap
          have hs := ih (a.drop (lm.1 + lm.2.2)) (b.drop (lm.2.1 + lm.2.2))
            blk0 hblk0
          obtain ⟨h1, h2, h3⟩ := hs
          simp only [List.length_drop] at h1 h2
          refine ⟨by simp only []; omega, by simp only []; omega, ?_⟩
          have a1 : lm.1 + lm.2.2 + blk0.1 = blk0.1 + (lm.1 + lm.2.2) := by
            omega
          have a2 : lm.2.1 + lm.2.2 + blk0.2.1 =
              blk0.2.1 + (lm.2.1 + lm.2.2) := by omega
          have e1 : ((a.drop (lm.1 + lm.2.2)).drop blk0.1).take blk0.2.2 =
              (a.drop (blk0.1 + (lm.1 + lm.2.2))).take blk0.2.2 := by
            rw [List.drop_drop, a1]
          have e2 : ((b.drop (lm.2.1 + lm.2.2)).drop blk0.2.1).take blk0.2.2 =
              (b.drop (blk0.2.1 + (lm.2.1 + lm.2.2))).take blk0.2.2 := by
            rw [List.drop_drop, a2]
          rw [← e1, ← e2]
          exact h3

/-- Blocks listed in order, each starting no earlier than the running
position, which advances past each block. -/
def chainFrom : ℕ → ℕ → List (ℕ × ℕ × ℕ) → Prop
  | _, _, [] => True
  | i, j, blk :: rest =>
    i ≤ blk.1 ∧ j ≤ blk.2.1 ∧
      chainFrom (blk.1 + blk.2.2) (blk.2.1 + blk.2.2) rest

theorem chainFrom_mono {i j i2 j2 : ℕ} {l : List (ℕ × ℕ × ℕ)}
    (h : chainFrom i2 j2 l) (hi : i ≤ i2) (hj : j ≤ j2) :
    chainFrom i j l := by
  cases l with
  | nil => trivial
  | cons blk rest =>
    obtain ⟨h1, h2, h3⟩ := h
    exact ⟨le_trans hi h1, le_trans hj h2, h3⟩

theorem chainFrom_append {L R : List (ℕ × ℕ × ℕ)} {i j i2 j2 : ℕ}
    (h1 : chainFrom i j L)
    (hend : ∀ blk ∈ L, blk.1 + blk.2.2 ≤ i2 ∧ blk.2.1 + blk.2.2 ≤ j2)
    (hle : i ≤ i2) (hlej : j ≤ j2)
    (h2 : chainFrom i2 j2 R) : chainFrom i j (L ++ R) := by
  induction L generalizing i j with
  | nil => exact chainFrom_mono h2 hle hlej
  | cons blk L2 ih =>
    obtain ⟨ha, hb, hc⟩ := h1
    refine ⟨ha, hb, ?_⟩
    exact ih hc (fun x hx => hend x (by simp [hx]))
      (hend blk (by simp)).1 (hend blk (by simp)).2

theorem chainFrom_shift {l : List (ℕ × ℕ × ℕ)} {i j di dj : ℕ}
    (h : chainFrom i j l) :
    chainFrom (i + di) (j + dj)
      (l.map fun blk => (blk.1 + di, blk.2.1 + dj, blk.2.2)) := by
  induction l generalizing i j with
  | nil => trivial
  | cons blk rest ih =>
    obtain ⟨h1, h2, h3⟩ := h
    refine ⟨by simp only []; omega, by simp only []; omega, ?_⟩
    have := ih h3
    simp only []
    have harr : blk.1 + di + blk.2.2 = blk.1 + blk.2.2 + di := by omega
    have harr2 : blk.2.1 + dj + blk.2.2 = blk.2.1 + blk.2.2 + dj := by omega
    rw [harr, harr2]
    exact this

theorem matchBlocksAux_chain (fuel : ℕ) (a b : List Str) :
    chainFrom 0 0 (matchBlocksAux fuel a b) := by
  induction fuel generalizing a b with
  | zero => trivial
  | succ fuel ih =>
    unfold matchBlocksAux
    set lm := longestMatch a b with hlm
    by_cases hk : lm.2.2 = 0
    · rw [if_pos hk]; trivial
    · rw [if_neg hk]
      have hshift := @chainFrom_shift
        (matchBlocksAux fuel (a.drop (lm.1 + lm.2.2))
          (b.drop (lm.2.1 + lm.2.2))) 0 0 (lm.1 + lm.2.2) (lm.2.1 + lm.2.2)
        (ih (a.drop (lm.1 + lm.2.2)) (b.drop (lm.2.1 + lm.2.2)))
      have hchainR : chainFrom lm.1 lm.2.1
          ((lm.1, lm.2.1, lm.2.2) ::
            (matchBlocksAux fuel (a.drop (lm.1 + lm.2.2))
              (b.drop (lm.2.1 + lm.2.2))).map
              fun blk =>
                (blk.1 + (lm.1 + lm.2.2), blk.2.1 + (lm.2.1 + lm.2.2),
                  blk.2.2)) := by
        refine ⟨le_refl _, le_refl _, ?_⟩
        simpa using hshift
      refine chainFrom_append (ih _ _) ?_ (by omega) (by omega) hchainR
      intro blk hblk
      have hs := matchBlocksAux_sound fuel (a.take lm.1) (b.take lm.2.1)
        blk hblk
      obtain ⟨h1, h2, _⟩ := hs
      simp only [List.length_take] at h1 h2
      exact ⟨by omega, by omega⟩

theorem blockSound_merge (a b : List Str) (cur blk : ℕ × ℕ × ℕ)
    (hc : blockSound a b cur) (hb : blockSound a b blk)
    (h1 : cur.1 + cur.2.2 = blk.1) (h2 : cur.2.1 + cur.2.2 = blk.2.1) :
    blockSound a b (cur.1, cur.2.1, cur.2.2 + blk.2.2) := by
  obtain ⟨hc1, hc2, hc3⟩ := hc
  obtain ⟨hb1, hb2, hb3⟩ := hb
  refine ⟨by simp only []; omega, by simp only []; omega, ?_⟩
  show (a.drop cur.1).take (cur.2.2 + blk.2.2) =
    (b.drop cur.2.1).take (cur.2.2 + blk.2.2)
  rw [List.take_add, List.take_add, hc3, List.drop_drop, List.drop_drop,
    h1, h2, hb3]

theorem mergeAdjAux_sound (a b : List Str) (l : List (ℕ × ℕ × ℕ)) :
    ∀ (cur : ℕ × ℕ × ℕ), blockSound a b cur →
    (∀ blk ∈ l, blockSound a b blk) →
    ∀ blk2 ∈ mergeAdjAux cur l, blockSound a b blk2 := by
  induction l with
  | nil =>
    intro cur hcur _ blk2 hblk2
    unfold mergeAdjAux at hblk2
    split at hblk2
    · rcases List.mem_singleton.mp hblk2 with rfl
      exact hcur
    · simp at hblk2
  | cons blk rest ih =>
    intro cur hcur hl blk2 hblk2
    unfold mergeAdjAux at hblk2
    split at hblk2
    · rename_i hcond
      simp only [Bool.and_eq_true, decide_eq_true_eq] at hcond
      have hsound := blockSound_merge a b cur blk hcur
        (hl blk (by simp)) hcond.1 hcond.2
      exact ih _ hsound (fun x hx => hl x (by simp [hx])) blk2 hblk2
    · split at hblk2
      · rcases List.mem_cons.mp hblk2 with rfl | hrest2
        · exact hcur
        · exact ih blk (hl blk (by simp))
            (fun x hx => hl x (by simp [hx])) blk2 hrest2
      · exact ih blk (hl blk (by simp))
          (fun x hx => hl x (by simp [hx])) blk2 hblk2

theorem mergeAdjAux_chain (l : List (ℕ × ℕ × ℕ)) :
    ∀ (cur : ℕ × ℕ × ℕ) (i j : ℕ), i ≤ cur.1 → j ≤ cur.2.1 →
    chainFrom (cur.1 + cur.2.2) (cur.2.1 + cur.2.2) l →
    chainFrom i j (mergeAdjAux cur l) := by
  induction l with
  | nil =>
    intro cur i j hi hj _
    unfold mergeAdjAux
    split
    · exact ⟨hi, hj, trivial⟩
    · trivial
  | cons blk rest ih =>
    intro cur i j hi hj hchain
    obtain ⟨h1, h2, h3⟩ := hchain
    unfold mergeAdjAux
    split
    · rename_i hcond
      simp only [Bool.and_eq_true, decide_eq_true_eq] at hcond
      refine ih _ i j (by simp only []; omega) (by simp only []; omega) ?_
      show chainFrom (cur.1 + (cur.2.2 + blk.2.2))
        (cur.2.1 + (cur.2.2 + blk.2.2)) rest
      have e1 : cur.1 + (cur.2.2 + blk.2.2) = blk.1 + blk.2.2 := by omega
      have e2 : cur.2.1 + (cur.2.2 + blk.2.2) = blk.2.1 + blk.2.2 := by
        omega
      rw [e1, e2]
      exact h3
    · split
      · refine ⟨hi, hj, ?_⟩
        exact ih blk (cur.1 + cur.2.2) (cur.2.1 + cur.2.2) h1 h2 h3
      · exact ih blk i j (le_trans hi (by omega)) (le_trans hj (by omega)) h3

theorem matchingBlocks_sound (a b : List Str) :
    ∀ blk ∈ matchingBlocks a b, blockSound a b blk := by
  intro blk hblk
  unfold matchingBlocks at hblk
  rcases List.mem_append.mp hblk with hmerge | hterm
  · exact mergeAdjAux_sound a b _ _
      (blockSound_zero a b 0 0 (by omega) (by omega))
      (matchBlocksAux_sound _ _ _) blk hmerge
  · rcases List.mem_singleton.mp hterm with rfl
    exact blockSound_zero a b a.length b.length (le_refl _) (le_refl _)

theorem matchingBlocks_chain (a b : List Str) :
    chainFrom 0 0 (matchingBlocks a b) := by
  unfold matchingBlocks
  have hR : chainFrom a.length b.length [(a.length, b.length, 0)] :=
    ⟨le_refl _, le_refl _, trivial⟩
  have hL : chainFrom 0 0
      (mergeAdjAux (0, 0, 0) (matchBlocksAux a.length a b)) :=
    mergeAdjAux_chain _ (0, 0, 0) 0 0 (le_refl _) (le_refl _)
      (by simpa using matchBlocksAux_chain a.length a b)
  refine chainFrom_append hL ?_ (by omega) (by omega) hR
  intro blk hblk
  have hs := mergeAdjAux_sound a b _ _
    (blockSound_zero a b 0 0 (by omega) (by omega))
    (matchBlocksAux_sound _ _ _) blk hblk
  exact ⟨hs.1, hs.2.1⟩

theorem opcodes_all_equal_imp (a b : List Str)
    (blocks : List (ℕ × ℕ × ℕ)) :
    ∀ (i j : ℕ),
      (∀ blk ∈ blocks, blockSound a b blk) →
      chainFrom i j blocks →
      blocks.getLast? = some (a.length, b.length, 0) →
      (∀ op ∈ opcodesFromBlocks blocks i j, op.tag = OpTag.equal) →
      a.drop i = b.drop j := by
  induction blocks with
  | nil => intro i j _ _ hlast _; simp at hlast
  | cons blk rest ih =>
    obtain ⟨ai, bj, size⟩ := blk
    intro i j hsound hchain hlast hops
    obtain ⟨hc1, hc2, hc3⟩ := hchain
    simp only [] at hc1 hc2 hc3
    have hops2 := hops
    unfold opcodesFromBlocks at hops2
    have hnotag : i = ai ∧ j = bj := by
      by_cases hia : i < ai
      · exfalso
        by_cases hjb : j < bj
        · have hmem : (⟨OpTag.replace, i, ai, j, bj⟩ : Opcode) ∈
              opcodesFromBlocks ((ai, bj, size) :: rest) i j := by
            unfold opcodesFromBlocks
            rw [if_pos ⟨hia, hjb⟩]
            simp
          have := hops _ hmem
          simp at this
        · have hmem : (⟨OpTag.delete, i, ai, j, bj⟩ : Opcode) ∈
              opcodesFromBlocks ((ai, bj, size) :: rest) i j := by
            unfold opcodesFromBlocks
            rw [if_neg (by tauto), if_pos hia]
            simp
          have := hops _ hmem
          simp at this
      · by_cases hjb : j < bj
        · exfalso
          have hmem : (⟨OpTag.insert, i, ai, j, bj⟩ : Opcode) ∈
              opcodesFromBlocks ((ai, bj, size) :: rest) i j := by
            unfold opcodesFromBlocks
            rw [if_neg (by tauto), if_neg hia, if_pos hjb]
            simp
          have := hops _ hmem
          simp at this
        · omega
    obtain ⟨h1, h2⟩ := hnotag
    subst h1
    subst h2
    have hopsrest : ∀ op ∈ opcodesFromBlocks rest (i + size) (j + size),
        op.tag = OpTag.equal := by
      intro op hop
      refine hops op ?_
      unfold opcodesFromBlocks
      rw [if_neg (by omega), if_neg (by omega), if_neg (by omega)]
      simp only [List.nil_append]
      rcases Decidable.em (size ≠ 0) with hsz | hsz
      · rw [if_pos hsz]
        exact List.mem_append_right _ hop
      · rw [if_neg hsz]
        simpa using hop
    cases rest with
    | nil =>
      have hterm : (i, j, size) = (a.length, b.length, 0) := by
        simpa using hlast
      have e1 : i = a.length := congrArg Prod.fst hterm
      have e2 : j = b.length := congrArg (fun p => p.2.1) hterm
      rw [e1, e2, List.drop_length, List.drop_length]
    | cons r rs =>
      have hlast2 : (r :: rs).getLast? = some (a.length, b.length, 0) := by
        rwa [List.getLast?_cons_cons] at hlast
      have hdroprest := ih (i + size) (j + size)
        (fun x hx => hsound x (by simp [hx])) hc3 hlast2 hopsrest
      have hslice := (hsound (i, j, size) (by simp)).2.2
      simp only [] at hslice
      have ha : a.drop i =
          (a.drop i).take size ++ a.drop (i + size) := by
        conv_lhs => rw [← List.take_append_drop size (a.drop i)]
        rw [List.drop_drop]
      have hb : b.drop j =
          (b.drop j).take size ++ b.drop (j + size) := by
        conv_lhs => rw [← List.take_append_drop size (b.drop j)]
        rw [List.drop_drop]
      rw [ha, hb, hslice, hdroprest]

theorem innerFold_keep (a b : List Str) (i : ℕ) (js : List ℕ)
    (best : ℕ × ℕ × ℕ)
    (h : ∀ j ∈ js, matchLen (a.drop i) (b.drop j) ≤ best.2.2) :
    js.foldl
      (fun best j =>
        let k := matchLen (a.drop i) (b.drop j)
        if best.2.2 < k then (i, j, k) else best) best = best := by
  induction js with
  | nil => rfl
  | cons j js2 ih =>
    simp only [List.foldl_cons]
    rw [if_neg (by have := h j (by simp); omega)]
    exact ih fun x hx => h x (by simp [hx])

theorem outerFold_keep (a b : List Str) (js0 : List ℕ) (is2 : List ℕ)
    (best : ℕ × ℕ × ℕ)
    (h : ∀ i2 j2 : ℕ, matchLen (a.drop i2) (b.drop j2) ≤ best.2.2) :
    is2.foldl
      (fun best i =>
        js0.foldl
          (fun best j =>
            let k := matchLen (a.drop i) (b.drop j)
            if best.2.2 < k then (i, j, k) else best) best) best = best := by
  induction is2 with
  | nil => rfl
  | cons i2 is3 ih =>
    simp only [List.foldl_cons]
    rw [innerFold_keep a b i2 js0 best fun j _ => h i2 j]
    exact ih

theorem longestMatch_self (a : List Str) (ha : a ≠ []) :
    longestMatch a a = (0, 0, a.length) := by
  have hbound : ∀ i2 j2 : ℕ, matchLen (a.drop i2) (a.drop j2) ≤ a.length :=
    fun i2 j2 => by
      have h := matchLen_le_left (a.drop i2) (a.drop j2)
      have h2 := List.length_drop i2 a
      omega
  obtain ⟨n, hlen⟩ : ∃ n, a.length = n + 1 := by
    cases hl : a.length with
    | zero => exact absurd (List.length_eq_zero.mp hl) ha
    | succ n => exact ⟨n, rfl⟩
  unfold longestMatch
  rw [hlen, List.range_succ_eq_map, List.foldl_cons]
  have hfirst :
      (((0 : ℕ) :: (List.range n).map Nat.succ).foldl
        (fun best j =>
          let k := matchLen (a.drop 0) (a.drop j)
          if best.2.2 < k then (0, j, k) else best) (0, 0, 0)) =
        (0, 0, n + 1) := by
    rw [List.foldl_cons]
    have hk : matchLen (a.drop 0) (a.drop 0) = n + 1 := by
      simp [List.drop_zero, matchLen_self, hlen]
    show ((List.range n).map Nat.succ).foldl
        (fun best j =>
          let k := matchLen (a.drop 0) (a.drop j)
          if best.2.2 < k then (0, j, k) else best)
        (if (0 : ℕ) < matchLen (a.drop 0) (a.drop 0) then
          (0, 0, matchLen (a.drop 0) (a.drop 0)) else (0, 0, 0)) =
      (0, 0, n + 1)
    rw [hk, if_pos (by omega)]
    refine innerFold_keep a a 0 _ _ ?_
    intro j _
    have := hbound 0 j
    simp only [hlen] at this
    simpa using this
  rw [hfirst]
  refine outerFold_keep a a _ _ _ ?_
  intro i2 j2
  have := hbound i2 j2
  simp only [hlen] at this
  simpa using this

theorem longestMatch_nil_left (b : List Str) :
    longestMatch [] b = (0, 0, 0) := by
  unfold longestMatch
  simp

theorem matchBlocksAux_nil_left (fuel : ℕ) (b : List Str) :
    matchBlocksAux fuel [] b = [] := by
  cases fuel with
  | zero => rfl
  | succ fuel =>
    unfold matchBlocksAux
    rw [longestMatch_nil_left b]
    simp

theorem matchBlocksAux_self (a : List Str) (ha : a ≠ []) (fuel : ℕ)
    (hfuel : 1 ≤ fuel) :
    matchBlocksAux fuel a a = [(0, 0, a.length)] := by
  cases fuel with
  | zero => omega
  | succ fuel =>
    unfold matchBlocksAux
    rw [longestMatch_self a ha]
    have hne : ¬((0, 0, a.length) : ℕ × ℕ × ℕ).2.2 = 0 := by
      have : a.length ≠ 0 := fun h => ha (List.length_eq_zero.mp h)
      simpa using this
    rw [if_neg hne]
    show matchBlocksAux fuel (a.take 0) (a.take 0) ++
        (0, 0, a.length) ::
          (matchBlocksAux fuel (a.drop (0 + a.length))
            (a.drop (0 + a.length))).map
            (fun blk =>
              (blk.1 + (0 + a.length), blk.2.1 + (0 + a.length), blk.2.2)) =
      [(0, 0, a.length)]
    rw [List.take_zero, matchBlocksAux_nil_left]
    have hdrop : a.drop (0 + a.length) = [] := by
      simp
    rw [hdrop, matchBlocksAux_nil_left]
    simp

theorem matchingBlocks_self_nil : matchingBlocks [] [] = [(0, 0, 0)] := by
  decide

theorem matchingBlocks_self (a : List Str) (ha : a ≠ []) :
    matchingBlocks a a = [(0, 0, a.length), (a.length, a.length, 0)] := by
  unfold matchingBlocks
  rw [matchBlocksAux_self a ha a.length
    (by have : a.length ≠ 0 := fun h => ha (List.length_eq_zero.mp h); omega)]
  unfold mergeAdjAux
  rw [if_pos (by simp)]
  unfold mergeAdjAux
  rw [if_pos (by have : a.length ≠ 0 := fun h => ha (List.length_eq_zero.mp h); simpa using this)]
  simp

theorem getOpcodes_self (a : List Str) :
    getOpcodes a a =
      if a.length = 0 then []
      else [⟨OpTag.equal, 0, a.length, 0, a.length⟩] := by
  by_cases ha : a = []
  · subst ha
    decide
  · rw [if_neg (fun h => ha (List.length_eq_zero.mp h))]
    unfold getOpcodes
    rw [matchingBlocks_self a ha]
    unfold opcodesFromBlocks
    rw [if_neg (by omega), if_neg (by omega), if_neg (by omega),
      if_pos (fun h : a.length = 0 => ha (List.length_eq_zero.mp h))]
    unfold opcodesFromBlocks
    rw [if_neg (by omega), if_neg (by omega), if_neg (by omega),
      if_neg (by omega)]
    simp [opcodesFromBlocks]

theorem groupSplit_one_equal (c : Opcode) (hc : c.tag = OpTag.equal)
    (hlen : c.i2 - c.i1 ≤ 6) : groupSplit [] [c] = [] := by
  unfold groupSplit
  rw [if_neg (by intro hcon; omega)]
  unfold groupSplit
  rw [if_neg (by
    intro hcon
    exact hcon.2 ⟨by simp, by simpa using hc⟩)]

theorem getGroupedOpcodes_self (a : List Str) :
    getGroupedOpcodes a a = [] := by
  unfold getGroupedOpcodes
  rw [getOpcodes_self]
  by_cases hl : a.length = 0
  · rw [if_pos hl]
    decide
  · rw [if_neg hl]
    dsimp only
    rw [if_neg (by simp)]
    have hfix : fixLast (fixFirst [⟨OpTag.equal, 0, a.length, 0, a.length⟩]) =
        [⟨OpTag.equal, max 0 (a.length - 3),
          min a.length (max 0 (a.length - 3) + 3),
          max 0 (a.length - 3),
          min a.length (max 0 (a.length - 3) + 3)⟩] := by
      simp [fixFirst, fixLast]
    rw [hfix]
    refine groupSplit_one_equal _ rfl ?_
    simp only []
    omega

theorem unifiedDiff_self (a : List Str) (f t : Str) :
    unifiedDiff a a f t = [] := by
  unfold unifiedDiff
  rw [getGroupedOpcodes_self]

theorem tags_fixFirst (codes : List Opcode) :
    (fixFirst codes).map Opcode.tag = codes.map Opcode.tag := by
  cases codes with
  | nil => rfl
  | cons c rest =>
    show (if c.tag = OpTag.equal then
        ({ c with
          i1 := max c.i1 (c.i2 - 3)
          j1 := max c.j1 (c.j2 - 3) } : Opcode) :: rest
      else c :: rest).map Opcode.tag = (c :: rest).map Opcode.tag
    split <;> simp

theorem tags_fixLast (codes : List Opcode) :
    (fixLast codes).map Opcode.tag = codes.map Opcode.tag := by
  rcases hrev : codes.reverse with _ | ⟨c, rest⟩
  · have hc : codes = [] := by simpa using congrArg List.reverse hrev
    subst hc
    rfl
  · have hc : codes = (c :: rest).reverse := by
      rw [← hrev, List.reverse_reverse]
    subst hc
    unfold fixLast
    rw [List.reverse_reverse]
    show (if c.tag = OpTag.equal then
        (({ c with
          i2 := min c.i2 (c.i1 + 3)
          j2 := min c.j2 (c.j1 + 3) } : Opcode) :: rest).reverse
      else (c :: rest).reverse).map Opcode.tag =
      ((c :: rest).reverse).map Opcode.tag
    split <;> simp [List.map_reverse]

theorem groupSplit_ne_nil_of_group (codes : List Opcode) :
    ∀ group : List Opcode, (∃ op ∈ group, op.tag ≠ OpTag.equal) →
    groupSplit group codes ≠ [] := by
  induction codes with
  | nil =>
    intro group ⟨op, hop, htag⟩
    unfold groupSplit
    rw [if_pos ?_]
    · simp
    · refine ⟨by rintro rfl; simp at hop, ?_⟩
      rintro ⟨hlen, hhead⟩
      cases group with
      | nil => simp at hop
      | cons g gs =>
        have : gs = [] := by simpa using hlen
        subst this
        rcases List.mem_singleton.mp hop with rfl
        exact htag (by simpa using hhead)
  | cons c rest ih =>
    intro group hex
    unfold groupSplit
    split
    · simp
    · refine ih (group ++ [c]) ?_
      obtain ⟨op, hop, htag⟩ := hex
      exact ⟨op, by simp [hop], htag⟩

theorem groupSplit_ne_nil_of_codes (codes : List Opcode) :
    ∀ group : List Opcode, (∃ op ∈ codes, op.tag ≠ OpTag.equal) →
    groupSplit group codes ≠ [] := by
  induction codes with
  | nil =>
    intro group ⟨op, hop, _⟩
    simp at hop
  | cons c rest ih =>
    intro group ⟨op, hop, htag⟩
    unfold groupSplit
    split
    · simp
    · rcases List.mem_cons.mp hop with rfl | Hrest
      · exact groupSplit_ne_nil_of_group rest (group ++ [op])
          ⟨op, by simp, htag⟩
      · exact ih (group ++ [c]) ⟨op, Hrest, htag⟩

theorem unifiedDiff_ne_nil (a b : List Str) (f t : Str) (h : a ≠ b) :
    unifiedDiff a b f t ≠ [] := by
  have hlast : (matchingBlocks a b).getLast? =
      some (a.length, b.length, 0) := by
    unfold matchingBlocks
    exact List.getLast?_concat _
  have hnall : ¬ ∀ op ∈ getOpcodes a b, op.tag = OpTag.equal := by
    intro hall
    refine h ?_
    have := opcodes_all_equal_imp a b (matchingBlocks a b) 0 0
      (matchingBlocks_sound a b) (matchingBlocks_chain a b) hlast hall
    simpa using this
  push_neg at hnall
  obtain ⟨op, hop, htag⟩ := hnall
  have hne0 : getOpcodes a b ≠ [] := by
    intro hnil
    rw [hnil] at hop
    simp at hop
  have hgroups : getGroupedOpcodes a b ≠ [] := by
    unfold getGroupedOpcodes
    dsimp only
    rw [if_neg hne0]
    refine groupSplit_ne_nil_of_codes _ [] ?_
    have htagmem : op.tag ∈
        (fixLast (fixFirst (getOpcodes a b))).map Opcode.tag := by
      rw [tags_fixLast, tags_fixFirst]
      exact List.mem_map_of_mem _ hop
    rw [List.mem_map] at htagmem
    obtain ⟨op2, hop2, htag2⟩ := htagmem
    exact ⟨op2, hop2, by rw [htag2]; exact htag⟩
  unfold unifiedDiff
  cases hg : getGroupedOpcodes a b with
  | nil => exact absurd hg hgroups
  | cons g gs => simp

/-- The central LineDiffer guarantee: the modeled
`difflib.unified_diff` output is empty exactly when the two line
sequences are element-wise identical. -/
theorem unifiedDiff_eq_nil_iff (a b : List Str) (f t : Str) :
    unifiedDiff a b f t = [] ↔ a = b := by
  constructor
  · intro hnil
    by_contra hne
    exact unifiedDiff_ne_nil a b f t hne hnil
  · rintro rfl
    exact unifiedDiff_self a f t

/-- Claim C4: the edit script produced by compareFiles is empty exactly
when the two normalized line sequences are element-wise identical, the
is_identical flag holds exactly when the edit script is empty, and in
particular comparing a line sequence against itself yields an empty
edit script with is_identical true. -/
theorem claim_C4_diff_empty_iff_identical (sp tp : Str)
    (sc tc : List Str) (p : ℕ) (g : Bool) :
    ((compareFiles sp tp (some sc) (some tc) p g).diff_lines = [] ↔
      preprocessContent sc p = preprocessContent tc p) ∧
    ((compareFiles sp tp (some sc) (some tc) p g).is_identical = true ↔
      (compareFiles sp tp (some sc) (some tc) p g).diff_lines = []) ∧
    (sc = tc →
      (compareFiles sp tp (some sc) (some tc) p g).is_identical = true ∧
      (compareFiles sp tp (some sc) (some tc) p g).diff_lines = []) := by
  unfold compareFiles
  rw [if_neg (by simp)]
  dsimp only
  refine ⟨?_, ?_, ?_⟩
  · exact unifiedDiff_eq_nil_iff (preprocessContent sc p)
      (preprocessContent tc p) sp tp
  · simp
  · rintro rfl
    refine ⟨by simp [unifiedDiff_self], unifiedDiff_self _ _ _⟩

theorem claim_C4_witness :
    (compareFiles "f".toList "g".toList (some ["x".toList])
        (some ["x".toList]) 3 true).is_identical = true ∧
      (compareFiles "f".toList "g".toList (some ["x".toList])
        (some ["x".toList]) 3 true).diff_lines = [] :=
  (claim_C4_diff_empty_iff_identical "f".toList "g".toList
    ["x".toList] ["x".toList] 3 true).2.2 rfl

/-!
### Claim C10: line-terminator style and trailing-newline invariance
-/

/-- The three line-terminator styles of the claim. -/
def newlineStyles : List Str := [['\n'], ['\r'], ['\r', '\n']]

/-- Lines joined by one terminator (no trailing terminator). -/
def renderWith (term : Str) : List Str → List Char
  | [] => []
  | [l] => l
  | l :: ls => l ++ term ++ renderWith term ls

/-- A file's raw characters: lines in one consistent terminator style,
with or without a final trailing terminator. -/
def render (term : Str) (trailing : Bool) (ls : List Str) : List Char :=
  renderWith term ls ++ (if trailing ∧ ls ≠ [] then term else [])

theorem splitlinesAux_skip (l : List Char) (suffix : List Char)
    (hclean : ∀ c ∈ l, isLineBreak c = false) :
    ∀ acc, splitlinesAux (l ++ suffix) acc =
      splitlinesAux suffix (l.reverse ++ acc) := by
  induction l with
  | nil => intro acc; simp
  | cons c l2 ih =>
    intro acc
    have hc : isLineBreak c = false := hclean c (by simp)
    have hcr : c ≠ '\r' := by
      intro hh
      subst hh
      simp [isLineBreak] at hc
    rw [List.cons_append]
    have hstep : splitlinesAux (c :: (l2 ++ suffix)) acc =
        splitlinesAux (l2 ++ suffix) (c :: acc) := by
      simp [splitlinesAux, hcr, hc]
    rw [hstep, ih (fun x hx => hclean x (by simp [hx])) (c :: acc)]
    simp

theorem splitlinesAux_term (term : Str) (hterm : term ∈ newlineStyles)
    (suffix : List Char) (acc : List Char)
    (hcr : term = ['\r'] → suffix.head? ≠ some '\n') :
    splitlinesAux (term ++ suffix) acc =
      acc.reverse :: splitlinesAux suffix [] := by
  simp only [newlineStyles, List.mem_cons, List.not_mem_nil, or_false]
    at hterm
  rcases hterm with rfl | rfl | rfl
  · have h1 : ('\n' : Char) ≠ '\r' := by decide
    have h2 : isLineBreak '\n' = true := by decide
    simp [splitlinesAux, h1, h2]
  · cases suffix with
    | nil => simp [splitlinesAux]
    | cons d rest2 =>
      have hd : d ≠ '\n' := by simpa using hcr rfl
      simp [splitlinesAux, hd]
  · simp [splitlinesAux]

theorem splitlinesAux_clean (l : List Char) (acc : List Char)
    (hclean : ∀ c ∈ l, isLineBreak c = false) :
    splitlinesAux l acc =
      if acc.reverse ++ l = [] then [] else [acc.reverse ++ l] := by
  have := splitlinesAux_skip l [] hclean acc
  rw [List.append_nil] at this
  rw [this]
  show (if l.reverse ++ acc = [] then []
    else [(l.reverse ++ acc).reverse]) = _
  by_cases hnil : l.reverse ++ acc = []
  · rw [if_pos hnil]
    have : acc.reverse ++ l = [] := by
      have h1 : l.reverse = [] := (List.append_eq_nil.mp hnil).1
      have h2 : acc = [] := (List.append_eq_nil.mp hnil).2
      simp [h2, List.reverse_eq_nil_iff.mp h1]
    rw [if_pos this]
  · rw [if_neg hnil]
    have hne : acc.reverse ++ l ≠ [] := by
      intro h
      have h1 : acc.reverse = [] := (List.append_eq_nil.mp h).1
      have h2 : l = [] := (List.append_eq_nil.mp h).2
      exact hnil (by simp [h2, List.reverse_eq_nil_iff.mp h1])
    rw [if_neg hne]
    simp

theorem render_head_ne_newline (term : Str) (trailing : Bool)
    (ls : List Str)
    (hclean : ∀ l ∈ ls, ∀ c ∈ l, isLineBreak c = false)
    (hr : term = ['\r']) :
    (render term trailing ls).head? ≠ some '\n' := by
  subst hr
  cases ls with
  | nil => simp [render, renderWith]
  | cons l rest =>
    cases l with
    | nil =>
      cases rest with
      | nil =>
        cases trailing <;> simp [render, renderWith]
      | cons l2 rest2 =>
        simp [render, renderWith]
    | cons c l2 =>
      have hc : isLineBreak c = false := hclean (c :: l2) (by simp) c (by simp)
      have : c ≠ '\n' := by
        intro hh
        subst hh
        simp [isLineBreak] at hc
      cases rest with
      | nil => cases trailing <;> simp [render, renderWith, this]
      | cons l3 rest3 => simp [render, renderWith, this]

theorem splitlines_render (term : Str) (hterm : term ∈ newlineStyles)
    (ls : List Str)
    (hclean : ∀ l ∈ ls, ∀ c ∈ l, isLineBreak c = false) :
    ∀ trailing : Bool,
    (trailing = false → ls ≠ [] → ls.getLast? ≠ some []) →
    readFileLines (render term trailing ls) = ls := by
  induction ls with
  | nil =>
    intro trailing _
    simp [render, renderWith, readFileLines, splitlinesAux]
  | cons l rest ih =>
    intro trailing hlast
    cases rest with
    | nil =>
      have hcl : ∀ c ∈ l, isLineBreak c = false := hclean l (by simp)
      cases trailing with
      | true =>
        show splitlinesAux (l ++ (if True ∧ ([l] : List Str) ≠ [] then term
          else [])) [] = [l]
        rw [if_pos (by simp)]
        rw [splitlinesAux_skip l term hcl []]
        have hT := splitlinesAux_term term hterm [] (l.reverse ++ [])
          (by intro _; simp)
        simp only [List.append_nil] at hT ⊢
        rw [hT]
        simp [splitlinesAux]
      | false =>
        have hlne : l ≠ [] := by
          intro hh
          exact hlast rfl (by simp) (by simp [hh])
        show splitlinesAux (l ++ (if False ∧ ([l] : List Str) ≠ [] then term
          else [])) [] = [l]
        rw [if_neg (by simp)]
        rw [List.append_nil, splitlinesAux_clean l [] hcl]
        simp [hlne]
    | cons l2 rest2 =>
      have hcl : ∀ c ∈ l, isLineBreak c = false := hclean l (by simp)
      have hrw : renderWith term (l :: l2 :: rest2) =
          l ++ term ++ renderWith term (l2 :: rest2) := rfl
      have hrender : render term trailing (l :: l2 :: rest2) =
          l ++ term ++ render term trailing (l2 :: rest2) := by
        unfold render
        rw [hrw]
        by_cases htr : trailing
        · rw [if_pos (by simp [htr]), if_pos (by simp [htr])]
          simp
        · rw [if_neg (by simp [htr]), if_neg (by simp [htr])]
          simp
      show readFileLines (render term trailing (l :: l2 :: rest2)) =
        l :: l2 :: rest2
      rw [hrender]
      unfold readFileLines
      rw [List.append_assoc, splitlinesAux_skip l _ hcl []]
      rw [splitlinesAux_term term hterm _ _ (fun hr =>
        render_head_ne_newline term trailing (l2 :: rest2)
          (fun x hx => hclean x (by simp [hx])) hr)]
      have hih := ih (fun x hx => hclean x (by simp [hx])) trailing
        (fun htr hne => by
          have := hlast htr (by simp)
          rwa [List.getLast?_cons_cons] at this)
      unfold readFileLines at hih
      rw [hih]
      simp

/-- Claim C10: two files whose raw characters differ only in
line-terminator style (LF, CR, or CRLF, used consistently) or in the
presence of a final trailing terminator parse to the same line list
(read_file's splitlines discards terminators), and compareFiles finds
them identical with an empty edit script.  Lines must contain no
line-boundary characters, and a file without a trailing terminator
determines its last line only when that line is nonempty. -/
theorem claim_C10_newline_insensitive (ls : List Str) (t1 t2 : Str)
    (b1 b2 : Bool) (sp tp : Str) (p : ℕ) (g : Bool)
    (hclean : ∀ l ∈ ls, ∀ c ∈ l, isLineBreak c = false)
    (ht1 : t1 ∈ newlineStyles) (ht2 : t2 ∈ newlineStyles)
    (h1 : b1 = false → ls ≠ [] → ls.getLast? ≠ some [])
    (h2 : b2 = false → ls ≠ [] → ls.getLast? ≠ some []) :
    readFileLines (render t1 b1 ls) = readFileLines (render t2 b2 ls) ∧
    (compareFiles sp tp (some (readFileLines (render t1 b1 ls)))
      (some (readFileLines (render t2 b2 ls))) p g).is_identical = true ∧
    (compareFiles sp tp (some (readFileLines (render t1 b1 ls)))
      (some (readFileLines (render t2 b2 ls))) p g).diff_lines = [] := by
  have e1 := splitlines_render t1 ht1 ls hclean b1 h1
  have e2 := splitlines_render t2 ht2 ls hclean b2 h2
  rw [e1, e2]
  refine ⟨rfl, ?_, ?_⟩ <;>
    · unfold compareFiles
      rw [if_neg (by simp)]
      dsimp only
      simp [unifiedDiff_self]

theorem claim_C10_witness :
    readFileLines (render ['\n'] true [['a']]) =
        readFileLines (render ['\r', '\n'] false [['a']]) ∧
      (compareFiles "f".toList "g".toList
        (some (readFileLines (render ['\n'] true [['a']])))
        (some (readFileLines (render ['\r', '\n'] false [['a']]))) 3
        true).is_identical = true ∧
      (compareFiles "f".toList "g".toList
        (some (readFileLines (render ['\n'] true [['a']])))
        (some (readFileLines (render ['\r', '\n'] false [['a']]))) 3
        true).diff_lines = [] :=
  claim_C10_newline_insensitive [['a']] ['\n'] ['\r', '\n'] true false
    "f".toList "g".toList 3 true (by decide) (by decide) (by decide)
    (by decide) (by decide)

/-!
### Rational-number bridge for the binary64 model

The executable model works over ℕ/ℤ; the lemmas below relate it to
exact rational values so the formatting claims can be stated and
proved.
-/

/-- `2 ^ k` as a rational, for an integer exponent. -/
def qpow2 (k : ℤ) : ℚ := 2 ^ k

theorem qpow2_pos (k : ℤ) : 0 < qpow2 k :=
  zpow_pos (by norm_num) k

theorem qpow2_add (a b : ℤ) : qpow2 (a + b) = qpow2 a * qpow2 b :=
  zpow_add₀ (by norm_num) a b

theorem qpow2_natCast (n : ℕ) : qpow2 (n : ℤ) = ((2 ^ n : ℕ) : ℚ) := by
  simp [qpow2]

theorem qpow2_mono {a b : ℤ} (h : a ≤ b) : qpow2 a ≤ qpow2 b := by
  unfold qpow2
  exact zpow_le_zpow_right₀ (by norm_num) h

theorem qpow2_toNat {k : ℤ} (hk : 0 ≤ k) :
    qpow2 k = ((2 ^ k.toNat : ℕ) : ℚ) := by
  rw [← qpow2_natCast, Int.toNat_of_nonneg hk]

theorem qpow2_neg (k : ℤ) : qpow2 (-k) = (qpow2 k)⁻¹ := by
  unfold qpow2
  exact zpow_neg 2 k

theorem nlog2Aux_spec : ∀ fuel n : ℕ, n ≤ fuel → 1 ≤ n →
    2 ^ nlog2Aux fuel n ≤ n ∧ n < 2 ^ (nlog2Aux fuel n + 1) := by
  intro fuel
  induction fuel with
  | zero => intro n h1 h2; omega
  | succ fuel ih =>
    intro n h1 h2
    unfold nlog2Aux
    by_cases hn : n < 2
    · rw [if_pos hn]
      constructor <;> simp <;> omega
    · rw [if_neg hn]
      have hrec := ih (n / 2) (by omega) (by omega)
      obtain ⟨hlo, hhi⟩ := hrec
      constructor
      · have : 2 ^ (nlog2Aux fuel (n / 2) + 1) = 2 * 2 ^ nlog2Aux fuel (n / 2) := by
          ring
        calc 2 ^ (nlog2Aux fuel (n / 2) + 1) = 2 * 2 ^ nlog2Aux fuel (n / 2) := by ring
          _ ≤ 2 * (n / 2) := by omega
          _ ≤ n := by omega
      · have h2n : n < 2 ^ (nlog2Aux fuel (n / 2) + 1 + 1) := by
          have : 2 ^ (nlog2Aux fuel (n / 2) + 1 + 1) =
              2 * 2 ^ (nlog2Aux fuel (n / 2) + 1) := by ring
          omega
        exact h2n

theorem nlog2_spec (n : ℕ) (h : 1 ≤ n) :
    2 ^ nlog2 n ≤ n ∧ n < 2 ^ (nlog2 n + 1) :=
  nlog2Aux_spec n n (le_refl n) h


theorem cast_div_decomp (a b : ℕ) (hb : 0 < b) :
    (a : ℚ) / b = ((a / b : ℕ) : ℚ) + ((a % b : ℕ) : ℚ) / b := by
  have hb2 : (b : ℚ) ≠ 0 := Nat.cast_ne_zero.mpr hb.ne'
  have ha : (a : ℚ) = ((a / b : ℕ) : ℚ) * b + ((a % b : ℕ) : ℚ) := by
    exact_mod_cast (Nat.div_add_mod' a b).symm
  rw [ha, add_div, mul_div_cancel_right₀ _ hb2]

theorem rheDiv_cases (a b : ℕ) :
    (rheDiv a b = a / b ∧ 2 * (a % b) ≤ b) ∨
      (rheDiv a b = a / b + 1 ∧ b ≤ 2 * (a % b)) := by
  dsimp only [rheDiv]
  split_ifs with h1 h2 h3
  · left; omega
  · right; omega
  · left; omega
  · right; omega

theorem rheDiv_err (a b : ℕ) (hb : 0 < b) :
    |(rheDiv a b : ℚ) - (a : ℚ) / b| ≤ 1 / 2 := by
  have hdecomp := cast_div_decomp a b hb
  have hbq : (0 : ℚ) < (b : ℚ) := by exact_mod_cast hb
  have hrb : ((a % b : ℕ) : ℚ) / b < 1 := by
    rw [div_lt_one hbq]
    exact_mod_cast Nat.mod_lt a hb
  have hr0 : (0 : ℚ) ≤ ((a % b : ℕ) : ℚ) / b := by positivity
  rcases rheDiv_cases a b with ⟨heq, hcmp⟩ | ⟨heq, hcmp⟩
  · have hhalf : ((a % b : ℕ) : ℚ) / b ≤ 1 / 2 := by
      rw [div_le_div_iff hbq (by norm_num)]
      have h2 : ((2 * (a % b) : ℕ) : ℚ) ≤ (b : ℚ) := by exact_mod_cast hcmp
      push_cast at h2
      linarith
    rw [heq, hdecomp, abs_le]
    constructor <;> linarith
  · have hhalf : (1 : ℚ) / 2 ≤ ((a % b : ℕ) : ℚ) / b := by
      rw [div_le_div_iff (by norm_num) hbq]
      have h2 : (b : ℚ) ≤ ((2 * (a % b) : ℕ) : ℚ) := by exact_mod_cast hcmp
      push_cast at h2
      linarith
    rw [heq, hdecomp, abs_le]
    constructor <;> push_cast <;> linarith

theorem nat_cast_eq_of_abs_lt_one {x y : ℕ} (h : |(x : ℚ) - y| < 1) :
    x = y := by
  by_contra hne
  have h1 : 1 ≤ |(x : ℤ) - y| := by
    have hxy : (x : ℤ) - y ≠ 0 := sub_ne_zero.mpr (by exact_mod_cast hne)
    exact Int.one_le_abs hxy
  have h2 : (1 : ℚ) ≤ |(x : ℚ) - y| := by
    have hcast : ((|(x : ℤ) - y| : ℤ) : ℚ) = |(x : ℚ) - y| := by
      push_cast
      rfl
    rw [← hcast]
    exact_mod_cast h1
  linarith

theorem rheDiv_eq_of_near (a b : ℕ) (hb : 0 < b) (m : ℕ)
    (h : |(m : ℚ) - (a : ℚ) / b| < 1 / 2) : rheDiv a b = m := by
  have herr := rheDiv_err a b hb
  have htri : |(rheDiv a b : ℚ) - m| < 1 := by
    calc |(rheDiv a b : ℚ) - m| ≤
        |(rheDiv a b : ℚ) - (a : ℚ) / b| + |(m : ℚ) - (a : ℚ) / b| := by
          rw [abs_sub_comm ((m : ℚ)) ((a : ℚ) / b)]
          exact abs_sub_le _ _ _
    _ < 1 := by linarith
  exact nat_cast_eq_of_abs_lt_one htri

theorem fracGePow2_iff (n d : ℕ) (hd : 0 < d) (e : ℤ) :
    fracGePow2 n d e = true ↔ qpow2 e ≤ (n : ℚ) / d := by
  have hdq : (0 : ℚ) < (d : ℚ) := by exact_mod_cast hd
  unfold fracGePow2
  split_ifs with he
  · rw [qpow2_toNat he, decide_eq_true_eq, le_div_iff hdq]
    constructor
    · intro h
      have h2 : ((d * 2 ^ e.toNat : ℕ) : ℚ) ≤ ((n : ℕ) : ℚ) :=
        Nat.cast_le.mpr h
      push_cast at h2 ⊢
      linarith
    · intro h
      have h2 : ((d * 2 ^ e.toNat : ℕ) : ℚ) ≤ ((n : ℕ) : ℚ) := by
        push_cast
        push_cast at h
        linarith
      exact Nat.cast_le.mp h2
  · push_neg at he
    have ht : e = -(((-e).toNat : ℕ) : ℤ) := by omega
    have hX : (0 : ℚ) < ((2 ^ (-e).toNat : ℕ) : ℚ) := by
      exact_mod_cast Nat.two_pow_pos ((-e).toNat)
    have hq : qpow2 e = ((2 ^ (-e).toNat : ℕ) : ℚ)⁻¹ := by
      conv_lhs => rw [ht]
      rw [qpow2_neg, qpow2_natCast]
    rw [decide_eq_true_eq, hq, inv_eq_one_div,
      div_le_div_iff hX hdq, one_mul]
    constructor
    · intro h
      have h2 : ((d : ℕ) : ℚ) ≤ ((n * 2 ^ (-e).toNat : ℕ) : ℚ) :=
        Nat.cast_le.mpr h
      push_cast at h2 ⊢
      linarith
    · intro h
      have h2 : ((d : ℕ) : ℚ) ≤ ((n * 2 ^ (-e).toNat : ℕ) : ℚ) := by
        push_cast
        push_cast at h
        linarith
      exact Nat.cast_le.mp h2

theorem flog2Frac_spec (n d : ℕ) (hn : 1 ≤ n) (hd : 1 ≤ d) :
    qpow2 (flog2Frac n d) ≤ (n : ℚ) / d ∧
      (n : ℚ) / d < qpow2 (flog2Frac n d + 1) := by
  have hdq : (0 : ℚ) < (d : ℚ) := by exact_mod_cast hd
  obtain ⟨hna, hnb⟩ := nlog2_spec n hn
  obtain ⟨hda, hdb⟩ := nlog2_spec d hd
  have hnaq : qpow2 ((nlog2 n : ℕ) : ℤ) ≤ (n : ℚ) := by
    rw [qpow2_natCast]
    exact_mod_cast hna
  have hnbq : (n : ℚ) < qpow2 (((nlog2 n : ℕ) : ℤ) + 1) := by
    have hcast : ((nlog2 n : ℕ) : ℤ) + 1 = ((nlog2 n + 1 : ℕ) : ℤ) := by
      push_cast
      ring
    rw [hcast, qpow2_natCast]
    exact_mod_cast hnb
  have hdaq : qpow2 ((nlog2 d : ℕ) : ℤ) ≤ (d : ℚ) := by
    rw [qpow2_natCast]
    exact_mod_cast hda
  have hdbq : (d : ℚ) < qpow2 (((nlog2 d : ℕ) : ℤ) + 1) := by
    have hcast : ((nlog2 d : ℕ) : ℤ) + 1 = ((nlog2 d + 1 : ℕ) : ℤ) := by
      push_cast
      ring
    rw [hcast, qpow2_natCast]
    exact_mod_cast hdb
  have hfl : flog2Frac n d =
      if fracGePow2 n d ((nlog2 n : ℤ) - (nlog2 d : ℤ))
      then (nlog2 n : ℤ) - (nlog2 d : ℤ)
      else (nlog2 n : ℤ) - (nlog2 d : ℤ) - 1 := rfl
  have hlow : qpow2 ((nlog2 n : ℤ) - (nlog2 d : ℤ) - 1) < (n : ℚ) / d := by
    rw [lt_div_iff hdq]
    calc qpow2 ((nlog2 n : ℤ) - (nlog2 d : ℤ) - 1) * d
        < qpow2 ((nlog2 n : ℤ) - (nlog2 d : ℤ) - 1) *
            qpow2 (((nlog2 d : ℕ) : ℤ) + 1) :=
          mul_lt_mul_of_pos_left hdbq (qpow2_pos _)
    _ = qpow2 ((nlog2 n : ℕ) : ℤ) := by
          rw [← qpow2_add]
          congr 1
          ring
    _ ≤ (n : ℚ) := hnaq
  have hhigh : (n : ℚ) / d < qpow2 ((nlog2 n : ℤ) - (nlog2 d : ℤ) + 1) := by
    rw [div_lt_iff hdq]
    calc (n : ℚ) < qpow2 (((nlog2 n : ℕ) : ℤ) + 1) := hnbq
    _ = qpow2 ((nlog2 n : ℤ) - (nlog2 d : ℤ) + 1) *
          qpow2 ((nlog2 d : ℕ) : ℤ) := by
          rw [← qpow2_add]
          congr 1
          ring
    _ ≤ qpow2 ((nlog2 n : ℤ) - (nlog2 d : ℤ) + 1) * d :=
          mul_le_mul_of_nonneg_left hdaq (le_of_lt (qpow2_pos _))
  rw [hfl]
  split_ifs with hge
  · exact ⟨(fracGePow2_iff n d hd _).mp hge, hhigh⟩
  · have hlt : ¬ qpow2 ((nlog2 n : ℤ) - (nlog2 d : ℤ)) ≤ (n : ℚ) / d :=
      fun h => hge ((fracGePow2_iff n d hd _).mpr h)
    push_neg at hlt
    refine ⟨le_of_lt hlow, ?_⟩
    have hcast : (nlog2 n : ℤ) - (nlog2 d : ℤ) - 1 + 1 =
        (nlog2 n : ℤ) - (nlog2 d : ℤ) := by ring
    rw [hcast]
    exact hlt

theorem b64ofFrac_finite (n d : ℕ) (hd : 0 < d)
    (h : n < (2 ^ 1024 - 2 ^ 970) * d) :
    (b64ofFrac n d).isSome = true := by
  by_cases hn : n = 0
  · subst hn
    rfl
  · have hn1 : 1 ≤ n := Nat.one_le_iff_ne_zero.mpr hn
    have hdq : (0 : ℚ) < (d : ℚ) := by exact_mod_cast hd
    have hdne : (d : ℚ) ≠ 0 := hdq.ne'
    obtain ⟨he1, he2⟩ := flog2Frac_spec n d hn1 hd
    have h1024 : ((2 ^ 1024 : ℕ) : ℚ) = qpow2 1024 := by
      rw [show (1024 : ℤ) = ((1024 : ℕ) : ℤ) by rfl, qpow2_natCast]
    have h970le : (2 ^ 970 : ℕ) ≤ 2 ^ 1024 :=
      Nat.pow_le_pow_right (by norm_num) (by norm_num)
    have hA : ((2 ^ 1024 - 2 ^ 970 : ℕ) : ℚ) = qpow2 1024 - qpow2 970 := by
      rw [Nat.cast_sub h970le, h1024,
        show (970 : ℤ) = ((970 : ℕ) : ℤ) by rfl, qpow2_natCast]
    have hqlt : (n : ℚ) / d < qpow2 1024 - qpow2 970 := by
      rw [div_lt_iff hdq, ← hA]
      calc (n : ℚ) < (((2 ^ 1024 - 2 ^ 970) * d : ℕ) : ℚ) := Nat.cast_lt.mpr h
      _ = ((2 ^ 1024 - 2 ^ 970 : ℕ) : ℚ) * d := Nat.cast_mul _ _
    have he3 : flog2Frac n d ≤ 1023 := by
      by_contra hcon
      push_neg at hcon
      have hmono : qpow2 1024 ≤ qpow2 (flog2Frac n d) := qpow2_mono (by omega)
      have h970 : (0 : ℚ) < qpow2 970 := qpow2_pos _
      linarith
    unfold b64ofFrac
    rw [if_neg hn]
    dsimp only
    set e := flog2Frac n d with hedef
    set k : ℤ := max (e - 52) (-1074) with hkdef
    have hk971 : k ≤ 971 := max_le (by omega) (by norm_num)
    have hk1 : qpow2 (k - 1) ≤ qpow2 970 := qpow2_mono (by omega)
    have h5 : qpow2 k = qpow2 (k - 1) * 2 := by
      have hadd := qpow2_add (k - 1) 1
      have h1q : qpow2 (1 : ℤ) = 2 := by
        unfold qpow2
        norm_num
      rw [h1q] at hadd
      rw [← hadd]
      congr 1
      ring
    have hhalf : qpow2 k / 2 ≤ qpow2 970 := by
      rw [h5]
      have h6 : qpow2 (k - 1) * 2 / 2 = qpow2 (k - 1) := by ring
      rw [h6]
      exact hk1
    have hXpos : (0 : ℚ) < qpow2 k := qpow2_pos _
    have hXne : qpow2 k ≠ 0 := hXpos.ne'
    rcases le_or_lt 0 k with hk0 | hk0
    · simp only [if_pos hk0]
      have hpos : 0 < d * 2 ^ k.toNat := Nat.mul_pos hd (Nat.two_pow_pos _)
      have herr := rheDiv_err n (d * 2 ^ k.toNat) hpos
      set m := rheDiv n (d * 2 ^ k.toNat) with hmdef
      have hX : ((2 ^ k.toNat : ℕ) : ℚ) = qpow2 k := (qpow2_toNat hk0).symm
      have hcastden : ((d * 2 ^ k.toNat : ℕ) : ℚ) = (d : ℚ) * qpow2 k := by
        rw [Nat.cast_mul, hX]
      have hub : (m : ℚ) * qpow2 k ≤ (n : ℚ) / d + qpow2 k / 2 := by
        have h2 := (abs_le.mp herr).2
        rw [hcastden] at h2
        have h3 : (m : ℚ) ≤ (n : ℚ) / ((d : ℚ) * qpow2 k) + 1 / 2 := by linarith
        have h4 := mul_le_mul_of_nonneg_right h3 (le_of_lt hXpos)
        have h5eq : ((n : ℚ) / ((d : ℚ) * qpow2 k) + 1 / 2) * qpow2 k
            = (n : ℚ) / d + qpow2 k / 2 := by
          field_simp
          ring
        rw [h5eq] at h4
        exact h4
      have hno : ¬ (2 ^ 1024 ≤ m * 2 ^ k.toNat) := by
        intro hcon
        have hcast : qpow2 1024 ≤ (m : ℚ) * qpow2 k := by
          rw [← h1024, ← hX, ← Nat.cast_mul]
          exact_mod_cast hcon
        linarith
      rw [if_neg (by simpa using hno)]
      rfl
    · simp only [if_neg (not_le.mpr hk0)]
      have herr := rheDiv_err (n * 2 ^ (-k).toNat) d hd
      set m := rheDiv (n * 2 ^ (-k).toNat) d with hmdef
      have hT : ((2 ^ (-k).toNat : ℕ) : ℚ) = qpow2 (-k) := by
        rw [qpow2_toNat (by omega : (0 : ℤ) ≤ -k)]
      have hcastnum : ((n * 2 ^ (-k).toNat : ℕ) : ℚ) = (n : ℚ) * (qpow2 k)⁻¹ := by
        rw [Nat.cast_mul, hT, qpow2_neg]
      have hub : (m : ℚ) * qpow2 k ≤ (n : ℚ) / d + qpow2 k / 2 := by
        have h2 := (abs_le.mp herr).2
        rw [hcastnum] at h2
        have h3 : (m : ℚ) ≤ (n : ℚ) * (qpow2 k)⁻¹ / d + 1 / 2 := by linarith
        have h4 := mul_le_mul_of_nonneg_right h3 (le_of_lt hXpos)
        have h5eq : ((n : ℚ) * (qpow2 k)⁻¹ / d + 1 / 2) * qpow2 k
            = (n : ℚ) / d + qpow2 k / 2 := by
          field_simp
          ring
        rw [h5eq] at h4
        exact h4
      have hno : ¬ (2 ^ (1024 + (-k).toNat) ≤ m) := by
        intro hcon
        have h0 : ((1024 + (-k).toNat : ℕ) : ℤ) = 1024 + -k := by
          push_cast
          omega
        have hcast : qpow2 (1024 + -k) ≤ (m : ℚ) := by
          have hq := qpow2_natCast (1024 + (-k).toNat)
          rw [h0] at hq
          rw [hq]
          exact_mod_cast hcon
        have hmul : qpow2 (1024 + -k) * qpow2 k = qpow2 1024 := by
          rw [← qpow2_add]
          congr 1
          ring
        have h6 : qpow2 1024 ≤ (m : ℚ) * qpow2 k := by
          rw [← hmul]
          exact mul_le_mul_of_nonneg_right hcast (le_of_lt hXpos)
        linarith
      rw [if_neg (by simpa using hno)]
      rfl

theorem digitChar_isDig (r : ℕ) (hr : r < 10) :
    isDig (Char.ofNat (48 + r)) = true := by
  interval_cases r <;> decide

theorem natDigitsAux_ne_nil (fuel n : ℕ) (hf : 0 < fuel) :
    natDigitsAux fuel n ≠ [] := by
  cases fuel with
  | zero => omega
  | succ f =>
    unfold natDigitsAux
    split_ifs
    · simp
    · simp

theorem natDigitsAux_all_isDig (fuel : ℕ) :
    ∀ n, (natDigitsAux fuel n).all isDig = true := by
  induction fuel with
  | zero => intro n; rfl
  | succ f ih =>
    intro n
    unfold natDigitsAux
    split_ifs with h
    · simp only [List.all_cons, List.all_nil, Bool.and_true]
      exact digitChar_isDig n h
    · rw [List.all_append, ih (n / 10)]
      simp only [List.all_cons, List.all_nil, Bool.and_true, Bool.true_and]
      exact digitChar_isDig (n % 10) (Nat.mod_lt _ (by norm_num))

theorem natDigitsAux_length_le (fuel : ℕ) :
    ∀ n w, n < 10 ^ w → 0 < w → (natDigitsAux fuel n).length ≤ w := by
  induction fuel with
  | zero =>
    intro n w _ _
    simp [natDigitsAux]
  | succ f ih =>
    intro n w hn hw
    unfold natDigitsAux
    split_ifs with h
    · simpa using hw
    · push_neg at h
      have hw2 : 2 ≤ w := by
        by_contra hcon
        push_neg at hcon
        have hw1 : w = 1 := by omega
        rw [hw1] at hn
        simp at hn
        omega
      have hdiv : n / 10 < 10 ^ (w - 1) := by
        rw [Nat.div_lt_iff_lt_mul (by norm_num)]
        calc n < 10 ^ w := hn
        _ = 10 ^ (w - 1) * 10 := by
              rw [← pow_succ]
              congr 1
              omega
      have := ih (n / 10) (w - 1) hdiv (by omega)
      rw [List.length_append]
      simp only [List.length_cons, List.length_nil]
      omega

theorem digitsToNat_foldl (t : Str) :
    ∀ acc, t.foldl (fun a c => 10 * a + (c.toNat - 48)) acc
      = acc * 10 ^ t.length + digitsToNat t := by
  induction t with
  | nil => intro acc; simp [digitsToNat]
  | cons c t ih =>
    intro acc
    simp only [List.foldl_cons, List.length_cons]
    rw [ih (10 * acc + (c.toNat - 48))]
    have h0 : digitsToNat (c :: t) = (c.toNat - 48) * 10 ^ t.length + digitsToNat t := by
      show List.foldl _ (10 * 0 + (c.toNat - 48)) t = _
      rw [ih (10 * 0 + (c.toNat - 48))]
      ring_nf
    rw [h0]
    ring

theorem digitsToNat_append (s t : Str) :
    digitsToNat (s ++ t) = digitsToNat s * 10 ^ t.length + digitsToNat t := by
  unfold digitsToNat
  rw [List.foldl_append]
  exact digitsToNat_foldl t _

theorem digitChar_val (r : ℕ) (hr : r < 10) :
    digitsToNat [Char.ofNat (48 + r)] = r := by
  interval_cases r <;> decide

theorem digitsToNat_natDigitsAux (fuel : ℕ) :
    ∀ n, n < fuel → digitsToNat (natDigitsAux fuel n) = n := by
  induction fuel with
  | zero => intro n hn; omega
  | succ f ih =>
    intro n hn
    unfold natDigitsAux
    split_ifs with h
    · exact digitChar_val n h
    · push_neg at h
      rw [digitsToNat_append, ih (n / 10) (by omega)]
      simp only [List.length_cons, List.length_nil]
      rw [digitChar_val (n % 10) (Nat.mod_lt _ (by norm_num))]
      omega

theorem digitsToNat_natDigits (n : ℕ) : digitsToNat (natDigits n) = n :=
  digitsToNat_natDigitsAux (n + 1) n (Nat.lt_succ_self n)

theorem natDigits_ne_nil (n : ℕ) : natDigits n ≠ [] :=
  natDigitsAux_ne_nil (n + 1) n (Nat.succ_pos n)

theorem natDigits_all_isDig (n : ℕ) : (natDigits n).all isDig = true :=
  natDigitsAux_all_isDig (n + 1) n

theorem padDigits_length (w n : ℕ) (hn : n < 10 ^ w) (hw : 0 < w) :
    (padDigits w n).length = w := by
  unfold padDigits
  rw [List.length_append, List.length_replicate]
  have := natDigitsAux_length_le (n + 1) n w hn hw
  unfold natDigits at *
  omega

theorem padDigits_all_isDig (w n : ℕ) :
    (padDigits w n).all isDig = true := by
  unfold padDigits
  rw [List.all_append, natDigits_all_isDig]
  rw [Bool.and_true]
  rw [List.all_eq_true]
  intro c hc
  rw [List.eq_of_mem_replicate hc]
  decide

theorem formatFixed_structure (neg : Bool) (x : Dyad) (p : ℕ) (hp : 1 ≤ p) :
    formatFixed neg x p =
      (if neg = true then ['-'] else []) ++
        (natDigits (dyadScaled x p / 10 ^ p) ++
          '.' :: padDigits p (dyadScaled x p % 10 ^ p)) := by
  unfold formatFixed
  dsimp only
  rw [if_neg (by omega : ¬ p = 0)]
  cases neg
  · rfl
  · rfl

/-- The token `1` followed by 309 zeros and `.0`: it matches `-?\d+\.\d+`
but its value `1e309` overflows binary64, so Python's `float` gives `inf`
and `normalizeNumber` returns the string `"inf"`. -/
def bigTok : Str := '1' :: (List.replicate 309 '0' ++ ".0".toList)

/-- **C5** (counterexample): the token `bigTok` matches the pattern
`-?\d+\.\d+`, yet `normalizeNumber` at precision 3 returns `"inf"`, which
contains no decimal point at all — not a decimal string with exactly 3
digits after the decimal point.  The claim's universal statement is
therefore false for tokens whose value overflows the binary64 range. -/
theorem claim_C5_counterexample :
    numPattern bigTok = true ∧
    normalizeNumber bigTok 3 = "inf".toList ∧
    ¬ '.' ∈ normalizeNumber bigTok 3 :=
  ⟨by decide, by decide, by decide⟩

/-- **C5** (amended): every token not matching `-?\d+\.\d+` is returned
unchanged; a matching token whose decimal value stays below the binary64
overflow threshold `2 ^ 1024 - 2 ^ 970` is reformatted (at any precision
`p ≥ 1`) as an optional minus sign, a nonempty block of digits, a decimal
point, and exactly `p` digits; and the claim's two rounding examples hold:
`"1.2"` at precision 3 gives `"1.200"` and `"1.23456"` gives `"1.235"`. -/
theorem claim_C5_amended (value : Str) (p : ℕ) (hp : 1 ≤ p) :
    (numPattern value = false → normalizeNumber value p = value) ∧
    (numPattern value = true →
      digitsToNat (tokenIntPart value ++ tokenFracPart value)
          < (2 ^ 1024 - 2 ^ 970) * 10 ^ (tokenFracPart value).length →
      ∃ intDigits fracDigits,
        normalizeNumber value p =
          (if value.head? = some '-' then ['-'] else []) ++
            (intDigits ++ '.' :: fracDigits) ∧
        intDigits ≠ [] ∧ intDigits.all isDig = true ∧
        fracDigits.length = p ∧ fracDigits.all isDig = true) ∧
    normalizeNumber "1.2".toList 3 = "1.200".toList ∧
    normalizeNumber "1.23456".toList 3 = "1.235".toList := by
  refine ⟨?_, ?_, by decide, by decide⟩
  · intro hfalse
    simp [normalizeNumber, hfalse]
  · intro htrue hrange
    have hD : 0 < 10 ^ (tokenFracPart value).length := pow_pos (by norm_num) _
    have hsome := b64ofFrac_finite _ _ hD hrange
    obtain ⟨mag, hmag⟩ := Option.isSome_iff_exists.mp hsome
    refine ⟨natDigits (dyadScaled mag p / 10 ^ p),
      padDigits p (dyadScaled mag p % 10 ^ p), ?_, natDigits_ne_nil _,
      natDigits_all_isDig _,
      padDigits_length p _ (Nat.mod_lt _ (pow_pos (by norm_num) p)) hp,
      padDigits_all_isDig _ _⟩
    unfold normalizeNumber
    rw [if_pos htrue]
    have hfl : floatOfToken value =
        PyFloat.finite (decide (value.head? = some '-')) mag := by
      unfold floatOfToken
      dsimp only
      rw [hmag]
    rw [hfl]
    show formatFixed (decide (value.head? = some '-')) mag p = _
    rw [formatFixed_structure _ _ _ hp]
    by_cases hsign : value.head? = some '-'
    · simp [hsign]
    · simp [hsign]

/-- **C5** (witness): the amended theorem instantiated at the claim's own
example token `"1.23456"` and precision 3. -/
theorem claim_C5_amended_witness :
    1 ≤ 3 ∧
    ((numPattern "1.23456".toList = false →
        normalizeNumber "1.23456".toList 3 = "1.23456".toList) ∧
      (numPattern "1.23456".toList = true →
        digitsToNat (tokenIntPart "1.23456".toList ++
            tokenFracPart "1.23456".toList)
            < (2 ^ 1024 - 2 ^ 970) *
              10 ^ (tokenFracPart "1.23456".toList).length →
        ∃ intDigits fracDigits,
          normalizeNumber "1.23456".toList 3 =
            (if ("1.23456".toList).head? = some '-' then ['-'] else []) ++
              (intDigits ++ '.' :: fracDigits) ∧
          intDigits ≠ [] ∧ intDigits.all isDig = true ∧
          fracDigits.length = 3 ∧ fracDigits.all isDig = true) ∧
      normalizeNumber "1.2".toList 3 = "1.200".toList ∧
      normalizeNumber "1.23456".toList 3 = "1.235".toList) :=
  ⟨by decide, claim_C5_amended ("1.23456".toList) 3 (by decide)⟩

theorem rheDiv_one (n : ℕ) : rheDiv n 1 = n := by
  dsimp only [rheDiv]
  rw [Nat.mod_one, Nat.div_one]
  norm_num

theorem rheDiv_mul_right (a b t : ℕ) (ht : 0 < t) :
    rheDiv (a * t) (b * t) = rheDiv a b := by
  dsimp only [rheDiv]
  rw [Nat.mul_div_mul_right a b ht, Nat.mul_mod_mul_right]
  have hlt1 : 2 * (a % b * t) < b * t ↔ 2 * (a % b) < b := by
    rw [← Nat.mul_assoc]
    exact Nat.mul_lt_mul_right ht
  have hlt2 : b * t < 2 * (a % b * t) ↔ b < 2 * (a % b) := by
    rw [← Nat.mul_assoc]
    exact Nat.mul_lt_mul_right ht
  simp only [hlt1, hlt2]

theorem rheDiv_congr (a b c d : ℕ) (hb : 0 < b) (hd : 0 < d)
    (h : a * d = c * b) : rheDiv a b = rheDiv c d := by
  have h1 : rheDiv a b = rheDiv (a * d) (b * d) := (rheDiv_mul_right a b d hd).symm
  have h2 : rheDiv c d = rheDiv (c * b) (d * b) := (rheDiv_mul_right c d b hb).symm
  rw [h1, h2, h, Nat.mul_comm b d]

/-- The exact rational value `m * 2 ^ k` of a dyadic magnitude. -/
def dyadVal (x : Dyad) : ℚ := (x.m : ℚ) * qpow2 x.k

theorem dyadScaled_as_rheDiv (x : Dyad) (p : ℕ) :
    dyadScaled x p =
      rheDiv (x.m * 10 ^ p * 2 ^ x.k.toNat) (2 ^ (-x.k).toNat) := by
  unfold dyadScaled
  split_ifs with hk
  · have h1 : (-x.k).toNat = 0 := by omega
    rw [h1, pow_zero, rheDiv_one]
    ring
  · have h1 : x.k.toNat = 0 := by omega
    rw [h1, pow_zero, Nat.mul_one]

theorem dyad_frac_val (x : Dyad) (p : ℕ) :
    ((x.m * 10 ^ p * 2 ^ x.k.toNat : ℕ) : ℚ) / ((2 ^ (-x.k).toNat : ℕ) : ℚ)
      = dyadVal x * 10 ^ p := by
  unfold dyadVal
  rcases le_or_lt 0 x.k with hk | hk
  · have h1 : (-x.k).toNat = 0 := by omega
    rw [h1, pow_zero, Nat.cast_one, div_one, qpow2_toNat hk]
    push_cast
    ring
  · have h1 : x.k.toNat = 0 := by omega
    have h2 : qpow2 x.k = (((2 : ℕ) ^ (-x.k).toNat : ℕ) : ℚ)⁻¹ := by
      have h3 : x.k = -(((-x.k).toNat : ℕ) : ℤ) := by omega
      conv_lhs => rw [h3]
      rw [qpow2_neg, qpow2_natCast]
    rw [h1, pow_zero, Nat.mul_one, h2]
    push_cast
    ring

theorem dyadScaled_near (x : Dyad) (p : ℕ) :
    |(dyadScaled x p : ℚ) - dyadVal x * 10 ^ p| ≤ 1 / 2 := by
  rw [dyadScaled_as_rheDiv, ← dyad_frac_val]
  exact rheDiv_err _ _ (Nat.two_pow_pos _)

theorem dyadScaled_eq_of_near (x : Dyad) (p N : ℕ)
    (h : |(N : ℚ) - dyadVal x * 10 ^ p| < 1 / 2) : dyadScaled x p = N := by
  rw [dyadScaled_as_rheDiv]
  apply rheDiv_eq_of_near _ _ (Nat.two_pow_pos _)
  rw [dyad_frac_val]
  exact h

theorem dyadScaled_value_congr (x y : Dyad) (p : ℕ)
    (h : dyadVal x = dyadVal y) : dyadScaled x p = dyadScaled y p := by
  rw [dyadScaled_as_rheDiv, dyadScaled_as_rheDiv]
  apply rheDiv_congr _ _ _ _ (Nat.two_pow_pos _) (Nat.two_pow_pos _)
  have hq : ((x.m * 10 ^ p * 2 ^ x.k.toNat : ℕ) : ℚ) * ((2 ^ (-y.k).toNat : ℕ) : ℚ)
      = ((y.m * 10 ^ p * 2 ^ y.k.toNat : ℕ) : ℚ) * ((2 ^ (-x.k).toNat : ℕ) : ℚ) := by
    have hx := dyad_frac_val x p
    have hy := dyad_frac_val y p
    have hpx : (0 : ℚ) < ((2 ^ (-x.k).toNat : ℕ) : ℚ) := by
      exact_mod_cast Nat.two_pow_pos ((-x.k).toNat)
    have hpy : (0 : ℚ) < ((2 ^ (-y.k).toNat : ℕ) : ℚ) := by
      exact_mod_cast Nat.two_pow_pos ((-y.k).toNat)
    have hfrac : ((x.m * 10 ^ p * 2 ^ x.k.toNat : ℕ) : ℚ) /
        ((2 ^ (-x.k).toNat : ℕ) : ℚ)
        = ((y.m * 10 ^ p * 2 ^ y.k.toNat : ℕ) : ℚ) /
          ((2 ^ (-y.k).toNat : ℕ) : ℚ) := by
      rw [hx, hy, h]
    exact (div_eq_div_iff hpx.ne' hpy.ne').mp hfrac
  exact_mod_cast hq

theorem qpow2_half (k : ℤ) : qpow2 k / 2 = qpow2 (k - 1) := by
  have hadd := qpow2_add (k - 1) 1
  have h1q : qpow2 (1 : ℤ) = 2 := by
    unfold qpow2
    norm_num
  rw [h1q] at hadd
  have h2 : qpow2 k = qpow2 (k - 1) * 2 := by
    rw [← hadd]
    congr 1
    ring
  rw [h2]
  ring

theorem abs_sub_mul_eq (a b X : ℚ) (hX : 0 < X) :
    |a * X - b * X| = |a - b| * X := by
  rw [← sub_mul, abs_mul, abs_of_pos hX]

theorem b64ofFrac_zero (d : ℕ) : b64ofFrac 0 d = some ⟨0, 0⟩ := rfl

theorem b64_inv (n d : ℕ) (hn : n ≠ 0) (mag : Dyad)
    (h : b64ofFrac n d = some mag) :
    mag.k = max (flog2Frac n d - 52) (-1074) ∧
    (0 ≤ mag.k → mag.m = rheDiv n (d * 2 ^ mag.k.toNat) ∧
      ¬ (2 ^ 1024 ≤ mag.m * 2 ^ mag.k.toNat)) ∧
    (mag.k < 0 → mag.m = rheDiv (n * 2 ^ (-mag.k).toNat) d ∧
      ¬ (2 ^ (1024 + (-mag.k).toNat) ≤ mag.m)) := by
  unfold b64ofFrac at h
  rw [if_neg hn] at h
  dsimp only at h
  rcases le_or_lt 0 (max (flog2Frac n d - 52) (-1074)) with hk0 | hk0
  · simp only [if_pos hk0] at h
    by_cases hov : (2 : ℕ) ^ 1024 ≤
        rheDiv n (d * 2 ^ (max (flog2Frac n d - 52) (-1074)).toNat) *
          2 ^ (max (flog2Frac n d - 52) (-1074)).toNat
    · rw [if_pos (by simpa using hov)] at h
      simp at h
    · rw [if_neg (by simpa using hov)] at h
      injection h with h
      rw [← h]
      exact ⟨rfl, fun _ => ⟨rfl, hov⟩, fun hneg => absurd hneg (not_lt.mpr hk0)⟩
  · simp only [if_neg (not_le.mpr hk0)] at h
    by_cases hov : (2 : ℕ) ^ (1024 + (-(max (flog2Frac n d - 52) (-1074))).toNat) ≤
        rheDiv (n * 2 ^ (-(max (flog2Frac n d - 52) (-1074))).toNat) d
    · rw [if_pos (by simpa using hov)] at h
      simp at h
    · rw [if_neg (by simpa using hov)] at h
      injection h with h
      rw [← h]
      exact ⟨rfl, fun hpos => absurd hpos (not_le.mpr hk0), fun _ => ⟨rfl, hov⟩⟩

theorem b64_m_near (n d : ℕ) (hn : n ≠ 0) (hd : 0 < d) (mag : Dyad)
    (h : b64ofFrac n d = some mag) :
    |(mag.m : ℚ) - ((n : ℚ) / d) / qpow2 mag.k| ≤ 1 / 2 := by
  have hdq : (0 : ℚ) < (d : ℚ) := by exact_mod_cast hd
  obtain ⟨hk, hpos, hneg⟩ := b64_inv n d hn mag h
  rcases le_or_lt 0 mag.k with hk0 | hk0
  · obtain ⟨hm, _⟩ := hpos hk0
    have herr := rheDiv_err n (d * 2 ^ mag.k.toNat)
      (Nat.mul_pos hd (Nat.two_pow_pos _))
    rw [← hm] at herr
    have hden : ((d * 2 ^ mag.k.toNat : ℕ) : ℚ) = (d : ℚ) * qpow2 mag.k := by
      rw [Nat.cast_mul, ← qpow2_toNat hk0]
    rw [hden] at herr
    have heq : (n : ℚ) / ((d : ℚ) * qpow2 mag.k) = ((n : ℚ) / d) / qpow2 mag.k := by
      rw [div_div]
    rw [heq] at herr
    exact herr
  · obtain ⟨hm, _⟩ := hneg hk0
    have herr := rheDiv_err (n * 2 ^ (-mag.k).toNat) d hd
    rw [← hm] at herr
    have hnum : ((n * 2 ^ (-mag.k).toNat : ℕ) : ℚ) = (n : ℚ) * (qpow2 mag.k)⁻¹ := by
      rw [Nat.cast_mul]
      congr 1
      have h3 : mag.k = -(((-mag.k).toNat : ℕ) : ℤ) := by omega
      conv_rhs => rw [h3]
      rw [qpow2_neg, inv_inv, qpow2_natCast]
  
    rw [hnum] at herr
    have heq : (n : ℚ) * (qpow2 mag.k)⁻¹ / d = ((n : ℚ) / d) / qpow2 mag.k := by
      rw [div_eq_mul_inv, div_eq_mul_inv, div_eq_mul_inv]
      ring
    rw [heq] at herr
    exact herr

theorem cast_den_eq (d : ℕ) {k : ℤ} (hk : 0 ≤ k) :
    ((d * 2 ^ k.toNat : ℕ) : ℚ) = (d : ℚ) * qpow2 k := by
  rw [Nat.cast_mul, ← qpow2_toNat hk]

theorem cast_num_eq (n : ℕ) {k : ℤ} (hk : k < 0) :
    ((n * 2 ^ (-k).toNat : ℕ) : ℚ) = (n : ℚ) * (qpow2 k)⁻¹ := by
  rw [Nat.cast_mul]
  congr 1
  have h3 : k = -(((-k).toNat : ℕ) : ℤ) := by omega
  conv_rhs => rw [h3]
  rw [qpow2_neg, inv_inv, qpow2_natCast]

theorem frac_div_pos (n d : ℕ) {k : ℤ} (hk : 0 ≤ k) :
    (n : ℚ) / ((d * 2 ^ k.toNat : ℕ) : ℚ) = ((n : ℚ) / d) / qpow2 k := by
  rw [cast_den_eq d hk, div_div]

theorem frac_div_neg (n d : ℕ) {k : ℤ} (hk : k < 0) :
    ((n * 2 ^ (-k).toNat : ℕ) : ℚ) / d = ((n : ℚ) / d) / qpow2 k := by
  rw [cast_num_eq n hk, div_eq_mul_inv, div_eq_mul_inv, div_eq_mul_inv]
  ring

theorem abs_lt_half_of_scaled (a X : ℚ) (hX : 0 < X) (h : |a| * X < X / 2) :
    |a| < 1 / 2 := by
  by_contra hcon
  push_neg at hcon
  have h2 := mul_le_mul_of_nonneg_right hcon (le_of_lt hX)
  linarith

theorem b64_val_err (n d : ℕ) (hn : n ≠ 0) (hd : 0 < d) (mag : Dyad)
    (h : b64ofFrac n d = some mag) :
    |dyadVal mag - (n : ℚ) / d| ≤ qpow2 (mag.k - 1) := by
  have hnear := b64_m_near n d hn hd mag h
  have hX : (0 : ℚ) < qpow2 mag.k := qpow2_pos _
  have h1 := abs_sub_mul_eq ((mag.m : ℚ)) (((n : ℚ) / d) / qpow2 mag.k)
    (qpow2 mag.k) hX
  rw [div_mul_cancel₀ _ hX.ne'] at h1
  unfold dyadVal
  calc |(mag.m : ℚ) * qpow2 mag.k - (n : ℚ) / d|
      = |(mag.m : ℚ) - ((n : ℚ) / d) / qpow2 mag.k| * qpow2 mag.k := h1
  _ ≤ (1 / 2) * qpow2 mag.k := mul_le_mul_of_nonneg_right hnear (le_of_lt hX)
  _ = qpow2 (mag.k - 1) := by
      rw [← qpow2_half]
      ring

theorem b64_m_le (n d : ℕ) (hn : n ≠ 0) (hd : 0 < d) (mag : Dyad)
    (h : b64ofFrac n d = some mag) : mag.m ≤ 2 ^ 53 := by
  have hn1 : 1 ≤ n := Nat.one_le_iff_ne_zero.mpr hn
  have hdq : (0 : ℚ) < (d : ℚ) := by exact_mod_cast hd
  obtain ⟨hk, _, _⟩ := b64_inv n d hn mag h
  obtain ⟨_, hspec2⟩ := flog2Frac_spec n d hn1 hd
  have hnear := b64_m_near n d hn hd mag h
  have hX : (0 : ℚ) < qpow2 mag.k := qpow2_pos _
  have hke : flog2Frac n d - 52 ≤ mag.k := by omega
  have hqX : ((n : ℚ) / d) / qpow2 mag.k < qpow2 53 := by
    rw [div_lt_iff hX]
    calc (n : ℚ) / d < qpow2 (flog2Frac n d + 1) := hspec2
    _ ≤ qpow2 (53 + mag.k) := qpow2_mono (by omega)
    _ = qpow2 53 * qpow2 mag.k := by rw [← qpow2_add]
  have hm : (mag.m : ℚ) < qpow2 53 + 1 / 2 := by
    have h2 := (abs_le.mp hnear).2
    linarith
  have h53 : qpow2 (53 : ℤ) = ((2 ^ 53 : ℕ) : ℚ) := by
    rw [show (53 : ℤ) = ((53 : ℕ) : ℤ) by rfl, qpow2_natCast]
  have hm2 : (mag.m : ℚ) < ((2 ^ 53 : ℕ) : ℚ) + 1 := by
    rw [← h53]
    linarith
  have hm3 : mag.m < 2 ^ 53 + 1 := by exact_mod_cast hm2
  omega

theorem b64_k_le (n d : ℕ) (hn : n ≠ 0) (hd : 0 < d) (mag : Dyad)
    (h : b64ofFrac n d = some mag) : mag.k ≤ 971 := by
  by_contra hcon
  push_neg at hcon
  have hn1 : 1 ≤ n := Nat.one_le_iff_ne_zero.mpr hn
  have hdq : (0 : ℚ) < (d : ℚ) := by exact_mod_cast hd
  obtain ⟨hk, hposB, _⟩ := b64_inv n d hn mag h
  have hke : mag.k = flog2Frac n d - 52 := by omega
  obtain ⟨hspec1, _⟩ := flog2Frac_spec n d hn1 hd
  have hnear := b64_m_near n d hn hd mag h
  have hX : (0 : ℚ) < qpow2 mag.k := qpow2_pos _
  have hqX : qpow2 52 ≤ ((n : ℚ) / d) / qpow2 mag.k := by
    rw [le_div_iff hX]
    calc qpow2 52 * qpow2 mag.k = qpow2 (52 + mag.k) := (qpow2_add _ _).symm
    _ = qpow2 (flog2Frac n d) := by
        rw [hke]
        congr 1
        ring
    _ ≤ (n : ℚ) / d := hspec1
  have hm : qpow2 52 - 1 / 2 ≤ (mag.m : ℚ) := by
    have h2 := (abs_le.mp hnear).1
    linarith
  have h52 : qpow2 (52 : ℤ) = ((2 ^ 52 : ℕ) : ℚ) := by
    rw [show (52 : ℤ) = ((52 : ℕ) : ℤ) by rfl, qpow2_natCast]
  have hmlt : ((2 ^ 52 - 1 : ℕ) : ℚ) < (mag.m : ℚ) := by
    rw [Nat.cast_sub Nat.one_le_two_pow, Nat.cast_one, ← h52]
    linarith
  have hm4 : 2 ^ 52 - 1 < mag.m := by exact_mod_cast hmlt
  have hm5 : 2 ^ 52 ≤ mag.m := by omega
  have hk0 : (0 : ℤ) ≤ mag.k := by omega
  obtain ⟨_, hov⟩ := hposB hk0
  apply hov
  have ht : 972 ≤ mag.k.toNat := by omega
  calc (2 : ℕ) ^ 1024 = 2 ^ 52 * 2 ^ 972 := by
        rw [← pow_add]
  _ ≤ mag.m * 2 ^ mag.k.toNat :=
      Nat.mul_le_mul hm5 (Nat.pow_le_pow_right (by norm_num) ht)

theorem b64_val_le (n d : ℕ) (hn : n ≠ 0) (hd : 0 < d) (mag : Dyad)
    (h : b64ofFrac n d = some mag) :
    dyadVal mag ≤ qpow2 1024 - qpow2 mag.k := by
  obtain ⟨hk, hposB, hnegB⟩ := b64_inv n d hn mag h
  have hkle := b64_k_le n d hn hd mag h
  have h1024 : ((2 ^ 1024 : ℕ) : ℚ) = qpow2 1024 := by
    rw [show (1024 : ℤ) = ((1024 : ℕ) : ℤ) by rfl, qpow2_natCast]
  unfold dyadVal
  rcases le_or_lt 0 mag.k with hk0 | hk0
  · obtain ⟨_, hov⟩ := hposB hk0
    push_neg at hov
    have ht : mag.k.toNat ≤ 1024 := by omega
    have hsplit : (2 : ℕ) ^ 1024 = 2 ^ (1024 - mag.k.toNat) * 2 ^ mag.k.toNat := by
      rw [← pow_add]
      congr 1
      omega
    have hmlt : mag.m < 2 ^ (1024 - mag.k.toNat) := by
      by_contra hge
      push_neg at hge
      have h2 := Nat.mul_le_mul_right (2 ^ mag.k.toNat) hge
      omega
    have hle : mag.m * 2 ^ mag.k.toNat ≤ 2 ^ 1024 - 2 ^ mag.k.toNat := by
      have h1 : mag.m ≤ 2 ^ (1024 - mag.k.toNat) - 1 := by omega
      have h2 := Nat.mul_le_mul_right (2 ^ mag.k.toNat) h1
      have h3 : (2 ^ (1024 - mag.k.toNat) - 1) * 2 ^ mag.k.toNat
          = 2 ^ 1024 - 2 ^ mag.k.toNat := by
        rw [Nat.sub_mul, one_mul, ← hsplit]
      omega
    have hcast : ((mag.m * 2 ^ mag.k.toNat : ℕ) : ℚ)
        ≤ ((2 ^ 1024 - 2 ^ mag.k.toNat : ℕ) : ℚ) := Nat.cast_le.mpr hle
    have hpowle : (2 : ℕ) ^ mag.k.toNat ≤ 2 ^ 1024 :=
      Nat.pow_le_pow_right (by norm_num) (by omega)
    rw [Nat.cast_sub hpowle, Nat.cast_mul, ← qpow2_toNat hk0, h1024] at hcast
    exact hcast
  · obtain ⟨_, hov⟩ := hnegB hk0
    push_neg at hov
    have hm1 : mag.m ≤ 2 ^ (1024 + (-mag.k).toNat) - 1 := by omega
    have h3 : ((mag.m : ℕ) : ℚ)
        ≤ ((2 ^ (1024 + (-mag.k).toNat) - 1 : ℕ) : ℚ) := Nat.cast_le.mpr hm1
    rw [Nat.cast_sub Nat.one_le_two_pow, Nat.cast_one] at h3
    have hpw : ((2 ^ (1024 + (-mag.k).toNat) : ℕ) : ℚ)
        = qpow2 1024 * (qpow2 mag.k)⁻¹ := by
      have h0 : ((1024 + (-mag.k).toNat : ℕ) : ℤ) = 1024 + -mag.k := by
        push_cast
        omega
      have hq := qpow2_natCast (1024 + (-mag.k).toNat)
      rw [h0] at hq
      rw [← hq, qpow2_add, qpow2_neg]
    have hXne : qpow2 mag.k ≠ 0 := (qpow2_pos mag.k).ne'
    have h4 := mul_le_mul_of_nonneg_right h3 (le_of_lt (qpow2_pos mag.k))
    have h5 : (((2 ^ (1024 + (-mag.k).toNat) : ℕ) : ℚ) - 1) * qpow2 mag.k
        = qpow2 1024 - qpow2 mag.k := by
      rw [hpw, sub_mul, one_mul, inv_mul_cancel_right₀ hXne]
    rw [h5] at h4
    exact h4

theorem b64_val_eq_of_near (n d : ℕ) (hn : n ≠ 0) (hd : 0 < d) (mag : Dyad)
    (h : b64ofFrac n d = some mag) (j : ℕ)
    (hnear : |(j : ℚ) * qpow2 mag.k - (n : ℚ) / d| < qpow2 (mag.k - 1)) :
    mag.m = j := by
  have hdq : (0 : ℚ) < (d : ℚ) := by exact_mod_cast hd
  obtain ⟨hk, hposB, hnegB⟩ := b64_inv n d hn mag h
  have hX : (0 : ℚ) < qpow2 mag.k := qpow2_pos _
  have hj : |(j : ℚ) - ((n : ℚ) / d) / qpow2 mag.k| < 1 / 2 := by
    have h1 := abs_sub_mul_eq ((j : ℚ)) (((n : ℚ) / d) / qpow2 mag.k)
      (qpow2 mag.k) hX
    rw [div_mul_cancel₀ _ hX.ne'] at h1
    rw [← qpow2_half, h1] at hnear
    exact abs_lt_half_of_scaled _ _ hX hnear
  rcases le_or_lt 0 mag.k with hk0 | hk0
  · obtain ⟨hm, _⟩ := hposB hk0
    rw [hm]
    apply rheDiv_eq_of_near _ _ (Nat.mul_pos hd (Nat.two_pow_pos _))
    rw [frac_div_pos n d hk0]
    exact hj
  · obtain ⟨hm, _⟩ := hnegB hk0
    rw [hm]
    apply rheDiv_eq_of_near _ _ hd
    rw [frac_div_neg n d hk0]
    exact hj

theorem qpow2_one : qpow2 (1 : ℤ) = 2 := by
  unfold qpow2
  norm_num

theorem qpow2_zero : qpow2 (0 : ℤ) = 1 := by
  unfold qpow2
  norm_num

theorem qpow2_succ (k : ℤ) : qpow2 (k + 1) = qpow2 k * 2 := by
  rw [qpow2_add, qpow2_one]

theorem one_le_ten_pow (p : ℕ) : (1 : ℚ) ≤ (10 : ℚ) ^ p := by
  calc (1 : ℚ) = 1 ^ p := (one_pow p).symm
  _ ≤ 10 ^ p := pow_le_pow_left (by norm_num) (by norm_num) p

theorem dyadScaled_lt_threshold (n d : ℕ) (hn : n ≠ 0) (hd : 0 < d) (mag : Dyad)
    (h : b64ofFrac n d = some mag) (p : ℕ) :
    dyadScaled mag p < (2 ^ 1024 - 2 ^ 970) * 10 ^ p := by
  have hkle := b64_k_le n d hn hd mag h
  have hm53 := b64_m_le n d hn hd mag h
  have hvle := b64_val_le n d hn hd mag h
  have hnear := dyadScaled_near mag p
  have hxle : dyadVal mag ≤ qpow2 1024 - qpow2 971 := by
    rcases le_or_lt mag.k 970 with hk | hk
    · have h1 : dyadVal mag ≤ qpow2 53 * qpow2 mag.k := by
        unfold dyadVal
        apply mul_le_mul_of_nonneg_right _ (le_of_lt (qpow2_pos _))
        have h53 : qpow2 (53 : ℤ) = ((2 ^ 53 : ℕ) : ℚ) := by
          rw [show (53 : ℤ) = ((53 : ℕ) : ℤ) by rfl, qpow2_natCast]
        rw [h53]
        exact_mod_cast hm53
      have h2 : qpow2 53 * qpow2 mag.k ≤ qpow2 1023 := by
        rw [← qpow2_add]
        exact qpow2_mono (by omega)
      have h4 : qpow2 971 ≤ qpow2 1023 := qpow2_mono (by norm_num)
      have h5 : qpow2 1024 = qpow2 1023 * 2 := by
        rw [show (1024 : ℤ) = 1023 + 1 by norm_num, qpow2_succ]
      linarith
    · have hk971 : mag.k = 971 := by omega
      rw [hk971] at hvle
      exact hvle
  have hp10 : (1 : ℚ) ≤ (10 : ℚ) ^ p := one_le_ten_pow p
  have hq970 : (1 : ℚ) ≤ qpow2 970 := by
    have h6 := qpow2_mono (show (0 : ℤ) ≤ 970 by norm_num)
    rw [qpow2_zero] at h6
    exact h6
  have h970half : (1 : ℚ) / 2 < qpow2 970 * 10 ^ p := by nlinarith
  have h8 : qpow2 971 = qpow2 970 * 2 := by
    rw [show (971 : ℤ) = 970 + 1 by norm_num, qpow2_succ]
  have h10 : (qpow2 1024 - qpow2 971) * 10 ^ p + qpow2 970 * 10 ^ p
      = (qpow2 1024 - qpow2 970) * 10 ^ p := by
    rw [h8]
    ring
  have hnval : (dyadScaled mag p : ℚ) < (qpow2 1024 - qpow2 970) * 10 ^ p := by
    have h6 := (abs_le.mp hnear).2
    have h7 : dyadVal mag * 10 ^ p ≤ (qpow2 1024 - qpow2 971) * 10 ^ p :=
      mul_le_mul_of_nonneg_right hxle (by positivity)
    linarith
  have h1024 : ((2 ^ 1024 : ℕ) : ℚ) = qpow2 1024 := by
    rw [show (1024 : ℤ) = ((1024 : ℕ) : ℤ) by rfl, qpow2_natCast]
  have h970c : ((2 ^ 970 : ℕ) : ℚ) = qpow2 970 := by
    rw [show (970 : ℤ) = ((970 : ℕ) : ℤ) by rfl, qpow2_natCast]
  have hAq : (((2 ^ 1024 - 2 ^ 970) * 10 ^ p : ℕ) : ℚ)
      = (qpow2 1024 - qpow2 970) * 10 ^ p := by
    rw [Nat.cast_mul,
      Nat.cast_sub (Nat.pow_le_pow_right (by norm_num) (by norm_num)),
      h1024, h970c, Nat.cast_pow]
    norm_num
  have h11 : (dyadScaled mag p : ℚ) < (((2 ^ 1024 - 2 ^ 970) * 10 ^ p : ℕ) : ℚ) := by
    rw [hAq]
    exact hnval
  exact_mod_cast h11

theorem qpow2_ne_inv_two_ten_pow (k : ℤ) (p : ℕ) (hp : 1 ≤ p) :
    qpow2 k ≠ 1 / (2 * (10 : ℚ) ^ p) := by
  intro heq
  have hpow : (0 : ℚ) < 2 * (10 : ℚ) ^ p := by positivity
  have hmul : qpow2 k * (2 * (10 : ℚ) ^ p) = 1 := by
    rw [heq]
    field_simp
  rcases le_or_lt 0 k with hk | hk
  · have h1 : (1 : ℚ) ≤ qpow2 k := by
      have h2 := qpow2_mono hk
      rw [qpow2_zero] at h2
      exact h2
    have h3 : (20 : ℚ) ≤ 2 * (10 : ℚ) ^ p := by
      have := one_le_ten_pow p
      have h4 : (10 : ℚ) ≤ 10 ^ p := by
        calc (10 : ℚ) = 10 ^ 1 := (pow_one 10).symm
        _ ≤ 10 ^ p := pow_le_pow_right (by norm_num) hp
      linarith
    nlinarith
  · set t := (-k).toNat with ht
    have htpos : 1 ≤ t := by omega
    have hqk : qpow2 k = (((2 ^ t : ℕ) : ℚ))⁻¹ := by
      have h3 : k = -((t : ℕ) : ℤ) := by omega
      rw [h3, qpow2_neg, qpow2_natCast]
    rw [hqk] at hmul
    have h2t : (0 : ℚ) < ((2 ^ t : ℕ) : ℚ) := by
      exact_mod_cast Nat.two_pow_pos t
    have hnat : ((2 * 10 ^ p : ℕ) : ℚ) = ((2 ^ t : ℕ) : ℚ) := by
      push_cast
      field_simp at hmul
      linarith [hmul]
    have hnat2 : 2 * 10 ^ p = 2 ^ t := by exact_mod_cast hnat
    have h5dvd : (5 : ℕ) ∣ 2 * 10 ^ p := by
      have h10 : (10 : ℕ) ∣ 10 ^ p := dvd_pow_self 10 (by omega)
      have h510 : (5 : ℕ) ∣ 10 := by norm_num
      exact Dvd.dvd.mul_left (dvd_trans h510 h10) 2
    rw [hnat2] at h5dvd
    have h52 : (5 : ℕ) ∣ 2 :=
      (Nat.Prime.dvd_of_dvd_pow (by norm_num)) h5dvd
    norm_num at h52

theorem reparse_scaled (n d : ℕ) (hn : n ≠ 0) (hd : 0 < d) (mag mag2 : Dyad)
    (h : b64ofFrac n d = some mag) (p : ℕ) (hp : 1 ≤ p)
    (h2 : b64ofFrac (dyadScaled mag p) (10 ^ p) = some mag2) :
    dyadScaled mag2 p = dyadScaled mag p := by
  by_cases hN0 : dyadScaled mag p = 0
  · rw [hN0] at h2
    rw [b64ofFrac_zero] at h2
    have hmg : mag2 = ⟨0, 0⟩ := (Option.some.inj h2).symm
    rw [hmg, hN0]
    simp [dyadScaled]
  · set N := dyadScaled mag p with hNdef
    have hD : (0 : ℕ) < 10 ^ p := pow_pos (by norm_num) p
    have hQP : (0 : ℚ) < (10 : ℚ) ^ p := by positivity
    have hDcast : ((10 ^ p : ℕ) : ℚ) = (10 : ℚ) ^ p := by
      push_cast
      rfl
    have hxN : |(N : ℚ) - dyadVal mag * (10 : ℚ) ^ p| ≤ 1 / 2 :=
      dyadScaled_near mag p
    have hq'x : |dyadVal mag - (N : ℚ) / (10 : ℚ) ^ p|
        ≤ 1 / (2 * (10 : ℚ) ^ p) := by
      have h1 := abs_sub_mul_eq (dyadVal mag) ((N : ℚ) / (10 : ℚ) ^ p)
        ((10 : ℚ) ^ p) hQP
      rw [div_mul_cancel₀ _ hQP.ne'] at h1
      have h3 : |dyadVal mag - (N : ℚ) / (10 : ℚ) ^ p| * (10 : ℚ) ^ p
          ≤ 1 / 2 := by
        rw [← h1, abs_sub_comm]
        exact hxN
      rw [show (1 : ℚ) / (2 * (10 : ℚ) ^ p) = (1 / 2) / (10 : ℚ) ^ p by
        rw [div_div]]
      rw [le_div_iff hQP]
      exact h3
    have hyq : |dyadVal mag2 - (N : ℚ) / (10 : ℚ) ^ p|
        ≤ qpow2 (mag2.k - 1) := by
      have h4 := b64_val_err N (10 ^ p) hN0 hD mag2 h2
      rw [hDcast] at h4
      exact h4
    rcases lt_or_le (qpow2 (mag2.k - 1)) (1 / (2 * (10 : ℚ) ^ p)) with hcase | hcase
    · apply dyadScaled_eq_of_near
      have h5 := abs_sub_mul_eq (dyadVal mag2) ((N : ℚ) / (10 : ℚ) ^ p)
        ((10 : ℚ) ^ p) hQP
      rw [div_mul_cancel₀ _ hQP.ne'] at h5
      rw [abs_sub_comm, h5]
      calc |dyadVal mag2 - (N : ℚ) / (10 : ℚ) ^ p| * (10 : ℚ) ^ p
          ≤ qpow2 (mag2.k - 1) * (10 : ℚ) ^ p :=
            mul_le_mul_of_nonneg_right hyq (le_of_lt hQP)
      _ < (1 / (2 * (10 : ℚ) ^ p)) * (10 : ℚ) ^ p :=
            (mul_lt_mul_right hQP).mpr hcase
      _ = 1 / 2 := by
            field_simp
            ring
    · have hstrict : 1 / (2 * (10 : ℚ) ^ p) < qpow2 (mag2.k - 1) :=
        lt_of_le_of_ne hcase (Ne.symm (qpow2_ne_inv_two_ten_pow _ p hp))
      have hm53 := b64_m_le n d hn hd mag h
      have hk1074 : (-1074 : ℤ) ≤ mag.k := by
        obtain ⟨hk, _, _⟩ := b64_inv n d hn mag h
        omega
      rcases le_or_lt mag2.k mag.k with hkk | hkk
      · have hj : ((mag.m * 2 ^ (mag.k - mag2.k).toNat : ℕ) : ℚ) * qpow2 mag2.k
            = dyadVal mag := by
          rw [Nat.cast_mul, ← qpow2_toNat (by omega : (0 : ℤ) ≤ mag.k - mag2.k)]
          unfold dyadVal
          rw [mul_assoc, ← qpow2_add,
            show mag.k - mag2.k + mag2.k = mag.k by omega]
        have hmj := b64_val_eq_of_near N (10 ^ p) hN0 hD mag2 h2
          (mag.m * 2 ^ (mag.k - mag2.k).toNat) (by
            rw [hDcast, hj]
            exact lt_of_le_of_lt hq'x hstrict)
        have hval : dyadVal mag2 = dyadVal mag := by
          have h6 : dyadVal mag2 = (mag2.m : ℚ) * qpow2 mag2.k := rfl
          rw [h6, hmj]
          exact hj
        rw [hNdef]
        exact dyadScaled_value_congr mag2 mag p hval
      · obtain ⟨hk2eq, _, _⟩ := b64_inv N (10 ^ p) hN0 mag2 h2
        have hk2e : mag2.k = flog2Frac N (10 ^ p) - 52 := by omega
        have hN1 : 1 ≤ N := Nat.one_le_iff_ne_zero.mpr hN0
        obtain ⟨hs1, hs2⟩ := flog2Frac_spec N (10 ^ p) hN1 hD
        rw [hDcast] at hs1 hs2
        have hTeq : qpow2 52 * qpow2 mag2.k = qpow2 (flog2Frac N (10 ^ p)) := by
          rw [← qpow2_add]
          congr 1
          omega
        have hxT : dyadVal mag ≤ qpow2 52 * qpow2 mag2.k := by
          have hx1 : dyadVal mag ≤ qpow2 53 * qpow2 mag.k := by
            unfold dyadVal
            apply mul_le_mul_of_nonneg_right _ (le_of_lt (qpow2_pos _))
            have h53 : qpow2 (53 : ℤ) = ((2 ^ 53 : ℕ) : ℚ) := by
              rw [show (53 : ℤ) = ((53 : ℕ) : ℤ) by rfl, qpow2_natCast]
            rw [h53]
            exact_mod_cast hm53
          calc dyadVal mag ≤ qpow2 53 * qpow2 mag.k := hx1
          _ = qpow2 (53 + mag.k) := (qpow2_add _ _).symm
          _ ≤ qpow2 (52 + mag2.k) := qpow2_mono (by omega)
          _ = qpow2 52 * qpow2 mag2.k := qpow2_add _ _
        have hTq' : qpow2 52 * qpow2 mag2.k ≤ (N : ℚ) / (10 : ℚ) ^ p := by
          rw [hTeq]
          exact hs1
        have hjcast : ((2 ^ 52 : ℕ) : ℚ) = qpow2 52 := by
          rw [show (52 : ℤ) = ((52 : ℕ) : ℤ) by rfl, qpow2_natCast]
        have hq'ub : (N : ℚ) / (10 : ℚ) ^ p
            ≤ dyadVal mag + 1 / (2 * (10 : ℚ) ^ p) := by
          have h7 := (abs_le.mp hq'x).1
          linarith
        have habs : |((2 ^ 52 : ℕ) : ℚ) * qpow2 mag2.k
            - (N : ℚ) / ((10 ^ p : ℕ) : ℚ)| < qpow2 (mag2.k - 1) := by
          rw [hDcast, hjcast, abs_sub_comm,
            abs_of_nonneg (by linarith [hTq'])]
          linarith [hxT, hq'ub, hstrict]
        have hmj := b64_val_eq_of_near N (10 ^ p) hN0 hD mag2 h2 (2 ^ 52) habs
        have hyT : dyadVal mag2 = qpow2 52 * qpow2 mag2.k := by
          have h6 : dyadVal mag2 = (mag2.m : ℚ) * qpow2 mag2.k := rfl
          rw [h6, hmj, hjcast]
        have hyq' : dyadVal mag2 ≤ (N : ℚ) / (10 : ℚ) ^ p := by
          rw [hyT]
          exact hTq'
        have hxy : dyadVal mag ≤ dyadVal mag2 := by
          rw [hyT]
          exact hxT
        rcases eq_or_lt_of_le hxy with heq | hlt
        · rw [hNdef]
          exact dyadScaled_value_congr mag2 mag p heq.symm
        · apply dyadScaled_eq_of_near
          have h5 := abs_sub_mul_eq (dyadVal mag2) ((N : ℚ) / (10 : ℚ) ^ p)
            ((10 : ℚ) ^ p) hQP
          rw [div_mul_cancel₀ _ hQP.ne'] at h5
          rw [abs_sub_comm, h5]
          have hq'lb : (N : ℚ) / (10 : ℚ) ^ p - dyadVal mag
              ≤ 1 / (2 * (10 : ℚ) ^ p) := by
            have h7 := (abs_le.mp hq'x).1
            linarith
          have habs2 : |dyadVal mag2 - (N : ℚ) / (10 : ℚ) ^ p|
              < 1 / (2 * (10 : ℚ) ^ p) := by
            rw [abs_sub_comm, abs_of_nonneg (by linarith [hyq'])]
            linarith
          calc |dyadVal mag2 - (N : ℚ) / (10 : ℚ) ^ p| * (10 : ℚ) ^ p
              < (1 / (2 * (10 : ℚ) ^ p)) * (10 : ℚ) ^ p :=
                (mul_lt_mul_right hQP).mpr habs2
          _ = 1 / 2 := by
                field_simp
                ring

theorem pySplit_ne_nil (sep : Char) (s : Str) : pySplit sep s ≠ [] := by
  induction s with
  | nil => simp [pySplit]
  | cons c rest ih =>
    unfold pySplit
    split_ifs
    · simp
    · cases hsp : pySplit sep rest with
      | nil => simp
      | cons piece pieces => simp

theorem pySplit_sep_not_mem (sep : Char) (s : Str) :
    ∀ part ∈ pySplit sep s, sep ∉ part := by
  induction s with
  | nil =>
    intro part hp
    simp [pySplit] at hp
    simp [hp]
  | cons c rest ih =>
    intro part hp
    unfold pySplit at hp
    split_ifs at hp with hc
    · rcases List.mem_cons.mp hp with rfl | hmem
      · simp
      · exact ih part hmem
    · cases hsp : pySplit sep rest with
      | nil => exact absurd hsp (pySplit_ne_nil sep rest)
      | cons piece pieces =>
        rw [hsp] at hp
        rcases List.mem_cons.mp hp with rfl | hmem
        · intro hin
          rcases List.mem_cons.mp hin with rfl | hin2
          · exact hc rfl
          · exact ih piece (by rw [hsp]; exact List.mem_cons_self _ _) hin2
        · exact ih part (by rw [hsp]; exact List.mem_cons_of_mem _ hmem)

theorem pySplit_no_sep (sep : Char) (u : Str) (h : sep ∉ u) :
    pySplit sep u = [u] := by
  induction u with
  | nil => rfl
  | cons c rest ih =>
    unfold pySplit
    have hc : ¬ c = sep := fun hcc => h (by rw [hcc]; exact List.mem_cons_self _ _)
    rw [if_neg hc, ih (fun hm => h (List.mem_cons_of_mem _ hm))]

theorem pySplit_cons_pos (sep : Char) (rest : Str) :
    pySplit sep (sep :: rest) = [] :: pySplit sep rest := by
  rw [pySplit, if_pos rfl]

theorem pySplit_cons_ne (sep c : Char) (rest : Str) (hc : ¬ c = sep)
    (piece : Str) (pieces : List Str)
    (hsp : pySplit sep rest = piece :: pieces) :
    pySplit sep (c :: rest) = (c :: piece) :: pieces := by
  rw [pySplit, if_neg hc, hsp]

theorem pySplit_append_sep (sep : Char) (u w : Str) (h : sep ∉ u) :
    pySplit sep (u ++ sep :: w) = u :: pySplit sep w := by
  induction u with
  | nil =>
    rw [List.nil_append]
    exact pySplit_cons_pos sep w
  | cons c rest ih =>
    rw [List.cons_append]
    have hc : ¬ c = sep := fun hcc => h (by rw [hcc]; exact List.mem_cons_self _ _)
    exact pySplit_cons_ne sep c _ hc rest (pySplit sep w)
      (ih (fun hm => h (List.mem_cons_of_mem _ hm)))

theorem pySplit_pyJoin (sep : Char) (parts : List Str) (hne : parts ≠ [])
    (h : ∀ u ∈ parts, sep ∉ u) :
    pySplit sep (pyJoin sep parts) = parts := by
  induction parts with
  | nil => exact absurd rfl hne
  | cons u rest ih =>
    cases rest with
    | nil =>
      show pySplit sep (pyJoin sep [u]) = [u]
      rw [show pyJoin sep [u] = u from rfl]
      exact pySplit_no_sep sep u (h u (List.mem_cons_self _ _))
    | cons v ps =>
      show pySplit sep (u ++ sep :: pyJoin sep (v :: ps)) = u :: v :: ps
      rw [pySplit_append_sep sep u _ (h u (List.mem_cons_self _ _))]
      rw [ih (by simp) (fun w hw => h w (List.mem_cons_of_mem _ hw))]

theorem pySplit_len_ge_two (s : Str) (h : ',' ∈ s) :
    2 ≤ (pySplit ',' s).length := by
  induction s with
  | nil => simp at h
  | cons c rest ih =>
    unfold pySplit
    split_ifs with hc
    · have h1 := pySplit_ne_nil ',' rest
      rw [List.length_cons]
      have h2 : 0 < (pySplit ',' rest).length := List.length_pos.mpr h1
      omega
    · have hmem : ',' ∈ rest := by
        rcases List.mem_cons.mp h with rfl | hm
        · exact absurd rfl hc
        · exact hm
      cases hsp : pySplit ',' rest with
      | nil => exact absurd hsp (pySplit_ne_nil ',' rest)
      | cons piece pieces =>
        have h3 := ih hmem
        rw [hsp] at h3
        simp only [List.length_cons] at h3 ⊢
        omega

theorem pyJoin_sep_mem (sep : Char) (u v : Str) (ps : List Str) :
    sep ∈ pyJoin sep (u :: v :: ps) := by
  show sep ∈ u ++ sep :: pyJoin sep (v :: ps)
  exact List.mem_append_right _ (List.mem_cons_self _ _)

theorem mem_of_mem_pyStrip {c : Char} {s : Str} (h : c ∈ pyStrip s) : c ∈ s := by
  unfold pyStrip at h
  rw [List.mem_reverse] at h
  have hs1 : ((s.dropWhile isPySpace).reverse.dropWhile isPySpace).Sublist
      ((s.dropWhile isPySpace).reverse) := List.dropWhile_sublist _
  have h1 := hs1.subset h
  rw [List.mem_reverse] at h1
  have hs2 : (s.dropWhile isPySpace).Sublist s := List.dropWhile_sublist _
  exact hs2.subset h1

theorem pyStrip_no_space (s : Str) (h : ∀ c ∈ s, isPySpace c = false) :
    pyStrip s = s := by
  unfold pyStrip
  have h1 : s.dropWhile isPySpace = s := by
    cases s with
    | nil => rfl
    | cons c rest =>
      rw [List.dropWhile_cons, if_neg]
      rw [h c (List.mem_cons_self _ _)]
      simp
  rw [h1]
  have h2 : s.reverse.dropWhile isPySpace = s.reverse := by
    cases hs : s.reverse with
    | nil => rfl
    | cons c rest =>
      rw [List.dropWhile_cons, if_neg]
      have hc : c ∈ s := by
        rw [← List.mem_reverse, hs]
        exact List.mem_cons_self _ _
      rw [h c hc]
      simp
  rw [h2, List.reverse_reverse]

theorem isDig_not_space (c : Char) (h : isDig c = true) :
    isPySpace c = false := by
  cases hiso : isPySpace c
  · rfl
  · exfalso
    simp only [isPySpace, Bool.or_eq_true, decide_eq_true_eq] at hiso
    rcases hiso with ((((rfl | rfl) | rfl) | rfl) | rfl) | rfl <;>
      exact absurd h (by decide)

theorem isDig_ne_of_not (c x : Char) (hx : isDig x = false)
    (h : isDig c = true) : c ≠ x := by
  intro hc
  rw [hc, hx] at h
  exact Bool.false_ne_true h

theorem takeWhile_digits_dot (ds fs : Str) (h : ds.all isDig = true) :
    (ds ++ '.' :: fs).takeWhile isDig = ds := by
  induction ds with
  | nil =>
    rw [List.nil_append, List.takeWhile_cons, if_neg (by decide)]
  | cons c rest ih =>
    rw [List.all_cons, Bool.and_eq_true] at h
    rw [List.cons_append, List.takeWhile_cons, if_pos h.1, ih h.2]

theorem dropWhile_digits_dot (ds fs : Str) (h : ds.all isDig = true) :
    (ds ++ '.' :: fs).dropWhile isDig = '.' :: fs := by
  induction ds with
  | nil =>
    rw [List.nil_append, List.dropWhile_cons, if_neg (by decide)]
  | cons c rest ih =>
    rw [List.all_cons, Bool.and_eq_true] at h
    rw [List.cons_append, List.dropWhile_cons, if_pos h.1, ih h.2]

theorem dropWhile_digits_all (ds : Str) (h : ds.all isDig = true) :
    ds.dropWhile isDig = [] := by
  induction ds with
  | nil => rfl
  | cons c rest ih =>
    rw [List.all_cons, Bool.and_eq_true] at h
    rw [List.dropWhile_cons, if_pos h.1, ih h.2]

theorem digitsToNat_replicate_zero (k : ℕ) :
    digitsToNat (List.replicate k '0') = 0 := by
  induction k with
  | zero => rfl
  | succ m ih =>
    rw [List.replicate_succ]
    show List.foldl _ (10 * 0 + ('0'.toNat - 48)) (List.replicate m '0') = 0
    rw [show 10 * 0 + ('0'.toNat - 48) = 0 by decide]
    exact ih

theorem digitsToNat_padDigits (w n : ℕ) : digitsToNat (padDigits w n) = n := by
  unfold padDigits
  dsimp only
  rw [digitsToNat_append, digitsToNat_replicate_zero, digitsToNat_natDigits]
  omega

theorem padDigits_ne_nil (w n : ℕ) : padDigits w n ≠ [] := by
  unfold padDigits
  dsimp only
  intro hcon
  exact natDigits_ne_nil n (List.append_eq_nil.mp hcon).2

theorem head_ne_dash_of_digits (ds fs : Str) (hds : ds ≠ [])
    (h1 : ds.all isDig = true) : ¬ (ds ++ '.' :: fs).head? = some '-' := by
  obtain ⟨c, ds', rfl⟩ := List.exists_cons_of_ne_nil hds
  rw [List.cons_append, List.head?_cons]
  intro heq
  have hc : c = '-' := Option.some.inj heq
  rw [List.all_cons, Bool.and_eq_true] at h1
  exact isDig_ne_of_not c '-' (by decide) h1.1 hc

theorem numPattern_digits_dot (ds fs : Str) (hds : ds ≠ []) (hfs : fs ≠ [])
    (h1 : ds.all isDig = true) (h2 : fs.all isDig = true) :
    numPattern (ds ++ '.' :: fs) = true := by
  unfold numPattern
  dsimp only
  rw [if_neg (head_ne_dash_of_digits ds fs hds h1)]
  rw [takeWhile_digits_dot ds fs h1, dropWhile_digits_dot ds fs h1]
  simp [hds, hfs, h2]

theorem numPattern_neg_digits_dot (ds fs : Str) (hds : ds ≠ []) (hfs : fs ≠ [])
    (h1 : ds.all isDig = true) (h2 : fs.all isDig = true) :
    numPattern ('-' :: (ds ++ '.' :: fs)) = true := by
  unfold numPattern
  dsimp only
  rw [List.head?_cons, if_pos rfl, List.tail_cons]
  rw [takeWhile_digits_dot ds fs h1, dropWhile_digits_dot ds fs h1]
  simp [hds, hfs, h2]

theorem tokenIntPart_digits_dot (ds fs : Str) (hds : ds ≠ [])
    (h1 : ds.all isDig = true) :
    tokenIntPart (ds ++ '.' :: fs) = ds := by
  unfold tokenIntPart
  rw [if_neg (head_ne_dash_of_digits ds fs hds h1)]
  exact takeWhile_digits_dot ds fs h1

theorem tokenFracPart_digits_dot (ds fs : Str) (hds : ds ≠ [])
    (h1 : ds.all isDig = true) :
    tokenFracPart (ds ++ '.' :: fs) = fs := by
  unfold tokenFracPart
  rw [if_neg (head_ne_dash_of_digits ds fs hds h1)]
  rw [dropWhile_digits_dot ds fs h1, List.tail_cons]

theorem tokenIntPart_neg_digits_dot (ds fs : Str) (h1 : ds.all isDig = true) :
    tokenIntPart ('-' :: (ds ++ '.' :: fs)) = ds := by
  unfold tokenIntPart
  rw [List.head?_cons, if_pos rfl, List.tail_cons]
  exact takeWhile_digits_dot ds fs h1

theorem tokenFracPart_neg_digits_dot (ds fs : Str) (h1 : ds.all isDig = true) :
    tokenFracPart ('-' :: (ds ++ '.' :: fs)) = fs := by
  unfold tokenFracPart
  rw [List.head?_cons, if_pos rfl, List.tail_cons]
  rw [dropWhile_digits_dot ds fs h1, List.tail_cons]

theorem numPattern_digits (ds : Str) (hds : ds ≠ [])
    (h1 : ds.all isDig = true) : numPattern ds = false := by
  obtain ⟨c, ds', rfl⟩ := List.exists_cons_of_ne_nil hds
  have hall := h1
  rw [List.all_cons, Bool.and_eq_true] at hall
  unfold numPattern
  dsimp only
  rw [List.head?_cons]
  rw [if_neg (fun heq => isDig_ne_of_not c '-' (by decide) hall.1
    (Option.some.inj heq))]
  rw [dropWhile_digits_all _ h1]
  simp

theorem numPattern_neg_digits (ds : Str) (h1 : ds.all isDig = true) :
    numPattern ('-' :: ds) = false := by
  unfold numPattern
  dsimp only
  rw [List.head?_cons, if_pos rfl, List.tail_cons, dropWhile_digits_all _ h1]
  simp

theorem formatFixed_chars (neg : Bool) (x : Dyad) (p : ℕ) :
    ∀ c ∈ formatFixed neg x p, isDig c = true ∨ c = '-' ∨ c = '.' := by
  intro c hc
  have hdig : ∀ n : ℕ, c ∈ natDigits n → isDig c = true := fun n hm =>
    List.all_eq_true.mp (natDigits_all_isDig n) c hm
  have hpad : ∀ w m : ℕ, c ∈ padDigits w m → isDig c = true := fun w m hm =>
    List.all_eq_true.mp (padDigits_all_isDig w m) c hm
  unfold formatFixed at hc
  dsimp only at hc
  cases neg with
  | false =>
    rw [if_neg (by simp)] at hc
    split_ifs at hc with hp0
    · exact Or.inl (hdig _ hc)
    · rcases List.mem_append.mp hc with hm | hm
      · exact Or.inl (hdig _ hm)
      · rcases List.mem_cons.mp hm with rfl | hm2
        · exact Or.inr (Or.inr rfl)
        · exact Or.inl (hpad _ _ hm2)
  | true =>
    rw [if_pos rfl] at hc
    rcases List.mem_cons.mp hc with rfl | hm
    · exact Or.inr (Or.inl rfl)
    · split_ifs at hm with hp0
      · exact Or.inl (hdig _ hm)
      · rcases List.mem_append.mp hm with hm1 | hm1
        · exact Or.inl (hdig _ hm1)
        · rcases List.mem_cons.mp hm1 with rfl | hm2
          · exact Or.inr (Or.inr rfl)
          · exact Or.inl (hpad _ _ hm2)

theorem dyadScaled_zero (p : ℕ) : dyadScaled ⟨0, 0⟩ p = 0 := by
  simp [dyadScaled]

theorem dyadScaled_lt_threshold' (n d : ℕ) (hd : 0 < d) (mag : Dyad)
    (h : b64ofFrac n d = some mag) (p : ℕ) :
    dyadScaled mag p < (2 ^ 1024 - 2 ^ 970) * 10 ^ p := by
  by_cases hn : n = 0
  · subst hn
    rw [b64ofFrac_zero] at h
    have hmg : mag = ⟨0, 0⟩ := (Option.some.inj h).symm
    rw [hmg, dyadScaled_zero]
    have h1 : (2 : ℕ) ^ 970 < 2 ^ 1024 :=
      Nat.pow_lt_pow_right (by norm_num) (by norm_num)
    have h2 : 0 < 10 ^ p := pow_pos (by norm_num) p
    exact Nat.mul_pos (by omega) h2
  · exact dyadScaled_lt_threshold n d hn hd mag h p

theorem reparse_scaled2 (n d : ℕ) (hd : 0 < d) (mag mag2 : Dyad)
    (h : b64ofFrac n d = some mag) (p : ℕ) (hp : 1 ≤ p)
    (h2 : b64ofFrac (dyadScaled mag p) (10 ^ p) = some mag2) :
    dyadScaled mag2 p = dyadScaled mag p := by
  by_cases hn : n = 0
  · subst hn
    rw [b64ofFrac_zero] at h
    have hmg : mag = ⟨0, 0⟩ := (Option.some.inj h).symm
    rw [hmg, dyadScaled_zero] at h2 ⊢
    rw [b64ofFrac_zero] at h2
    have hmg2 : mag2 = ⟨0, 0⟩ := (Option.some.inj h2).symm
    rw [hmg2, dyadScaled_zero]
  · exact reparse_scaled n d hn hd mag mag2 h p hp h2

theorem formatFixed_reparse (neg : Bool) (mag : Dyad) (p : ℕ) (hp : 1 ≤ p)
    (n d : ℕ) (hd : 0 < d) (h : b64ofFrac n d = some mag) :
    normalizeNumber (formatFixed neg mag p) p = formatFixed neg mag p := by
  have hlo : dyadScaled mag p % 10 ^ p < 10 ^ p :=
    Nat.mod_lt _ (pow_pos (by norm_num) p)
  have hflen : (padDigits p (dyadScaled mag p % 10 ^ p)).length = p :=
    padDigits_length _ _ hlo hp
  have hds := natDigits_all_isDig (dyadScaled mag p / 10 ^ p)
  have hfs := padDigits_all_isDig p (dyadScaled mag p % 10 ^ p)
  have hdsne := natDigits_ne_nil (dyadScaled mag p / 10 ^ p)
  have hfsne := padDigits_ne_nil p (dyadScaled mag p % 10 ^ p)
  have hthresh := dyadScaled_lt_threshold' n d hd mag h p
  have hsome := b64ofFrac_finite (dyadScaled mag p) (10 ^ p)
    (pow_pos (by norm_num) p) hthresh
  obtain ⟨mag2, hmag2⟩ := Option.isSome_iff_exists.mp hsome
  have hnval2 : dyadScaled mag2 p = dyadScaled mag p :=
    reparse_scaled2 n d hd mag mag2 h p hp hmag2
  have hN : digitsToNat (natDigits (dyadScaled mag p / 10 ^ p) ++
      padDigits p (dyadScaled mag p % 10 ^ p)) = dyadScaled mag p := by
    rw [digitsToNat_append, digitsToNat_natDigits, digitsToNat_padDigits, hflen]
    exact Nat.div_add_mod' _ _
  cases neg with
  | false =>
    rw [formatFixed_structure false mag p hp]
    rw [show (if false = true then ['-'] else []) ++
        (natDigits (dyadScaled mag p / 10 ^ p) ++
          '.' :: padDigits p (dyadScaled mag p % 10 ^ p)) =
        natDigits (dyadScaled mag p / 10 ^ p) ++
          '.' :: padDigits p (dyadScaled mag p % 10 ^ p) by simp]
    unfold normalizeNumber
    rw [if_pos (numPattern_digits_dot _ _ hdsne hfsne hds hfs)]
    have hfl : floatOfToken (natDigits (dyadScaled mag p / 10 ^ p) ++
        '.' :: padDigits p (dyadScaled mag p % 10 ^ p)) =
        PyFloat.finite false mag2 := by
      unfold floatOfToken
      dsimp only
      rw [tokenIntPart_digits_dot _ _ hdsne hds,
        tokenFracPart_digits_dot _ _ hdsne hds, hflen, hN, hmag2]
      rw [decide_eq_false (head_ne_dash_of_digits _ _ hdsne hds)]
    rw [hfl]
    show formatFixed false mag2 p = _
    rw [formatFixed_structure false mag2 p hp, hnval2]
    simp
  | true =>
    rw [formatFixed_structure true mag p hp]
    rw [show (if true = true then ['-'] else []) ++
        (natDigits (dyadScaled mag p / 10 ^ p) ++
          '.' :: padDigits p (dyadScaled mag p % 10 ^ p)) =
        '-' :: (natDigits (dyadScaled mag p / 10 ^ p) ++
          '.' :: padDigits p (dyadScaled mag p % 10 ^ p)) by simp]
    unfold normalizeNumber
    rw [if_pos (numPattern_neg_digits_dot _ _ hdsne hfsne hds hfs)]
    have hfl : floatOfToken ('-' :: (natDigits (dyadScaled mag p / 10 ^ p) ++
        '.' :: padDigits p (dyadScaled mag p % 10 ^ p))) =
        PyFloat.finite true mag2 := by
      unfold floatOfToken
      dsimp only
      rw [tokenIntPart_neg_digits_dot _ _ hds,
        tokenFracPart_neg_digits_dot _ _ hds, hflen, hN, hmag2]
      rfl
    rw [hfl]
    show formatFixed true mag2 p = _
    rw [formatFixed_structure true mag2 p hp, hnval2]
    simp

theorem formatFixed_no_space (neg : Bool) (x : Dyad) (p : ℕ) :
    pyStrip (formatFixed neg x p) = formatFixed neg x p := by
  apply pyStrip_no_space
  intro c hc
  rcases formatFixed_chars neg x p c hc with hd | rfl | rfl
  · exact isDig_not_space c hd
  · decide
  · decide

theorem formatFixed_p0 (neg : Bool) (x : Dyad) :
    formatFixed neg x 0 =
      (if neg = true then ['-'] else []) ++ natDigits (dyadScaled x 0) := by
  unfold formatFixed
  dsimp only
  rw [if_pos rfl]
  cases neg
  · rfl
  · rfl

theorem normalizeNumber_formatFixed_p0 (neg : Bool) (x : Dyad) :
    normalizeNumber (formatFixed neg x 0) 0 = formatFixed neg x 0 := by
  have hpat : numPattern (formatFixed neg x 0) = false := by
    rw [formatFixed_p0]
    cases neg
    · rw [show (if false = true then ['-'] else []) ++ natDigits (dyadScaled x 0)
          = natDigits (dyadScaled x 0) by simp]
      exact numPattern_digits _ (natDigits_ne_nil _) (natDigits_all_isDig _)
    · rw [show (if true = true then ['-'] else []) ++ natDigits (dyadScaled x 0)
          = '-' :: natDigits (dyadScaled x 0) by simp]
      exact numPattern_neg_digits _ (natDigits_all_isDig _)
  unfold normalizeNumber
  rw [if_neg (by rw [hpat]; simp)]

theorem comma_not_mem_formatPyFloat (f : PyFloat) (p : ℕ) :
    ',' ∉ formatPyFloat f p := by
  cases f with
  | finite neg mag =>
    show ',' ∉ formatFixed neg mag p
    intro hm
    rcases formatFixed_chars neg mag p ',' hm with hd | hx | hx
    · exact absurd hd (by decide)
    · exact absurd hx (by decide)
    · exact absurd hx (by decide)
  | inf neg =>
    cases neg
    · show ',' ∉ "inf".toList
      decide
    · show ',' ∉ "-inf".toList
      decide
  | nan =>
    show ',' ∉ "nan".toList
    decide

theorem no_comma_normalizeNumber (part : Str) (p : ℕ) (h : ',' ∉ part) :
    ',' ∉ normalizeNumber (pyStrip part) p := by
  unfold normalizeNumber
  split_ifs with hpat
  · exact comma_not_mem_formatPyFloat _ p
  · intro hm
    exact h (mem_of_mem_pyStrip hm)

theorem normalizeNumber_strip_idem (t0 : Str) (p : ℕ) :
    normalizeNumber (pyStrip (normalizeNumber (pyStrip t0) p)) p
      = normalizeNumber (pyStrip t0) p := by
  by_cases hpat : numPattern (pyStrip t0) = true
  · have hu : normalizeNumber (pyStrip t0) p
        = formatPyFloat (floatOfToken (pyStrip t0)) p := by
      unfold normalizeNumber
      rw [if_pos hpat]
    rw [hu]
    cases hb : b64ofFrac
        (digitsToNat (tokenIntPart (pyStrip t0) ++ tokenFracPart (pyStrip t0)))
        (10 ^ (tokenFracPart (pyStrip t0)).length) with
    | none =>
      have hfl : floatOfToken (pyStrip t0)
          = PyFloat.inf (decide ((pyStrip t0).head? = some '-')) := by
        unfold floatOfToken
        dsimp only
        rw [hb]
      rw [hfl]
      cases hneg : decide ((pyStrip t0).head? = some '-')
      · show normalizeNumber (pyStrip "inf".toList) p = "inf".toList
        rw [show pyStrip "inf".toList = "inf".toList by decide]
        unfold normalizeNumber
        rw [if_neg (by decide)]
      · show normalizeNumber (pyStrip "-inf".toList) p = "-inf".toList
        rw [show pyStrip "-inf".toList = "-inf".toList by decide]
        unfold normalizeNumber
        rw [if_neg (by decide)]
    | some mag =>
      have hfl : floatOfToken (pyStrip t0)
          = PyFloat.finite (decide ((pyStrip t0).head? = some '-')) mag := by
        unfold floatOfToken
        dsimp only
        rw [hb]
      rw [hfl]
      show normalizeNumber
        (pyStrip (formatFixed (decide ((pyStrip t0).head? = some '-')) mag p)) p
        = formatFixed (decide ((pyStrip t0).head? = some '-')) mag p
      rw [formatFixed_no_space]
      rcases Nat.eq_zero_or_pos p with rfl | hp
      · exact normalizeNumber_formatFixed_p0 _ _
      · exact formatFixed_reparse _ mag p hp _ _ (pow_pos (by norm_num) _) hb
  · have hu : normalizeNumber (pyStrip t0) p = pyStrip t0 := by
      unfold normalizeNumber
      rw [if_neg hpat]
    rw [hu, pyStrip_idem]
    exact hu

theorem normalizeCSVLine_idem (line : Str) (p : ℕ) :
    normalizeCSVLine (normalizeCSVLine line p) p = normalizeCSVLine line p := by
  have hCSV : ∀ l : Str, l ≠ [] → normalizeCSVLine l p
      = pyJoin ',' ((pySplit ',' l).map
          (fun part => normalizeNumber (pyStrip part) p)) := by
    intro l hl2
    unfold normalizeCSVLine
    rw [if_neg hl2]
  by_cases hl : line = []
  · rw [hl]
    rfl
  · by_cases hout0 : normalizeCSVLine line p = []
    · rw [hout0]
      rfl
    · rw [hCSV line hl] at hout0
      rw [hCSV line hl]
      rw [hCSV _ hout0]
      have key1 : (pySplit ',' line).map
          (fun part => normalizeNumber (pyStrip part) p) ≠ [] := by
        intro hcon
        exact pySplit_ne_nil ',' line (List.map_eq_nil.mp hcon)
      have key2 : ∀ u ∈ (pySplit ',' line).map
          (fun part => normalizeNumber (pyStrip part) p), ',' ∉ u := by
        intro u hu
        obtain ⟨part, hpart, rfl⟩ := List.mem_map.mp hu
        exact no_comma_normalizeNumber part p
          (pySplit_sep_not_mem ',' line part hpart)
      rw [pySplit_pyJoin ',' _ key1 key2]
      rw [List.map_map]
      congr 1
      exact List.map_congr_left (fun part _ => normalizeNumber_strip_idem part p)

theorem comma_normalizeCSVLine (line : Str) (p : ℕ) (h : ',' ∈ line) :
    ',' ∈ normalizeCSVLine line p := by
  have hl : line ≠ [] := by
    intro hcon
    rw [hcon] at h
    simp at h
  unfold normalizeCSVLine
  rw [if_neg hl]
  have h2 := pySplit_len_ge_two line h
  cases hm : (pySplit ',' line).map
      (fun part => normalizeNumber (pyStrip part) p) with
  | nil =>
    exfalso
    have h3 := congrArg List.length hm
    rw [List.length_map] at h3
    simp only [List.length_nil] at h3
    omega
  | cons u rest =>
    cases rest with
    | nil =>
      exfalso
      have h3 := congrArg List.length hm
      rw [List.length_map] at h3
      simp only [List.length_cons, List.length_nil] at h3
      omega
    | cons v ps =>
      exact pyJoin_sep_mem ',' u v ps

/-- **C6**: `preprocessContent` is idempotent: applying it to its own
output at the same precision returns the output byte-identically, for
every line list and every precision.  The CSV case rests on the exact
binary64 round-trip: reparsing a printed `f"{v:.pf}"` value and printing
it again reproduces the same digit string. -/
theorem claim_C6 (content : List Str) (p : ℕ) :
    preprocessContent (preprocessContent content p) p
      = preprocessContent content p := by
  cases content with
  | nil => rfl
  | cons l0 rest =>
    by_cases hcsv : ',' ∈ l0
    · have h1 : preprocessContent (l0 :: rest) p
          = (l0 :: rest).map (fun line => normalizeCSVLine line p) := by
        unfold preprocessContent
        rw [if_neg (by simp)]
        dsimp only
        rw [if_pos (decide_eq_true hcsv)]
      rw [h1]
      have hcsv2 : ',' ∈ normalizeCSVLine l0 p := comma_normalizeCSVLine l0 p hcsv
      have h2 : preprocessContent
          ((l0 :: rest).map fun line => normalizeCSVLine line p) p
          = ((l0 :: rest).map fun line => normalizeCSVLine line p).map
              (fun line => normalizeCSVLine line p) := by
        show preprocessContent
          (normalizeCSVLine l0 p :: rest.map fun line => normalizeCSVLine line p) p = _
        unfold preprocessContent
        rw [if_neg (by simp)]
        dsimp only
        rw [if_pos (decide_eq_true hcsv2)]
        rfl
      rw [h2, List.map_map]
      exact List.map_congr_left (fun line _ => normalizeCSVLine_idem line p)
    · have h1 : preprocessContent (l0 :: rest) p = l0 :: rest := by
        unfold preprocessContent
        rw [if_neg (by simp)]
        dsimp only
        rw [if_neg (by simpa using hcsv)]
        exact List.map_id' _
      rw [h1]
      exact h1
